import Mathlib

/-! Thread-local variable support (`threadLocalVariables.c`)

A shallow embedding of the lazy allocator, the resolver, the module registry,
the descriptor patcher, the notification handlers, the destructor chain and
the initializer of `threadLocalVariables.c`, followed by the properties proved
about them.

Modelling conventions

* Pointers and `unsigned long` / `uintptr_t` / `intptr_t` values are natural
  numbers below `Arch.wordMod`; `0` is `NULL`.  Integer arithmetic on them is
  taken modulo `Arch.wordMod`.  The source compiles for both pointer widths
  (`#if __LP64__`), so every operation takes the `Arch`.
* Memory is seen through typed views: `World.bytes` (byte loads, used by
  `memcpy` of the template), `World.funcs` (pointer-sized loads, used for the
  initializer tables) and `World.descs` (the `TLVDescriptor` record at an
  address).  `malloc` blocks live in `World.heap`.
* Calls into code outside the file (notification handler blocks, initializer
  functions, terminator functions) are recorded in `World.trace`, together with the stores the
  claims speak about (`pthread_setspecific`, descriptor writes).
* Locks are not modelled: every operation runs to completion on its own.
* `abort()` is `none`; so is an access to the destructor chain beyond the room
  of its block.
* The platform's thread exit runs the key destructors in key creation order
  (`pthread_tsd_cleanup`); the loader calls the registered callback for every
  image already loaded and for every image added later.
-/

namespace TLV

/-! ## Target and Mach-O metadata -/

/-- Pointer width of the target (`__LP64__` or not). -/
inductive Arch where
  | ilp32
  | lp64
deriving DecidableEq, Repr

/-- Value of `sizeof(uintptr_t)` (also `sizeof(unsigned long)` on Darwin). -/
def Arch.ptrBytes : Arch → Nat
  | .ilp32 => 4
  | .lp64 => 8

/-- Modulus of pointer-sized unsigned arithmetic. -/
def Arch.wordMod (a : Arch) : Nat := 2 ^ (8 * a.ptrBytes)

/-- Value of `sizeof(TLVDescriptor)`: a function pointer and two `unsigned long`. -/
def Arch.descSize (a : Arch) : Nat := 3 * a.ptrBytes

/-- Mask `SECTION_TYPE` of `<mach-o/loader.h>`. -/
def SECTION_TYPE : Nat := 0xff

def S_THREAD_LOCAL_REGULAR : Nat := 0x11
def S_THREAD_LOCAL_ZEROFILL : Nat := 0x12
def S_THREAD_LOCAL_VARIABLES : Nat := 0x13
def S_THREAD_LOCAL_VARIABLE_POINTERS : Nat := 0x14
def S_THREAD_LOCAL_INIT_FUNCTION_POINTERS : Nat := 0x15

/-- The fields of `macho_section` the file reads.  `sectname` is the C string
held in the 16-byte name field. -/
structure macho_section where
  sectname : String
  addr : Nat
  size : Nat
  flags : Nat
deriving DecidableEq, Repr

/-- The fields of `macho_segment_command` the file reads, with the `nsects`
section records that follow the command. -/
structure macho_segment_command where
  vmaddr : Nat
  filesize : Nat
  sects : List macho_section
deriving DecidableEq, Repr

/-- A load command: `segment` when `cmd->cmd == LC_SEGMENT_COMMAND`. -/
inductive load_command where
  | segment (seg : macho_segment_command)
  | other
deriving DecidableEq, Repr

/-- The `ncmds` load commands that follow a `mach_header`. -/
structure mach_header where
  cmds : List load_command
deriving DecidableEq, Repr

/-- The expression `sect->flags & SECTION_TYPE`. -/
def sectType (sect : macho_section) : Nat := sect.flags &&& SECTION_TYPE

/-! ## Runtime records -/

/-- Values a descriptor's `thunk` field can hold. -/
inductive Thunk where
  | tlv_bootstrap
  | tls_get_addr
  | unknown (addr : Nat)
deriving DecidableEq, Repr

structure TLVDescriptor where
  thunk : Thunk
  key : Nat
  offset : Nat
deriving DecidableEq, Repr

/-- Registry entry; `mh` is the module's load address. -/
structure TLVImageInfo where
  key : Nat
  mh : Nat
deriving DecidableEq, Repr

inductive dyld_tlv_states where
  | dyld_tlv_state_allocated
  | dyld_tlv_state_deallocated
deriving DecidableEq, Repr

/-- Node of the handler list; `handler` is the copied block (`0` when null). -/
structure TLVHandler where
  handler : Nat
  state : dyld_tlv_states
deriving DecidableEq, Repr

/-- Destructor functions handed to `pthread_key_create` in this file. -/
inductive KeyDestructor where
  | tlv_free
  | tlv_finalize
deriving DecidableEq, Repr

structure TLVTerminatorListEntry where
  termFunc : Nat
  objAddr : Nat
deriving DecidableEq, Repr

/-- The record `struct TLVTerminatorList`.  `entries` holds the contents of the
first entries of the variable-length array (those written so far); `capacity`
is the number of entries the `malloc` block has room for. -/
structure TLVTerminatorList where
  allocCount : Nat
  useCount : Nat
  capacity : Nat
  entries : List TLVTerminatorListEntry
deriving DecidableEq, Repr

/-- A live `malloc` block: address, `malloc_size`, contents. -/
structure HeapBlock where
  ptr : Nat
  msize : Nat
  data : List Nat
deriving DecidableEq, Repr

/-- Observable events, in the order they happen. -/
inductive Event where
  | setspecific (thread key value : Nat)
  | notified (handler : Nat) (state : dyld_tlv_states) (buffer size : Nat)
  | init_called (thread func : Nat)
  | patched (d : Nat) (isTLVSection : Bool)
  | term_called (func objAddr : Nat)
  | freed (ptr : Nat)
deriving DecidableEq, Repr

/-- Process state. -/
structure World where
  /-- Module metadata found at a load address. -/
  image : Nat → mach_header
  /-- Byte loads from image memory. -/
  bytes : Nat → Nat
  /-- Pointer-sized loads from image memory. -/
  funcs : Nat → Nat
  /-- Descriptor record stored at an address. -/
  descs : Nat → TLVDescriptor
  /-- Live heap blocks, most recent first. -/
  heap : List HeapBlock
  /-- Allocator size rounding: `malloc_size` of a block requested with `n` bytes. -/
  good_size : Nat → Nat
  /-- Array `tlv_live_images` (`none` is `NULL`). -/
  tlv_live_images : Option (List TLVImageInfo)
  tlv_live_image_alloc_count : Nat
  tlv_live_image_used_count : Nat
  /-- List `tlv_handlers`, head first. -/
  tlv_handlers : List TLVHandler
  /-- Keys created so far with their destructors, in creation order. -/
  pthread_keys : List (Nat × KeyDestructor)
  /-- Key the next successful `pthread_key_create` hands out. -/
  nextKey : Nat
  /-- Number of keys the platform can still create. -/
  keysLeft : Nat
  /-- Per-thread values: `tsd thread key`. -/
  tsd : Nat → Nat → Nat
  trace : List Event
  /-- The variable `tlv_terminators_key`. -/
  tlv_terminators_key : Nat := 0
  /-- Destructor chain stored at an address. -/
  chains : Nat → Option TLVTerminatorList := fun _ => none
  /-- Images the loader has loaded, in load order. -/
  loaded : List Nat := []
  /-- Whether `init_tlv_on_add_image` is registered with the loader. -/
  add_image_registered : Bool := false

/-! ## Platform primitives -/

/-- Address handed out by `malloc`: non-null and above every live block. -/
def freshPtr (heap : List HeapBlock) : Nat :=
  (heap.map (fun b => b.ptr + b.msize)).foldr max 0 + 16

/-- Call `malloc(size)`; the source never checks the result, allocation is
taken to succeed.  The new block's contents are unspecified (zeros here). -/
def malloc (size : Nat) (w : World) : Nat × World :=
  let p := freshPtr w.heap
  (p, { w with heap := ⟨p, w.good_size size, List.replicate size 0⟩ :: w.heap })

/-- Call `malloc_size(p)`: zero for a pointer that is no live block. -/
def malloc_size (p : Nat) (w : World) : Nat :=
  match w.heap.find? (fun b => b.ptr == p) with
  | some b => b.msize
  | none => 0

/-- Call `memcpy(dst, src, n)` from image memory into the heap block `dst`. -/
def memcpy (dst src n : Nat) (w : World) : World :=
  { w with heap := w.heap.map (fun b =>
      if b.ptr = dst then
        { b with data := (List.range n).map (fun i => w.bytes (src + i)) ++ b.data.drop n }
      else b) }

def pthread_getspecific (thread key : Nat) (w : World) : Nat := w.tsd thread key

def pthread_setspecific (thread key value : Nat) (w : World) : World :=
  { w with
    tsd := fun t k => if t = thread ∧ k = key then value else w.tsd t k
    trace := w.trace ++ [Event.setspecific thread key value] }

/-- Call `pthread_key_create(&key, destructor)`: `none` when it fails. -/
def pthread_key_create (destructor : KeyDestructor) (w : World) : Option (Nat × World) :=
  if w.keysLeft = 0 then none
  else some (w.nextKey,
    { w with
      pthread_keys := w.pthread_keys ++ [(w.nextKey, destructor)]
      nextKey := w.nextKey + 1
      keysLeft := w.keysLeft - 1 })

/-! ## Module registry -/

/-- Entry value standing for uninitialised array storage. -/
def garbageEntry : TLVImageInfo := ⟨0, 0⟩

/-- Register call.  The array is a list of `alloc_count` entries and the
counts are `unsigned int`; the byte size handed to `malloc` is not modelled (it
does not wrap up to `registryLimit` entries), and a copy or store beyond the
array, undefined behaviour in the source, is dropped. -/
def tlv_set_key_for_image (mh key : Nat) (w : World) : World :=
  let w1 : World :=
    if w.tlv_live_image_used_count = w.tlv_live_image_alloc_count then
      let newCount : Nat :=
        match w.tlv_live_images with
        | none => 8
        | some _ => (2 * w.tlv_live_image_alloc_count) % 2 ^ 32
      let newBuffer : List TLVImageInfo :=
        match w.tlv_live_images with
        | none => List.replicate newCount garbageEntry
        | some old =>
          (old.take w.tlv_live_image_used_count
            ++ List.replicate (newCount - w.tlv_live_image_used_count) garbageEntry).take newCount
      { w with tlv_live_images := some newBuffer, tlv_live_image_alloc_count := newCount }
    else w
  { w1 with
    tlv_live_images :=
      w1.tlv_live_images.map (fun buf => buf.set w1.tlv_live_image_used_count ⟨key, mh⟩)
    tlv_live_image_used_count := (w1.tlv_live_image_used_count + 1) % 2 ^ 32 }

/-- Linear scan of the used entries; `0` (`NULL`) when no entry has the key. -/
def tlv_get_image_for_key (key : Nat) (w : World) : Nat :=
  match w.tlv_live_images with
  | none => 0
  | some buf =>
    match (buf.take w.tlv_live_image_used_count).find? (fun e => e.key == key) with
    | some e => e.mh
    | none => 0

/-! ## Notification list -/

def tlv_notify (state : dyld_tlv_states) (buffer : Nat) (w : World) : World :=
  if w.tlv_handlers = [] then w
  else
    let size := malloc_size buffer w
    w.tlv_handlers.foldl (fun w h =>
      if h.state = state ∧ h.handler ≠ 0 then
        { w with trace := w.trace ++ [Event.notified h.handler h.state buffer size] }
      else w) w

/-! ## Lazy allocator -/

/-- Locals of the first pass of `tlv_allocate_and_initialize_for_key`. -/
structure ScanState where
  start : Nat
  size : Nat
  slide : Nat
  slideComputed : Bool
  hasInitializers : Bool
deriving DecidableEq, Repr

/-- Body of the `switch` on the section type (first pass). -/
def scanSection (a : Arch) (st : ScanState) (sect : macho_section) : ScanState :=
  if sectType sect = S_THREAD_LOCAL_INIT_FUNCTION_POINTERS then
    { st with hasInitializers := true }
  else if sectType sect = S_THREAD_LOCAL_ZEROFILL ∨ sectType sect = S_THREAD_LOCAL_REGULAR then
    if st.start = 0 then
      { st with start := (sect.addr + st.slide) % a.wordMod, size := sect.size }
    else
      let newEnd := (sect.addr + st.slide + sect.size) % a.wordMod
      { st with size := (newEnd + a.wordMod - st.start) % a.wordMod }
  else st

/-- The statement `slide = (uintptr_t)mh - seg->vmaddr`. -/
def computeSlide (a : Arch) (mh : Nat) (seg : macho_segment_command) : Nat :=
  (mh + (a.wordMod - seg.vmaddr % a.wordMod)) % a.wordMod

/-- Body of the loop over load commands (first pass). -/
def scanCommand (a : Arch) (mh : Nat) (st : ScanState) : load_command → ScanState
  | .other => st
  | .segment seg =>
    let st1 : ScanState :=
      if !st.slideComputed && seg.filesize != 0 then
        { st with slide := computeSlide a mh seg, slideComputed := true }
      else st
    seg.sects.foldl (scanSection a) st1

/-- First pass: find size and template. -/
def firstPass (a : Arch) (mh : Nat) (cmds : List load_command) : ScanState :=
  cmds.foldl (scanCommand a mh) ⟨0, 0, 0, false, false⟩

/-- Call of one initializer function; its body is outside the file. -/
def callInitFunc (thread func : Nat) (w : World) : World :=
  { w with trace := w.trace ++ [Event.init_called thread func] }

/-- Body of the loop over sections (second pass). -/
def runInitSection (a : Arch) (thread slide : Nat) (w : World) (sect : macho_section) : World :=
  if sectType sect = S_THREAD_LOCAL_INIT_FUNCTION_POINTERS then
    let funcs := (sect.addr + slide) % a.wordMod
    let count := sect.size / a.ptrBytes
    (List.range count).reverse.foldl
      (fun w i => callInitFunc thread (w.funcs (funcs + i * a.ptrBytes)) w) w
  else w

/-- Body of the loop over load commands (second pass). -/
def runInitCommand (a : Arch) (thread slide : Nat) (w : World) : load_command → World
  | .other => w
  | .segment seg => seg.sects.foldl (runInitSection a thread slide) w

/-- Second pass: run initializers. -/
def secondPass (a : Arch) (thread slide : Nat) (cmds : List load_command) (w : World) : World :=
  cmds.foldl (runInitCommand a thread slide) w

/-- Lines from the first pass up to `pthread_setspecific(key, buffer)`, for the
module `mh` found in the registry. -/
def allocateAndPublish (a : Arch) (thread key mh : Nat) (w : World) : Nat × World :=
  let st := firstPass a mh (w.image mh).cmds
  let r := malloc st.size w
  let w2 := memcpy r.1 st.start st.size r.2
  (r.1, pthread_setspecific thread key r.1 w2)

/-- Lazy allocator, run by thread `thread`. -/
def tlv_allocate_and_initialize_for_key (a : Arch) (thread key : Nat) (w : World) : Nat × World :=
  let mh := tlv_get_image_for_key key w
  if mh = 0 then (0, w)
  else
    let st := firstPass a mh (w.image mh).cmds
    let r := allocateAndPublish a thread key mh w
    let w4 := tlv_notify .dyld_tlv_state_allocated r.1 r.2
    let w5 := if st.hasInitializers then secondPass a thread st.slide (w.image mh).cmds w4 else w4
    (r.1, w5)

/-! ## Resolver -/

/-- Resolver, run by thread `thread` on the descriptor record `tlvd`. -/
def __tls_get_addr (a : Arch) (thread : Nat) (tlvd : TLVDescriptor) (w : World) : Nat × World :=
  let p := pthread_getspecific thread tlvd.key w
  let r := if p = 0 then tlv_allocate_and_initialize_for_key a thread tlvd.key w else (p, w)
  ((r.1 + tlvd.offset) % a.wordMod, r.2)

/-! ## Descriptor patcher -/

/-- The test of `findTlvStart` on a section. -/
def isTemplateSection (sect : macho_section) : Bool :=
  sectType sect == S_THREAD_LOCAL_ZEROFILL || sectType sect == S_THREAD_LOCAL_REGULAR

/-- Find start of TLV template among the sections of one segment. -/
def findTlvStart (a : Arch) (sects : List macho_section) (slide : Nat) : Nat :=
  match sects.find? isTemplateSection with
  | some sect => (sect.addr + slide) % a.wordMod
  | none => 0

/-- Locals of `tlv_initialize_descriptors`. -/
structure PatchLocals where
  tlvstart : Nat
  key : Nat
  slide : Nat
  slideComputed : Bool
deriving DecidableEq, Repr

/-- Addresses visited by `for (d = start; d < end; ++d)`; pointer increments
do not wrap. -/
def descriptorAddrs (a : Arch) (start stop : Nat) : List Nat :=
  (List.range ((stop - start + (a.descSize - 1)) / a.descSize)).map
    (fun i => start + i * a.descSize)

/-- Body of the loop over the descriptors of one section. -/
def patchDescriptor (a : Arch) (key tlvstart : Nat) (isTLVSection : Bool) (w : World)
    (d : Nat) : World :=
  let old := w.descs d
  let new : TLVDescriptor :=
    { thunk := Thunk.tls_get_addr
      key := key
      offset :=
        if isTLVSection then old.offset
        else (old.offset + (a.wordMod - tlvstart % a.wordMod)) % a.wordMod }
  { w with
    descs := fun x => if x = d then new else w.descs x
    trace := w.trace ++ [Event.patched d isTLVSection] }

/-- The test `isTLVSection || strcmp("__iostlv", sect->sectname) == 0`. -/
def isDescriptorSection (sect : macho_section) : Bool :=
  sectType sect == S_THREAD_LOCAL_VARIABLES || sect.sectname == "__iostlv"

/-- Body of the loop over the sections of a segment. -/
def patchSection (a : Arch) (mh : Nat) (st : PatchLocals × World) (sect : macho_section) :
    Option (PatchLocals × World) :=
  let isTLVSection : Bool := sectType sect == S_THREAD_LOCAL_VARIABLES
  if isDescriptorSection sect then
    if sect.size ≠ 0 then
      let created : Option (PatchLocals × World) :=
        if st.1.key = 0 then
          match pthread_key_create KeyDestructor.tlv_free st.2 with
          | none => none
          | some r => some ({ st.1 with key := r.1 }, tlv_set_key_for_image mh r.1 r.2)
        else some st
      match created with
      | none => none
      | some st1 =>
        let start := (sect.addr + st1.1.slide) % a.wordMod
        let stop := (sect.addr + sect.size + st1.1.slide) % a.wordMod
        some (st1.1, (descriptorAddrs a start stop).foldl
          (patchDescriptor a st1.1.key st1.1.tlvstart isTLVSection) st1.2)
    else some st
  else some st

/-- Body of the loop over load commands. -/
def patchCommand (a : Arch) (mh : Nat) (st : PatchLocals × World) :
    load_command → Option (PatchLocals × World)
  | .other => some st
  | .segment seg =>
    let l1 : PatchLocals :=
      if !st.1.slideComputed && seg.filesize != 0 then
        { st.1 with slide := computeSlide a mh seg, slideComputed := true }
      else st.1
    let l2 : PatchLocals :=
      if l1.tlvstart = 0 then { l1 with tlvstart := findTlvStart a seg.sects l1.slide } else l1
    if l2.tlvstart ≠ 0 then seg.sects.foldlM (patchSection a mh) (l2, st.2)
    else some (l2, st.2)

/-- The loop of `tlv_initialize_descriptors`, with the final values of its locals. -/
def patchLoop (a : Arch) (mh : Nat) (w : World) : Option (PatchLocals × World) :=
  (w.image mh).cmds.foldlM (patchCommand a mh) (⟨0, 0, 0, false⟩, w)

/-- Called when image is loaded; `none` when `abort()` is reached. -/
def tlv_initialize_descriptors (a : Arch) (mh : Nat) (w : World) : Option World :=
  (patchLoop a mh w).map (fun st => st.2)

def init_tlv_on_add_image (a : Arch) (mh vmaddr_slide : Nat) (w : World) : Option World :=
  let _ := vmaddr_slide
  tlv_initialize_descriptors a mh w

/-! ## Storage deallocation -/

/-- Call `free(p)`. -/
def free (p : Nat) (w : World) : World :=
  { w with
    heap := w.heap.filter (fun b => b.ptr != p)
    chains := fun x => if x = p then none else w.chains x
    trace := w.trace ++ [Event.freed p] }

/-- The pthread destructor for TLV storage. -/
def tlv_free (storage : Nat) (w : World) : World :=
  free storage (tlv_notify dyld_tlv_states.dyld_tlv_state_deallocated storage w)

/-! ## Handler registration and enumeration -/

/-- Registration of a handler block.  `Block_copy` keeps the identity of the
block (a null block stays null); run on its own, the compare-and-swap succeeds
at the first attempt, so the new node becomes the head of the list. -/
def iosdyld_register_tlv_state_change_handler (state : dyld_tlv_states) (handler : Nat)
    (w : World) : World :=
  { w with tlv_handlers := ⟨handler, state⟩ :: w.tlv_handlers }

/-- Enumeration, run by thread `thread`: the first loop fills `list` with the
calling thread's values for the used registry entries, the second loop calls
`handler` on the non-null ones. -/
def iosdyld_enumerate_tlv_storage (thread handler : Nat) (w : World) : World :=
  let list : List Nat :=
    match w.tlv_live_images with
    | none => []
    | some buf =>
      (buf.take w.tlv_live_image_used_count).map (fun e => pthread_getspecific thread e.key w)
  list.foldl (fun w p =>
    if p ≠ 0 then
      { w with
        trace := w.trace ++
          [Event.notified handler dyld_tlv_states.dyld_tlv_state_allocated p (malloc_size p w)] }
    else w) w

/-! ## Destructor chain -/

/-- Value of `offsetof(struct TLVTerminatorList, entries[n])`, a `size_t`: two
`uint32_t` fields, then entries of two pointers each. -/
def offsetofEntries (a : Arch) (n : Nat) : Nat := (8 + n * (2 * a.ptrBytes)) % a.wordMod

/-- Number of entries a block of `bytes` bytes has room for. -/
def entriesCapacity (a : Arch) (bytes : Nat) : Nat := (bytes - 8) / (2 * a.ptrBytes)

/-- Entry value standing for uninitialised array storage. -/
def garbageTermEntry : TLVTerminatorListEntry := ⟨0, 0⟩

/-- The store `entries[i] = e` into the written part `entries` of the array. -/
def writeEntry (entries : List TLVTerminatorListEntry) (i : Nat) (e : TLVTerminatorListEntry) :
    List TLVTerminatorListEntry :=
  if i < entries.length then entries.set i e
  else entries ++ List.replicate (i - entries.length) garbageTermEntry ++ [e]

/-- Append of a terminator, run by thread `thread`.  An access to `entries`
beyond the room of its block is undefined behaviour: `none`.  So is a thread
value that is not a chain. -/
def _tlv_atexit (a : Arch) (thread func objAddr : Nat) (w : World) : Option World :=
  let list := pthread_getspecific thread w.tlv_terminators_key w
  if list = 0 then
    let r := malloc (offsetofEntries a 1) w
    let cap := entriesCapacity a (offsetofEntries a 1)
    if 0 < cap then
      some (pthread_setspecific thread w.tlv_terminators_key r.1
        { r.2 with
          chains := fun x =>
            if x = r.1 then some ⟨1, 1, cap, [⟨func, objAddr⟩]⟩ else r.2.chains x })
    else none
  else
    match w.chains list with
    | none => none
    | some l =>
      let resized : Option (Nat × TLVTerminatorList × World) :=
        if l.allocCount = l.allocCount then
          let newAllocCount := (l.allocCount * 2) % 2 ^ 32
          let newAllocSize := offsetofEntries a newAllocCount
          let r := malloc newAllocSize w
          let cap := entriesCapacity a newAllocSize
          if l.useCount ≤ l.capacity ∧ l.useCount ≤ cap then
            let newlist : TLVTerminatorList :=
              { allocCount := newAllocCount
                useCount := l.useCount
                capacity := cap
                entries :=
                  (List.range l.useCount).map (fun i => l.entries.getD i garbageTermEntry) }
            let w1 := pthread_setspecific thread w.tlv_terminators_key r.1
              { r.2 with chains := fun x => if x = r.1 then some newlist else r.2.chains x }
            some (r.1, newlist, free list w1)
          else none
        else some (list, l, w)
      match resized with
      | none => none
      | some res =>
        if res.2.1.useCount < res.2.1.capacity then
          some
            { res.2.2 with
              chains := fun x =>
                if x = res.1 then
                  some
                    { res.2.1 with
                      entries := writeEntry res.2.1.entries res.2.1.useCount ⟨func, objAddr⟩
                      useCount := (res.2.1.useCount + 1) % 2 ^ 32 }
                else res.2.2.chains x }
        else none

/-- Call of one terminator function; its body is outside the file. -/
def callTermFunc (entry : TLVTerminatorListEntry) (w : World) : World :=
  { w with trace := w.trace ++ [Event.term_called entry.termFunc entry.objAddr] }

/-- The pthread destructor of the chain: `none` when `storage` is not a chain or
an entry beyond the room of the block is read. -/
def tlv_finalize (storage : Nat) (w : World) : Option World :=
  match w.chains storage with
  | none => none
  | some l =>
    ((List.range l.useCount).reverse.foldlM (fun w i =>
        if i < l.capacity then
          if (l.entries.getD i garbageTermEntry).termFunc ≠ 0 then
            some (callTermFunc (l.entries.getD i garbageTermEntry) w)
          else some w
        else none) w).map (free storage)

/-! ## Thread exit and initialization -/

/-- Call of a key's destructor on a thread's value. -/
def runDestructor : KeyDestructor → Nat → World → Option World
  | .tlv_free, value, w => some (tlv_free value w)
  | .tlv_finalize, value, w => tlv_finalize value w

/-- The platform's thread-exit pass over a list of keys, in the order given:
for a key with a non-null value the value is reset to null and the destructor
is called on it.  (The destructors of this file set no thread value, so one
pass is all the platform makes.) -/
def tsdCleanupKeys (thread : Nat) (keys : List (Nat × KeyDestructor)) (w : World) :
    Option World :=
  keys.foldlM (fun w kd =>
    if w.tsd thread kd.1 = 0 then some w
    else
      runDestructor kd.2 (w.tsd thread kd.1)
        { w with tsd := fun t k => if t = thread ∧ k = kd.1 then 0 else w.tsd t k }) w

/-- The platform's `_pthread_tsd_cleanup`: destructors run in key allocation
order. -/
def pthread_tsd_cleanup (thread : Nat) (w : World) : Option World :=
  tsdCleanupKeys thread w.pthread_keys w

/-- The loader's `_dyld_register_func_for_add_image(&init_tlv_on_add_image)`:
the callback is called at once for every image already loaded, and from then
on for every image added. -/
def dyld_register_func_for_add_image (a : Arch) (w : World) : Option World :=
  w.loaded.foldlM (fun w mh => init_tlv_on_add_image a mh 0 w)
    { w with add_image_registered := true }

def tlv_initializer (a : Arch) (w : World) : Option World :=
  let w1 : World :=
    match pthread_key_create KeyDestructor.tlv_finalize w with
    | none => w
    | some r => { r.2 with tlv_terminators_key := r.1 }
  dyld_register_func_for_add_image a w1

/-- What can happen after initialization. -/
inductive Op where
  | add_image (mh : Nat)
  | tls_get_addr (thread d : Nat)
  | tlv_atexit (thread func objAddr : Nat)
  | register_handler (state : dyld_tlv_states) (handler : Nat)
  | enumerate (thread handler : Nat)
  | thread_exit (thread : Nat)
deriving DecidableEq, Repr

/-- One operation: an image is loaded, a thread resolves the descriptor stored
at `d`, appends a terminator or exits, a handler is registered, the storage is
enumerated. -/
def step (a : Arch) (w : World) : Op → Option World
  | .add_image mh =>
    if w.add_image_registered then
      init_tlv_on_add_image a mh 0 { w with loaded := w.loaded ++ [mh] }
    else some { w with loaded := w.loaded ++ [mh] }
  | .tls_get_addr thread d => some (__tls_get_addr a thread (w.descs d) w).2
  | .tlv_atexit thread func objAddr => _tlv_atexit a thread func objAddr w
  | .register_handler state handler =>
    some (iosdyld_register_tlv_state_change_handler state handler w)
  | .enumerate thread handler => some (iosdyld_enumerate_tlv_storage thread handler w)
  | .thread_exit thread => pthread_tsd_cleanup thread w

/-- A sequence of operations. -/
def run (a : Arch) (w : World) (ops : List Op) : Option World := ops.foldlM (step a) w

/-! ## Notions used to state the properties -/

/-- Used entries of the registry array, in registration order. -/
def registryEntries (w : World) : List TLVImageInfo :=
  match w.tlv_live_images with
  | none => []
  | some buf => buf.take w.tlv_live_image_used_count

/-- Segments among the load commands, in scan order. -/
def segmentsOf : List load_command → List macho_segment_command
  | [] => []
  | .other :: cs => segmentsOf cs
  | .segment seg :: cs => seg :: segmentsOf cs

/-- Sections of all segments, in scan order. -/
def allSections (cmds : List load_command) : List macho_section :=
  (segmentsOf cmds).flatMap (fun seg => seg.sects)

/-- Thread-local template sections (regular or zero-fill), in scan order. -/
def templateSections (cmds : List load_command) : List macho_section :=
  (allSections cmds).filter isTemplateSection

/-- First segment with non-zero file size, if any. -/
def firstFileSegment (cmds : List load_command) : Option macho_segment_command :=
  (segmentsOf cmds).find? (fun seg => seg.filesize != 0)

/-- Events a step added to the trace. -/
def newEvents (w w1 : World) : List Event := w1.trace.drop w.trace.length

/-! ## Example module

A 32-bit image loaded at `0x5000`: a `__TEXT` segment linked at `0x1000` and a
`__DATA` segment holding a custom descriptor section, a 16-byte regular and an
8-byte zero-fill template section, a standard descriptor section and an
initializer table of two entries. -/

def exIostlv : macho_section := ⟨"__iostlv", 0x2100, 24, 0⟩
def exThreadData : macho_section := ⟨"__thread_data", 0x2000, 16, 0x11⟩
def exThreadBss : macho_section := ⟨"__thread_bss", 0x2010, 8, 0x12⟩
def exThreadVars : macho_section := ⟨"__thread_vars", 0x2200, 12, 0x13⟩
def exThreadInit : macho_section := ⟨"__thread_init", 0x2300, 8, 0x15⟩
def exText : macho_segment_command := ⟨0x1000, 0x1000, []⟩
def exData : macho_segment_command :=
  ⟨0x2000, 0x1000, [exIostlv, exThreadData, exThreadBss, exThreadVars, exThreadInit]⟩
def exHeader : mach_header := ⟨[.other, .segment exText, .segment exData]⟩

/-- Process state before the example module is patched. -/
def exWorld : World :=
  { image := fun _ => exHeader
    bytes := fun x => x % 256
    funcs := fun x => x + 1
    descs := fun x => ⟨Thunk.tlv_bootstrap, 0, x⟩
    heap := []
    good_size := fun n => n
    tlv_live_images := none
    tlv_live_image_alloc_count := 0
    tlv_live_image_used_count := 0
    tlv_handlers := [⟨7, dyld_tlv_states.dyld_tlv_state_allocated⟩]
    pthread_keys := []
    nextKey := 5
    keysLeft := 3
    tsd := fun _ _ => 0
    trace := [] }

/-- The example state once slot 5 is registered to the module at `0x5000`. -/
def exRegistered : World := tlv_set_key_for_image 0x5000 5 exWorld

/-- The example state of a thread whose value for every slot is `0x40`. -/
def exBound : World := { exRegistered with tsd := fun _ _ => 0x40 }

/-! ## Notions used to state the properties of the two scans -/

def isInitSection (sect : macho_section) : Bool :=
  sectType sect == S_THREAD_LOCAL_INIT_FUNCTION_POINTERS

/-- Entries of an initializer table, in table order. -/
def initTable (a : Arch) (funcs : Nat → Nat) (slide : Nat) (sect : macho_section) : List Nat :=
  (List.range (sect.size / a.ptrBytes)).map
    (fun i => funcs ((sect.addr + slide) % a.wordMod + i * a.ptrBytes))

/-- Handler invocations of one notification. -/
def notifyEvents (handlers : List TLVHandler) (state : dyld_tlv_states) (buffer size : Nat) :
    List Event :=
  (handlers.filter (fun h => h.state = state ∧ h.handler ≠ 0)).map
    (fun h => Event.notified h.handler state buffer size)

/-- Initializer calls of the second pass over the given sections. -/
def initEvents (a : Arch) (thread slide : Nat) (funcs : Nat → Nat) (sects : List macho_section) :
    List Event :=
  (sects.filter isInitSection).flatMap
    (fun sect => (initTable a funcs slide sect).reverse.map (Event.init_called thread))

/-- Slide in force once the commands are scanned, starting with `slide0`
(computed already or not). -/
def slideAfter (a : Arch) (mh : Nat) (computed : Bool) (slide0 : Nat)
    (cmds : List load_command) : Nat :=
  if computed then slide0
  else
    match firstFileSegment cmds with
    | some seg => computeSlide a mh seg
    | none => slide0

/-- Some template section lies in a segment scanned before the first segment
with non-zero file size. -/
def templateBeforeFileSegment (cmds : List load_command) : Bool :=
  (firstFileSegment cmds).isSome &&
    ((segmentsOf cmds).takeWhile (fun seg => seg.filesize == 0)).any
      (fun seg => seg.sects.any isTemplateSection)

/-- Effect of one template section on `(start, size)` under a fixed slide. -/
def templateStep (a : Arch) (slide : Nat) (acc : Nat × Nat) (sect : macho_section) : Nat × Nat :=
  if acc.1 = 0 then ((sect.addr + slide) % a.wordMod, sect.size)
  else (acc.1, ((sect.addr + slide + sect.size) % a.wordMod + a.wordMod - acc.1) % a.wordMod)

/-- Each section of the list begins where the one before it ends, the first
one where `prev` ends. -/
def contiguousFrom : macho_section → List macho_section → Bool
  | _, [] => true
  | prev, t :: ts => t.addr == prev.addr + prev.size && contiguousFrom t ts

/-- Each later section begins where the previous one ends. -/
def contiguousSections : List macho_section → Bool
  | [] => true
  | t :: ts => contiguousFrom t ts

/-- Initial values of the locals of `tlv_initialize_descriptors`. -/
def initialLocals : PatchLocals := ⟨0, 0, 0, false⟩

/-- Locals after the slide and template-start steps of the loop body for one
segment. -/
def segmentLocals (a : Arch) (mh : Nat) (l : PatchLocals) (seg : macho_segment_command) :
    PatchLocals :=
  let l1 : PatchLocals :=
    if !l.slideComputed && seg.filesize != 0 then
      { l with slide := computeSlide a mh seg, slideComputed := true }
    else l
  if l1.tlvstart = 0 then { l1 with tlvstart := findTlvStart a seg.sects l1.slide } else l1

/-- A descriptor section of non-zero size. -/
def isPatchable (sect : macho_section) : Bool :=
  isDescriptorSection sect && sect.size != 0

/-- Descriptor writes made for one section scanned under `slide`: address and
the flag `isTLVSection`. -/
def sectionWrites (a : Arch) (slide : Nat) (sect : macho_section) : List (Nat × Bool) :=
  (descriptorAddrs a ((sect.addr + slide) % a.wordMod)
      ((sect.addr + sect.size + slide) % a.wordMod)).map
    (fun d => (d, sectType sect == S_THREAD_LOCAL_VARIABLES))

/-- Descriptor sections of non-zero size the loop body reaches, each with the
slide in force: those of a segment scanned once `tlvstart` is non-null. -/
def reachedSections (a : Arch) (mh : Nat) (l : PatchLocals) :
    List load_command → List (Nat × macho_section)
  | [] => []
  | .other :: cs => reachedSections a mh l cs
  | .segment seg :: cs =>
    (if (segmentLocals a mh l seg).tlvstart ≠ 0 then
        (seg.sects.filter isPatchable).map (fun s => ((segmentLocals a mh l seg).slide, s))
      else [])
      ++ reachedSections a mh (segmentLocals a mh l seg) cs

/-- Values of `tlvstart`, `slide` and `slideComputed` once the commands are scanned. -/
def localsAfter (a : Arch) (mh : Nat) (l : PatchLocals) : List load_command → PatchLocals
  | [] => l
  | .other :: cs => localsAfter a mh l cs
  | .segment seg :: cs => localsAfter a mh (segmentLocals a mh l seg) cs

/-- Value of the local `tlvstart` when the patcher's loop ends. -/
def patcherTlvStart (a : Arch) (mh : Nat) (hdr : mach_header) : Nat :=
  (localsAfter a mh initialLocals hdr.cmds).tlvstart

/-- Descriptor writes of one run of the patcher over a module, in order. -/
def moduleWrites (a : Arch) (mh : Nat) (hdr : mach_header) : List (Nat × Bool) :=
  (reachedSections a mh initialLocals hdr.cmds).flatMap (fun r => sectionWrites a r.1 r.2)

/-- The statement `if ( key == 0 ) { ... }`: create and register the slot. -/
def ensureKey (mh key : Nat) (w : World) : Option (Nat × World) :=
  if key = 0 then
    match pthread_key_create KeyDestructor.tlv_free w with
    | none => none
    | some r => some (r.1, tlv_set_key_for_image mh r.1 r.2)
  else some (key, w)

/-- The record a descriptor write stores. -/
def writeDesc (a : Arch) (key tlvstart : Nat) (isTLVSection : Bool) (old : TLVDescriptor) :
    TLVDescriptor :=
  { thunk := Thunk.tls_get_addr
    key := key
    offset :=
      if isTLVSection then old.offset
      else (old.offset + (a.wordMod - tlvstart % a.wordMod)) % a.wordMod }

/-- The offset a descriptor write stores. -/
def offsetAfter (a : Arch) (tlvstart : Nat) (isTLVSection : Bool) (offset : Nat) : Nat :=
  if isTLVSection then offset else (offset + (a.wordMod - tlvstart % a.wordMod)) % a.wordMod

/-- The event of a descriptor write. -/
def writeEvent (wr : Nat × Bool) : Event := Event.patched wr.1 wr.2

/-- An event that is a write to the descriptor at `d`. -/
def isWriteTo (d : Nat) : Event → Bool
  | .patched x _ => x == d
  | _ => false

/-- A sequence of descriptor writes with a given slot and template start. -/
def applyWrites (a : Arch) (key tlvstart : Nat) (ws : List (Nat × Bool)) (w : World) : World :=
  ws.foldl (fun w wr => patchDescriptor a key tlvstart wr.2 w wr.1) w

/-- What the loop body does for one reached section. -/
def reachStep (a : Arch) (mh tlvstart : Nat) (st : Nat × World) (r : Nat × macho_section) :
    Option (Nat × World) :=
  (ensureKey mh st.1 st.2).map
    (fun r1 => (r1.1, applyWrites a r1.1 tlvstart (sectionWrites a r.1 r.2) r1.2))

/-- The three registry variables. -/
def registryState (w : World) : Option (List TLVImageInfo) × Nat × Nat :=
  (w.tlv_live_images, w.tlv_live_image_alloc_count, w.tlv_live_image_used_count)

/-- The registry variables are consistent: no array and both counts zero, or an
array of `alloc_count` entries (at least one, fewer than `2 ^ 31`) of which the
first `used_count` are in use. -/
def registryOk (w : World) : Prop :=
  match w.tlv_live_images with
  | none => w.tlv_live_image_alloc_count = 0 ∧ w.tlv_live_image_used_count = 0
  | some buf =>
    buf.length = w.tlv_live_image_alloc_count
    ∧ w.tlv_live_image_used_count ≤ w.tlv_live_image_alloc_count
    ∧ 0 < w.tlv_live_image_alloc_count
    ∧ w.tlv_live_image_alloc_count < 2 ^ 31

/-! ## Further example modules -/

/-- Locals and state when the patcher's loop has run over the example module. -/
def exPatched : PatchLocals × World :=
  (patchLoop Arch.ilp32 0x5000 exWorld).getD (initialLocals, exWorld)

/-- State after a second run of the patcher over the example module. -/
def exPatchedTwice : World :=
  (tlv_initialize_descriptors Arch.ilp32 0x5000 exPatched.2).getD exPatched.2

/-- A zero-fill template section in a segment of file size zero, scanned before
the first segment with non-zero file size. -/
def cxOrderCmds : List load_command :=
  [.segment ⟨0x3000, 0, [⟨"__thread_bss", 0x3000, 8, 0x12⟩]⟩, .segment ⟨0x1000, 0x1000, []⟩]

/-- Two contiguous template sections, the first at slid address zero. -/
def cxNullCmds : List load_command :=
  [.segment ⟨0x1000, 0x1000, [⟨"__thread_data", 0, 8, 0x11⟩, ⟨"__thread_bss", 8, 8, 0x12⟩]⟩]

/-- Two contiguous template sections whose sizes add up to `2 ^ 32`. -/
def cxWrapCmds : List load_command :=
  [.segment ⟨0x1000, 0x1000,
    [⟨"__thread_data", 0x1000, 0x1000, 0x11⟩, ⟨"__thread_bss", 0x2000, 0xFFFFF000, 0x12⟩]⟩]

/-- A custom descriptor section in the segment before the one that holds the
template and a standard descriptor section. -/
def cxSplitHeader : mach_header :=
  ⟨[.segment ⟨0x1000, 0x1000, []⟩,
    .segment ⟨0x2000, 0x1000, [⟨"__iostlv", 0x2100, 12, 0⟩]⟩,
    .segment ⟨0x3000, 0x1000,
      [⟨"__thread_data", 0x3000, 16, 0x11⟩, ⟨"__thread_vars", 0x3100, 12, 0x13⟩]⟩]⟩

def cxSplitWorld : World := { exWorld with image := fun _ => cxSplitHeader }

/-- Descriptor sections but no template section. -/
def cxNoTemplateHeader : mach_header :=
  ⟨[.segment ⟨0x1000, 0x1000, []⟩,
    .segment ⟨0x2000, 0x1000,
      [⟨"__iostlv", 0x2100, 24, 0⟩, ⟨"__thread_vars", 0x2200, 12, 0x13⟩]⟩]⟩

def cxNoTemplateWorld : World := { exWorld with image := fun _ => cxNoTemplateHeader }

/-! ## Notions used to state the properties of the registry, the handlers and the chain -/

/-- The registry variables are consistent and the counts, both `unsigned int`,
leave room for one more entry: no array and both counts zero, or an array of
`alloc_count` entries (at least one, at most `2 ^ 31`) of which the first
`used_count`, fewer than `2 ^ 31`, are in use. -/
def registryFits (w : World) : Prop :=
  match w.tlv_live_images with
  | none => w.tlv_live_image_alloc_count = 0 ∧ w.tlv_live_image_used_count = 0
  | some buf =>
    buf.length = w.tlv_live_image_alloc_count
    ∧ w.tlv_live_image_used_count ≤ w.tlv_live_image_alloc_count
    ∧ 0 < w.tlv_live_image_alloc_count
    ∧ w.tlv_live_image_alloc_count ≤ 2 ^ 31
    ∧ w.tlv_live_image_used_count < 2 ^ 31

/-- Largest number of entries for which neither the doubled count (an
`unsigned int`) nor the byte size `sizeof(TLVImageInfo)*newCount` of the array
(a `size_t`, two pointer-sized fields per entry) wraps. -/
def registryLimit : Arch → Nat
  | .ilp32 => 2 ^ 28
  | .lp64 => 2 ^ 31

/-- The registry has room for one more entry on the target `a`: it is
consistent, the array has at most `registryLimit a` entries and fewer than that
are in use. -/
def registryRoom (a : Arch) (w : World) : Prop :=
  registryFits w
  ∧ w.tlv_live_image_alloc_count ≤ registryLimit a
  ∧ w.tlv_live_image_used_count < registryLimit a

/-- A run of register calls, each a pair (module, slot). -/
def registerAll (regs : List (Nat × Nat)) (w : World) : World :=
  regs.foldl (fun w r => tlv_set_key_for_image r.1 r.2 w) w

/-- A run of handler registrations, each a pair (kind, handler). -/
def registerHandlers (regs : List (dyld_tlv_states × Nat)) (w : World) : World :=
  regs.foldl (fun w r => iosdyld_register_tlv_state_change_handler r.1 r.2 w) w

/-- The callback invocations of one enumeration by `thread`. -/
def enumerateEvents (thread handler : Nat) (w : World) : List Event :=
  (registryEntries w).filterMap (fun e =>
    if w.tsd thread e.key ≠ 0 then
      some (Event.notified handler dyld_tlv_states.dyld_tlv_state_allocated (w.tsd thread e.key)
        (malloc_size (w.tsd thread e.key) w))
    else none)

/-- A state in which thread 2 holds a live buffer at `0x40` for the registered
slot 5 and thread 1 holds none. -/
def cxTwoThreads : World :=
  { exRegistered with
    heap := [⟨0x40, 24, List.replicate 24 0⟩]
    tsd := fun t k => if t = 2 ∧ k = 5 then 0x40 else 0 }

/-- A run of appends by one thread, in order. -/
def atexitAll (a : Arch) (thread : Nat) (es : List TLVTerminatorListEntry) (w : World) :
    Option World :=
  es.foldlM (fun w e => _tlv_atexit a thread e.termFunc e.objAddr w) w

/-- The chain of a thread, if it has one. -/
def chainOf (thread : Nat) (w : World) : Option TLVTerminatorList :=
  w.chains (w.tsd thread w.tlv_terminators_key)

/-- Number of appends up to which the doubled capacity still fits: the byte
size of the block as a `size_t`, and the capacity as a `uint32_t`. -/
def maxAppends : Arch → Nat
  | .ilp32 => 29
  | .lp64 => 32

/-- The calls of a thread exit on a chain holding `es`. -/
def termEvents (es : List TLVTerminatorListEntry) : List Event :=
  (es.reverse.filter (fun e => e.termFunc ≠ 0)).map (fun e => Event.term_called e.termFunc e.objAddr)

/-- The finalizer calls of a trace, as pairs (finalizer, object address). -/
def termCalls (t : List Event) : List (Nat × Nat) :=
  t.filterMap (fun e => match e with
    | Event.term_called f o => some (f, o)
    | _ => none)

/-- The state of a thread's chain after `k + 1` appends of `es`. -/
def ChainAfter (thread k : Nat) (es : List TLVTerminatorListEntry) (w : World) : Prop :=
  w.tsd thread w.tlv_terminators_key ≠ 0
  ∧ (∃ b ∈ w.heap, b.ptr = w.tsd thread w.tlv_terminators_key)
  ∧ chainOf thread w = some ⟨2 ^ k, k + 1, 2 ^ k, es⟩
  ∧ es.length = k + 1

/-- The chain example of the specification: entries A, B, C. -/
def exChainABC : List TLVTerminatorListEntry := [⟨0xA0, 1⟩, ⟨0xB0, 2⟩, ⟨0xC0, 3⟩]

/-- Thirty-three entries. -/
def exChain33 : List TLVTerminatorListEntry := List.replicate 33 ⟨0xA0, 1⟩

/-! ## Notions used to state the properties of executions -/

/-- The live block at an address, if any. -/
def blockAt (p : Nat) (w : World) : Option HeapBlock := w.heap.find? (fun b => b.ptr == p)

/-- What one or more operations leave in place, seen from the address `buf`:
the trace grows; the block at `buf` stays as it is unless `buf` is freed; a
`deallocated` notification for `buf` comes with a free of `buf`; keys are only
added, each with the storage destructor and each using up one of the keys the
platform has left; handlers are only prepended; the chain's key variable is
not written. -/
def Frame (buf : Nat) (w w1 : World) : Prop :=
  ∃ t, w1.trace = w.trace ++ t
    ∧ ((blockAt buf w).isSome → Event.freed buf ∉ t → blockAt buf w1 = blockAt buf w)
    ∧ (∀ h s, Event.notified h dyld_tlv_states.dyld_tlv_state_deallocated buf s ∈ t →
        Event.freed buf ∈ t)
    ∧ (∃ more, w1.pthread_keys = w.pthread_keys ++ more
        ∧ (∀ k ∈ more, k.2 = KeyDestructor.tlv_free)
        ∧ w1.keysLeft + more.length = w.keysLeft)
    ∧ (∃ hs, w1.tlv_handlers = hs ++ w.tlv_handlers)
    ∧ w1.tlv_terminators_key = w.tlv_terminators_key

/-- Events of the chain's destructor on one of the values `vals`: finalizer
calls and the free of the chain. -/
def isChainExitEvent (vals : List Nat) : Event → Bool
  | .term_called _ _ => true
  | .freed p => decide (p ∈ vals)
  | _ => false

/-- Events of the storage destructor on one of the values `vals`: `deallocated`
notifications for it and its free. -/
def isStorageExitEvent (vals : List Nat) : Event → Bool
  | .notified _ .dyld_tlv_state_deallocated p _ => decide (p ∈ vals)
  | .freed p => decide (p ∈ vals)
  | _ => false

/-- Events of a destructor on one of the values `vals`. -/
def isExitEvent : KeyDestructor → List Nat → Event → Bool
  | .tlv_finalize, vals, e => isChainExitEvent vals e
  | .tlv_free, vals, e => isStorageExitEvent vals e

/-- The non-null values a thread holds for the keys with destructor `D`. -/
def exitValues (thread : Nat) (D : KeyDestructor) (w : World) : List Nat :=
  ((w.pthread_keys.filter (fun k => k.2 = D)).map (fun k => w.tsd thread k.1)).filter
    (fun v => v ≠ 0)

/-- The example state before initialization: the example module is loaded, a
handler is registered for each kind. -/
def exLoaded : World :=
  { exWorld with
    loaded := [0x5000]
    tlv_handlers := [⟨8, dyld_tlv_states.dyld_tlv_state_deallocated⟩,
      ⟨7, dyld_tlv_states.dyld_tlv_state_allocated⟩] }

/-- The example state after initialization: key 5 is the chain's, key 6 the
example module's. -/
def exInitialized : World := (tlv_initializer Arch.ilp32 exLoaded).getD exLoaded

/-- Thread 1 resolves a variable of the example module, then appends the
terminators A, B, C. -/
def exOps : List Op :=
  [Op.tls_get_addr 1 0x6100, Op.tlv_atexit 1 0xA0 1, Op.tlv_atexit 1 0xB0 2, Op.tlv_atexit 1 0xC0 3]

/-- The example state after these operations. -/
def exRan : World := (run Arch.ilp32 exInitialized exOps).getD exInitialized

/-- The example state after the exit of thread 1. -/
def exExited : World := (pthread_tsd_cleanup 1 exRan).getD exRan

/-- Thread 1 allocates its buffer for the example module. -/
def exAllocated : Nat × World := tlv_allocate_and_initialize_for_key Arch.ilp32 1 6 exInitialized

/-- Thread 1 has appended one terminator after the allocation. -/
def exBeforeExit : World :=
  (run Arch.ilp32 exAllocated.2 [Op.tlv_atexit 1 0xA0 1]).getD exAllocated.2

/-- Thread 1 exits: the chain's destructor has run. -/
def exChainFinalized : World :=
  (tsdCleanupKeys 1 [(5, KeyDestructor.tlv_finalize)] exBeforeExit).getD exBeforeExit

/-! ## Notions used to compare the two scans -/

/-- Slid address of the first template section in scan order, under the slide
in force when its segment is scanned (`computed` and `slide` are the values of
`slideComputed` and `slide` before the commands); `none` when the commands hold
no template section. -/
def leadingTemplate (a : Arch) (mh : Nat) : Bool → Nat → List load_command → Option Nat
  | _, _, [] => none
  | computed, slide, .other :: cs => leadingTemplate a mh computed slide cs
  | computed, slide, .segment seg :: cs =>
    match seg.sects.find? isTemplateSection with
    | some sect =>
      some ((sect.addr
        + (if !computed && seg.filesize != 0 then computeSlide a mh seg else slide)) % a.wordMod)
    | none =>
      leadingTemplate a mh (computed || seg.filesize != 0)
        (if !computed && seg.filesize != 0 then computeSlide a mh seg else slide) cs

/-- The example state with a variable at template address `0x6004` behind
every descriptor. -/
def exVarWorld : World := { exWorld with descs := fun _ => ⟨Thunk.tlv_bootstrap, 0, 0x6004⟩ }

/-- Locals and state when the patcher's loop has run over it. -/
def exVarPatched : PatchLocals × World :=
  (patchLoop Arch.ilp32 0x5000 exVarWorld).getD (initialLocals, exVarWorld)

/-! ## The template in the specification's words -/

theorem freshPtr_gt (heap : List HeapBlock) : ∀ b ∈ heap, b.ptr < freshPtr heap := by
  induction heap with
  | nil => intro b hb; cases hb
  | cons x xs ih =>
    intro b hb
    simp only [freshPtr, List.map_cons, List.foldr_cons] at ih ⊢
    rcases List.mem_cons.mp hb with h | h
    · subst h; omega
    · have := ih b h; omega

theorem map_if_ne {heap : List HeapBlock} {p : Nat} (f : HeapBlock → HeapBlock)
    (h : ∀ b ∈ heap, b.ptr ≠ p) :
    heap.map (fun b => if b.ptr = p then f b else b) = heap := by
  induction heap with
  | nil => rfl
  | cons x xs ih =>
    have hx : x.ptr ≠ p := h x (List.mem_cons_self _ _)
    have hxs : ∀ b ∈ xs, b.ptr ≠ p := fun b hb => h b (List.mem_cons_of_mem _ hb)
    simp [hx, ih hxs]

theorem allocateAndPublish_heap (a : Arch) (thread key mh : Nat) (w : World) :
    (allocateAndPublish a thread key mh w).2.heap =
      ⟨freshPtr w.heap, w.good_size (firstPass a mh (w.image mh).cmds).size,
        (List.range (firstPass a mh (w.image mh).cmds).size).map
          (fun i => w.bytes ((firstPass a mh (w.image mh).cmds).start + i))⟩ :: w.heap := by
  have hne : ∀ b ∈ w.heap, b.ptr ≠ freshPtr w.heap :=
    fun b hb => Nat.ne_of_lt (freshPtr_gt w.heap b hb)
  simp [allocateAndPublish, malloc, memcpy, pthread_setspecific, map_if_ne _ hne]

theorem lookup_of_no_entry (key : Nat) (w : World) (h : ∀ e ∈ registryEntries w, e.key ≠ key) :
    tlv_get_image_for_key key w = 0 := by
  unfold tlv_get_image_for_key
  unfold registryEntries at h
  cases hb : w.tlv_live_images with
  | none => rfl
  | some buf =>
    rw [hb] at h
    simp only at h ⊢
    have : (buf.take w.tlv_live_image_used_count).find? (fun e => e.key == key) = none := by
      rw [List.find?_eq_none]
      intro e he
      simpa using h e he
    rw [this]

/-- C1: the resolver returns base + offset (pointer arithmetic, modulo the word
size), where base is the calling thread's value for the descriptor's key when
that value is non-null and the lazy allocator's result otherwise; when the
value is non-null the process state is left exactly as it was. -/
theorem tls_get_addr_resolves (a : Arch) (thread : Nat) (tlvd : TLVDescriptor) (w : World) :
    (__tls_get_addr a thread tlvd w).1 =
        ((if pthread_getspecific thread tlvd.key w ≠ 0 then pthread_getspecific thread tlvd.key w
          else (tlv_allocate_and_initialize_for_key a thread tlvd.key w).1) + tlvd.offset)
          % a.wordMod
    ∧ (pthread_getspecific thread tlvd.key w = 0 →
        (__tls_get_addr a thread tlvd w).2 =
          (tlv_allocate_and_initialize_for_key a thread tlvd.key w).2)
    ∧ (pthread_getspecific thread tlvd.key w ≠ 0 →
        (__tls_get_addr a thread tlvd w).2 = w) := by
  unfold __tls_get_addr
  by_cases h : pthread_getspecific thread tlvd.key w = 0
  · simp [h]
  · simp [h]

theorem tls_get_addr_resolves_witness :
    pthread_getspecific 1 5 exBound ≠ 0
    ∧ (__tls_get_addr Arch.ilp32 1 ⟨Thunk.tls_get_addr, 5, 12⟩ exBound).1 = 0x4c
    ∧ (__tls_get_addr Arch.ilp32 1 ⟨Thunk.tls_get_addr, 5, 12⟩ exBound).2 = exBound :=
  ⟨by decide, by decide,
    (tls_get_addr_resolves Arch.ilp32 1 ⟨Thunk.tls_get_addr, 5, 12⟩ exBound).2.2 (by decide)⟩

/-- C5: for a slot that has no entry among the used entries of the module
registry, the lazy allocator returns null and leaves the whole process state
as it was: no buffer is allocated, the calling thread's slot value is not set,
no handler is notified and no initializer runs. -/
theorem allocate_unregistered_key (a : Arch) (thread key : Nat) (w : World)
    (h : ∀ e ∈ registryEntries w, e.key ≠ key) :
    tlv_allocate_and_initialize_for_key a thread key w = (0, w) := by
  unfold tlv_allocate_and_initialize_for_key
  simp [lookup_of_no_entry key w h]

theorem allocate_unregistered_key_witness :
    (∀ e ∈ registryEntries exRegistered, e.key ≠ 6)
    ∧ tlv_allocate_and_initialize_for_key Arch.ilp32 1 6 exRegistered = (0, exRegistered) :=
  ⟨by decide, allocate_unregistered_key Arch.ilp32 1 6 exRegistered (by decide)⟩

theorem notify_fold (state : dyld_tlv_states) (buffer size : Nat) (hs : List TLVHandler) (w : World) :
    hs.foldl (fun w h =>
      if h.state = state ∧ h.handler ≠ 0 then
        { w with trace := w.trace ++ [Event.notified h.handler h.state buffer size] }
      else w) w = { w with trace := w.trace ++ notifyEvents hs state buffer size } := by
  induction hs generalizing w with
  | nil => simp [notifyEvents]
  | cons h hs ih =>
    rw [List.foldl_cons, ih]
    by_cases hc : h.state = state ∧ h.handler ≠ 0
    · obtain ⟨h1, h2⟩ := hc
      simp [notifyEvents, List.filter_cons, h1, h2]
    · simp only [if_neg hc]
      simp [notifyEvents, List.filter_cons, hc]

theorem tlv_notify_eq (state : dyld_tlv_states) (buffer : Nat) (w : World) :
    tlv_notify state buffer w =
      { w with trace := w.trace ++ notifyEvents w.tlv_handlers state buffer (malloc_size buffer w) } := by
  unfold tlv_notify
  by_cases h : w.tlv_handlers = []
  · rw [if_pos h]
    cases w
    simp_all [notifyEvents]
  · simp only [if_neg h]
    exact notify_fold state buffer _ _ w

theorem init_fold (thread : Nat) (f : Nat → Nat) (is : List Nat) (w : World) :
    is.foldl (fun w i => callInitFunc thread (w.funcs (f i)) w) w =
      { w with trace := w.trace ++ is.map (fun i => Event.init_called thread (w.funcs (f i))) } := by
  induction is generalizing w with
  | nil => simp
  | cons i is ih =>
    rw [List.foldl_cons, ih]
    simp [callInitFunc]

theorem runInitSection_eq (a : Arch) (thread slide : Nat) (w : World) (sect : macho_section) :
    runInitSection a thread slide w sect =
      { w with trace := w.trace ++ initEvents a thread slide w.funcs [sect] } := by
  unfold runInitSection
  by_cases h : sectType sect = S_THREAD_LOCAL_INIT_FUNCTION_POINTERS
  · simp only [if_pos h]
    rw [init_fold]
    simp [initEvents, isInitSection, h, initTable, List.map_reverse]
  · simp [initEvents, isInitSection, h]

theorem initEvents_append (a : Arch) (thread slide : Nat) (funcs : Nat → Nat)
    (xs ys : List macho_section) :
    initEvents a thread slide funcs (xs ++ ys) =
      initEvents a thread slide funcs xs ++ initEvents a thread slide funcs ys := by
  simp [initEvents, List.flatMap_append]

theorem runInitSections_eq (a : Arch) (thread slide : Nat) (sects : List macho_section) (w : World) :
    sects.foldl (runInitSection a thread slide) w =
      { w with trace := w.trace ++ initEvents a thread slide w.funcs sects } := by
  induction sects generalizing w with
  | nil => simp [initEvents]
  | cons s ss ih =>
    rw [List.foldl_cons, ih, runInitSection_eq]
    have : s :: ss = [s] ++ ss := rfl
    rw [this, initEvents_append]
    simp

theorem secondPass_eq (a : Arch) (thread slide : Nat) (cmds : List load_command) (w : World) :
    secondPass a thread slide cmds w =
      { w with trace := w.trace ++ initEvents a thread slide w.funcs (allSections cmds) } := by
  unfold secondPass
  induction cmds generalizing w with
  | nil => simp [allSections, segmentsOf, initEvents]
  | cons c cs ih =>
    rw [List.foldl_cons, ih]
    cases c with
    | other => simp [runInitCommand, allSections, segmentsOf]
    | segment seg =>
      simp only [runInitCommand, runInitSections_eq]
      simp [allSections, segmentsOf, initEvents_append]

theorem scanSection_slide (a : Arch) (st : ScanState) (s : macho_section) :
    (scanSection a st s).slide = st.slide
    ∧ (scanSection a st s).slideComputed = st.slideComputed
    ∧ (scanSection a st s).hasInitializers = (st.hasInitializers || isInitSection s) := by
  unfold scanSection isInitSection
  split_ifs <;> simp_all

theorem scanSections_slide (a : Arch) (sects : List macho_section) (st : ScanState) :
    (sects.foldl (scanSection a) st).slide = st.slide
    ∧ (sects.foldl (scanSection a) st).slideComputed = st.slideComputed
    ∧ (sects.foldl (scanSection a) st).hasInitializers
        = (st.hasInitializers || sects.any isInitSection) := by
  induction sects generalizing st with
  | nil => simp
  | cons s ss ih =>
    obtain ⟨h1, h2, h3⟩ := scanSection_slide a st s
    obtain ⟨i1, i2, i3⟩ := ih (scanSection a st s)
    simp only [List.foldl_cons, List.any_cons]
    refine ⟨by rw [i1, h1], by rw [i2, h2], ?_⟩
    rw [i3, h3, Bool.or_assoc]

theorem scanCommands_slide (a : Arch) (mh : Nat) (cmds : List load_command) (st : ScanState) :
    (cmds.foldl (scanCommand a mh) st).slide = slideAfter a mh st.slideComputed st.slide cmds
    ∧ (cmds.foldl (scanCommand a mh) st).hasInitializers
        = (st.hasInitializers || (allSections cmds).any isInitSection) := by
  induction cmds generalizing st with
  | nil => simp [slideAfter, firstFileSegment, segmentsOf, allSections]
  | cons c cs ih =>
    rw [List.foldl_cons]
    obtain ⟨i1, i2⟩ := ih (scanCommand a mh st c)
    rw [i1, i2]
    cases c with
    | other => simp [scanCommand, slideAfter, firstFileSegment, segmentsOf, allSections]
    | segment seg =>
      simp only [scanCommand]
      obtain ⟨h1, h2, h3⟩ := scanSections_slide a seg.sects
        (if (!st.slideComputed && seg.filesize != 0) = true then
          { st with slide := computeSlide a mh seg, slideComputed := true } else st)
      rw [h1, h2, h3]
      by_cases hc : st.slideComputed = true
      · simp [hc, slideAfter, allSections, segmentsOf, Bool.or_assoc]
      · by_cases hf : seg.filesize = 0
        · simp [hc, hf, slideAfter, allSections, segmentsOf, firstFileSegment, Bool.or_assoc]
        · simp [hc, hf, slideAfter, allSections, segmentsOf, firstFileSegment, Bool.or_assoc]

theorem firstPass_slide (a : Arch) (mh : Nat) (cmds : List load_command) :
    (firstPass a mh cmds).slide =
      (match firstFileSegment cmds with
        | some seg => computeSlide a mh seg
        | none => 0)
    ∧ (firstPass a mh cmds).hasInitializers = (allSections cmds).any isInitSection := by
  obtain ⟨h1, h2⟩ := scanCommands_slide a mh cmds ⟨0, 0, 0, false, false⟩
  unfold firstPass
  rw [h1, h2]
  simp [slideAfter]

theorem isTemplateSection_iff (s : macho_section) :
    isTemplateSection s = true ↔
      (¬ sectType s = S_THREAD_LOCAL_INIT_FUNCTION_POINTERS ∧
        (sectType s = S_THREAD_LOCAL_ZEROFILL ∨ sectType s = S_THREAD_LOCAL_REGULAR)) := by
  unfold isTemplateSection
  simp only [Bool.or_eq_true, beq_iff_eq]
  constructor
  · intro h
    refine ⟨?_, h⟩
    rcases h with h | h <;> rw [h] <;> decide
  · exact fun h => h.2

theorem scanSection_range (a : Arch) (st : ScanState) (s : macho_section) :
    ((scanSection a st s).start, (scanSection a st s).size) =
      if isTemplateSection s then templateStep a st.slide (st.start, st.size) s
      else (st.start, st.size) := by
  by_cases ht : isTemplateSection s = true
  · obtain ⟨h1, h2⟩ := (isTemplateSection_iff s).mp ht
    unfold scanSection templateStep
    simp only [if_neg h1, if_pos h2, ht, if_true]
    split_ifs <;> rfl
  · have hn := mt (isTemplateSection_iff s).mpr ht
    unfold scanSection
    by_cases h1 : sectType s = S_THREAD_LOCAL_INIT_FUNCTION_POINTERS
    · simp [h1, ht]
    · have h2 : ¬ (sectType s = S_THREAD_LOCAL_ZEROFILL ∨ sectType s = S_THREAD_LOCAL_REGULAR) :=
        fun h => hn ⟨h1, h⟩
      simp [h1, h2, ht]

theorem scanSections_range (a : Arch) (sects : List macho_section) (st : ScanState) :
    ((sects.foldl (scanSection a) st).start, (sects.foldl (scanSection a) st).size) =
      (sects.filter isTemplateSection).foldl (templateStep a st.slide) (st.start, st.size) := by
  induction sects generalizing st with
  | nil => rfl
  | cons s ss ih =>
    rw [List.foldl_cons, ih, (scanSection_slide a st s).1, scanSection_range]
    by_cases ht : isTemplateSection s = true
    · simp [List.filter_cons, ht]
    · simp [List.filter_cons, ht]

theorem templateSections_cons_segment (seg : macho_segment_command) (cs : List load_command) :
    templateSections (load_command.segment seg :: cs) =
      seg.sects.filter isTemplateSection ++ templateSections cs := by
  simp [templateSections, allSections, segmentsOf]

theorem scanCommands_range_const (a : Arch) (mh : Nat) (cmds : List load_command) (st : ScanState)
    (h : st.slideComputed = true ∨ firstFileSegment cmds = none) :
    ((cmds.foldl (scanCommand a mh) st).start, (cmds.foldl (scanCommand a mh) st).size) =
      (templateSections cmds).foldl (templateStep a st.slide) (st.start, st.size) := by
  induction cmds generalizing st with
  | nil => rfl
  | cons c cs ih =>
    rw [List.foldl_cons]
    cases c with
    | other =>
      have h1 : st.slideComputed = true ∨ firstFileSegment cs = none := by
        simpa [firstFileSegment, segmentsOf] using h
      simpa [scanCommand, templateSections, allSections, segmentsOf] using ih st h1
    | segment seg =>
      have hst : (if (!st.slideComputed && seg.filesize != 0) = true then
          ({ st with slide := computeSlide a mh seg, slideComputed := true } : ScanState)
          else st) = st := by
        rcases h with h | h
        · simp [h]
        · have : seg.filesize = 0 := by
            by_contra hf
            simp [firstFileSegment, segmentsOf, List.find?_cons, hf] at h
          simp [this]
      have h1 : (seg.sects.foldl (scanSection a) st).slideComputed = true
          ∨ firstFileSegment cs = none := by
        rcases h with h | h
        · left; rw [(scanSections_slide a seg.sects st).2.1]; exact h
        · right
          by_cases hf : seg.filesize = 0
          · simpa [firstFileSegment, segmentsOf, List.find?_cons, hf] using h
          · simp [firstFileSegment, segmentsOf, List.find?_cons, hf] at h
      simp only [scanCommand, hst]
      rw [ih _ h1, (scanSections_slide a seg.sects st).1, scanSections_range,
        templateSections_cons_segment, List.foldl_append]

theorem scanCommands_range (a : Arch) (mh : Nat) (cmds : List load_command) (st : ScanState)
    (h : st.slideComputed = false → templateBeforeFileSegment cmds = false) :
    ((cmds.foldl (scanCommand a mh) st).start, (cmds.foldl (scanCommand a mh) st).size) =
      (templateSections cmds).foldl
        (templateStep a (slideAfter a mh st.slideComputed st.slide cmds)) (st.start, st.size) := by
  induction cmds generalizing st with
  | nil => rfl
  | cons c cs ih =>
    by_cases hc : st.slideComputed = true
    · rw [scanCommands_range_const a mh _ st (Or.inl hc)]
      simp [slideAfter, hc]
    · have hc' : st.slideComputed = false := by simpa using hc
      have hb := h hc'
      cases c with
      | other =>
        rw [List.foldl_cons]
        have := ih st (fun _ => by
          simpa [templateBeforeFileSegment, firstFileSegment, segmentsOf] using hb)
        simpa [scanCommand, templateSections, allSections, segmentsOf, slideAfter,
          firstFileSegment] using this
      | segment seg =>
        by_cases hf : seg.filesize = 0
        · cases hnone : firstFileSegment cs with
          | none =>
            have hn : firstFileSegment (load_command.segment seg :: cs) = none := by
              simpa [firstFileSegment, segmentsOf, List.find?_cons, hf] using hnone
            rw [scanCommands_range_const a mh _ st (Or.inr hn)]
            simp [slideAfter, hc', hn]
          | some s1 =>
            have hsome : (firstFileSegment cs).isSome = true := by simp [hnone]
            have hb1 : seg.sects.any isTemplateSection = false ∧
                templateBeforeFileSegment cs = false := by
              simp only [templateBeforeFileSegment, firstFileSegment, segmentsOf,
                List.find?_cons, hf] at hb
              simp only [templateBeforeFileSegment]
              simp only [firstFileSegment] at hsome
              simp [hsome, List.takeWhile_cons, hf] at hb ⊢
              exact ⟨hb.1, fun _ => hb.2⟩
            have hfil : seg.sects.filter isTemplateSection = [] := by
              rw [List.filter_eq_nil_iff]
              intro x hx
              have := hb1.1
              rw [List.any_eq_false] at this
              exact this x hx
            have hst : (if (!st.slideComputed && seg.filesize != 0) = true then
                ({ st with slide := computeSlide a mh seg, slideComputed := true } : ScanState)
                else st) = st := by simp [hf]
            have hr := scanSections_range a seg.sects st
            rw [hfil] at hr
            simp only [List.foldl_nil, Prod.mk.injEq] at hr
            obtain ⟨s1', s2', _⟩ := scanSections_slide a seg.sects st
            rw [List.foldl_cons]
            simp only [scanCommand, hst]
            rw [ih _ (fun _ => hb1.2), s1', s2', hr.1, hr.2, templateSections_cons_segment, hfil]
            simp [slideAfter, hc', firstFileSegment, segmentsOf, List.find?_cons, hf]
        · have hrew : List.foldl (scanCommand a mh) st (load_command.segment seg :: cs) =
              List.foldl (scanCommand a mh)
                { st with slide := computeSlide a mh seg, slideComputed := true }
                (load_command.segment seg :: cs) := by
            simp [List.foldl_cons, scanCommand, hc', hf]
          rw [hrew, scanCommands_range_const a mh _ _ (Or.inl rfl)]
          simp [slideAfter, hc', firstFileSegment, segmentsOf, List.find?_cons, hf]

theorem firstPass_range (a : Arch) (mh : Nat) (cmds : List load_command)
    (h : templateBeforeFileSegment cmds = false) :
    ((firstPass a mh cmds).start, (firstPass a mh cmds).size) =
      (templateSections cmds).foldl
        (templateStep a (firstPass a mh cmds).slide) (0, 0) := by
  have h1 := scanCommands_range a mh cmds ⟨0, 0, 0, false, false⟩ (fun _ => h)
  have h2 := (scanCommands_slide a mh cmds ⟨0, 0, 0, false, false⟩).1
  unfold firstPass
  rw [h1, h2]

theorem wordMod_pos (a : Arch) : 0 < a.wordMod := by
  unfold Arch.wordMod
  positivity

theorem add_sub_mod (W x y : Nat) (hW : 0 < W) :
    ((x + y) % W + W - x % W) % W = y % W := by
  have hx : x % W < W := Nat.mod_lt _ hW
  have h1 : ((x + y) % W + W - x % W + x % W) ≡ (y + x % W) [MOD W] := by
    have e : (x + y) % W + W - x % W + x % W = (x + y) % W + W := by omega
    rw [e]
    calc (x + y) % W + W ≡ (x + y) % W [MOD W] := by
            simp [Nat.ModEq]
      _ ≡ x + y [MOD W] := Nat.mod_modEq _ _
      _ ≡ y + x % W [MOD W] := by
            rw [Nat.add_comm x y]
            exact Nat.ModEq.add_left y (Nat.mod_modEq x W).symm
  exact Nat.ModEq.add_right_cancel' _ h1

theorem templateStep_start (a : Arch) (slide : Nat) (ts : List macho_section) (acc : Nat × Nat)
    (h : acc.1 ≠ 0) : (ts.foldl (templateStep a slide) acc).1 = acc.1 := by
  induction ts generalizing acc with
  | nil => rfl
  | cons t ts ih =>
    rw [List.foldl_cons, ih]
    · simp [templateStep, h]
    · simp [templateStep, h]

theorem templateStep_size (a : Arch) (slide : Nat) (t0 : macho_section) (ts : List macho_section)
    (prev : macho_section) (total : Nat)
    (hp : (t0.addr + slide) % a.wordMod ≠ 0)
    (hprev : prev.addr + prev.size = t0.addr + total)
    (hchain : contiguousFrom prev ts = true)
    (hsum : total + (ts.map (fun t => t.size)).sum < a.wordMod) :
    (ts.foldl (templateStep a slide) ((t0.addr + slide) % a.wordMod, total)).2 =
      total + (ts.map (fun t => t.size)).sum := by
  induction ts generalizing prev total with
  | nil => simp
  | cons t ts ih =>
    simp only [contiguousFrom, Bool.and_eq_true, beq_iff_eq] at hchain
    obtain ⟨hc, hrest⟩ := hchain
    simp only [List.map_cons, List.sum_cons] at hsum ⊢
    have hstep : templateStep a slide ((t0.addr + slide) % a.wordMod, total) t =
        ((t0.addr + slide) % a.wordMod, total + t.size) := by
      simp only [templateStep, if_neg hp]
      have e : t.addr + slide + t.size = (t0.addr + slide) + (total + t.size) := by omega
      have e2 : (t.addr + slide + t.size) % a.wordMod + a.wordMod - (t0.addr + slide) % a.wordMod
          = ((t0.addr + slide) + (total + t.size)) % a.wordMod + a.wordMod
            - (t0.addr + slide) % a.wordMod := by rw [e]
      have h3 : (total + t.size) % a.wordMod = total + t.size := Nat.mod_eq_of_lt (by omega)
      rw [e2, add_sub_mod _ _ _ (wordMod_pos a), h3]
    rw [List.foldl_cons, hstep, ih t (total + t.size) (by omega) hrest (by omega)]
    omega

/-- C3 (amended): the first pass leaves in `slide` the load address minus the
`vmaddr` of the first segment with non-zero file size (zero when there is no
such segment).  When no template section lies in a segment scanned before that
segment and the slid address of the first template section is not null, `start`
is the address of the first template section (in scan order) plus the slide;
when moreover the template sections are contiguous and the sum of their sizes
fits in a machine word, `size` is that sum. -/
theorem firstPass_slide_and_template (a : Arch) (mh : Nat) (cmds : List load_command) :
    (firstPass a mh cmds).slide =
        (match firstFileSegment cmds with
          | some seg => computeSlide a mh seg
          | none => 0)
    ∧ ∀ t0 rest, templateSections cmds = t0 :: rest →
        templateBeforeFileSegment cmds = false →
        (t0.addr + (firstPass a mh cmds).slide) % a.wordMod ≠ 0 →
        (firstPass a mh cmds).start = (t0.addr + (firstPass a mh cmds).slide) % a.wordMod
        ∧ (contiguousSections (t0 :: rest) = true →
            ((t0 :: rest).map (fun t => t.size)).sum < a.wordMod →
            (firstPass a mh cmds).size = ((t0 :: rest).map (fun t => t.size)).sum) := by
  refine ⟨(firstPass_slide a mh cmds).1, ?_⟩
  intro t0 rest hT hord hnz
  have hr := firstPass_range a mh cmds hord
  rw [hT, List.foldl_cons] at hr
  have h0 : templateStep a (firstPass a mh cmds).slide (0, 0) t0 =
      ((t0.addr + (firstPass a mh cmds).slide) % a.wordMod, t0.size) := by
    simp [templateStep]
  rw [h0] at hr
  have hs := congrArg Prod.fst hr
  have hz := congrArg Prod.snd hr
  simp only at hs hz
  refine ⟨?_, ?_⟩
  · rw [hs, templateStep_start _ _ _ _ hnz]
  · intro hchain hsum
    rw [hz]
    simp only [List.map_cons, List.sum_cons] at hsum ⊢
    exact templateStep_size a _ t0 rest t0 t0.size hnz rfl hchain hsum

theorem firstPass_slide_and_template_witness :
    templateSections exHeader.cmds = [exThreadData, exThreadBss]
    ∧ (firstPass Arch.ilp32 0x5000 exHeader.cmds).slide = 0x4000
    ∧ (firstPass Arch.ilp32 0x5000 exHeader.cmds).start = 0x6000
    ∧ (firstPass Arch.ilp32 0x5000 exHeader.cmds).size = 24 := by
  have h := (firstPass_slide_and_template Arch.ilp32 0x5000 exHeader.cmds).2
    exThreadData [exThreadBss] (by decide) (by decide) (by decide)
  exact ⟨by decide, by decide, h.1.trans (by decide), (h.2 (by decide) (by decide)).trans (by decide)⟩

/-- C3 as stated fails on three modules.  On `cxOrderCmds` (loaded at `0x5000`)
the only template section has address `0x3000` and the slide is `0x4000`, yet
`start` is `0x3000`.  On `cxNullCmds` (loaded at `0x1000`, slide 0) the first
template section has address 0, yet `start` is 8, and the two contiguous
sections of 8 bytes give `size` 8.  On `cxWrapCmds` the two contiguous sections
have sizes adding up to `2 ^ 32`, yet `size` is 0. -/
theorem firstPass_template_counterexample :
    (templateSections cxOrderCmds = [⟨"__thread_bss", 0x3000, 8, 0x12⟩]
      ∧ (firstPass Arch.ilp32 0x5000 cxOrderCmds).slide = 0x4000
      ∧ (firstPass Arch.ilp32 0x5000 cxOrderCmds).start = 0x3000
      ∧ (firstPass Arch.ilp32 0x5000 cxOrderCmds).start
          ≠ (0x3000 + (firstPass Arch.ilp32 0x5000 cxOrderCmds).slide) % Arch.ilp32.wordMod)
    ∧ (templateSections cxNullCmds = [⟨"__thread_data", 0, 8, 0x11⟩, ⟨"__thread_bss", 8, 8, 0x12⟩]
      ∧ contiguousSections (templateSections cxNullCmds) = true
      ∧ (firstPass Arch.ilp32 0x1000 cxNullCmds).slide = 0
      ∧ (firstPass Arch.ilp32 0x1000 cxNullCmds).start = 8
      ∧ (firstPass Arch.ilp32 0x1000 cxNullCmds).start
          ≠ (0 + (firstPass Arch.ilp32 0x1000 cxNullCmds).slide) % Arch.ilp32.wordMod
      ∧ (firstPass Arch.ilp32 0x1000 cxNullCmds).size = 8
      ∧ (firstPass Arch.ilp32 0x1000 cxNullCmds).size
          ≠ ((templateSections cxNullCmds).map (fun t => t.size)).sum)
    ∧ (contiguousSections (templateSections cxWrapCmds) = true
      ∧ ((templateSections cxWrapCmds).map (fun t => t.size)).sum = 0x100000000
      ∧ (firstPass Arch.ilp32 0x1000 cxWrapCmds).size = 0
      ∧ (firstPass Arch.ilp32 0x1000 cxWrapCmds).size
          ≠ ((templateSections cxWrapCmds).map (fun t => t.size)).sum) := by
  decide

theorem allocateAndPublish_fields (a : Arch) (thread key mh : Nat) (w : World) :
    (allocateAndPublish a thread key mh w).1 = freshPtr w.heap
    ∧ (allocateAndPublish a thread key mh w).2.trace
        = w.trace ++ [Event.setspecific thread key (freshPtr w.heap)]
    ∧ (allocateAndPublish a thread key mh w).2.tlv_handlers = w.tlv_handlers
    ∧ (allocateAndPublish a thread key mh w).2.funcs = w.funcs
    ∧ pthread_getspecific thread key (allocateAndPublish a thread key mh w).2 = freshPtr w.heap := by
  simp [allocateAndPublish, malloc, memcpy, pthread_setspecific, pthread_getspecific]

theorem newEvents_append (w w1 : World) (es : List Event) (h : w1.trace = w.trace ++ es) :
    newEvents w w1 = es := by
  simp [newEvents, h]

theorem allocate_eq (a : Arch) (thread key mh : Nat) (w : World)
    (hreg : tlv_get_image_for_key key w = mh) (hmh : mh ≠ 0) :
    tlv_allocate_and_initialize_for_key a thread key w =
      ((allocateAndPublish a thread key mh w).1,
        if (firstPass a mh (w.image mh).cmds).hasInitializers then
          secondPass a thread (firstPass a mh (w.image mh).cmds).slide (w.image mh).cmds
            (tlv_notify dyld_tlv_states.dyld_tlv_state_allocated
              (allocateAndPublish a thread key mh w).1 (allocateAndPublish a thread key mh w).2)
        else
          tlv_notify dyld_tlv_states.dyld_tlv_state_allocated
            (allocateAndPublish a thread key mh w).1 (allocateAndPublish a thread key mh w).2) := by
  unfold tlv_allocate_and_initialize_for_key
  simp only [hreg, if_neg hmh]

/-- C4: for a slot whose registry lookup yields the module `mh` (non-null),
the events of one lazy allocation are, in this order: the publication of the
buffer to the calling thread's slot value, then the `allocated` notification
of every registered handler that matches (with the buffer address and its
`malloc_size`), then the initializer calls: for each initializer section, in
scan order, every entry of its table exactly once, last entry first.  When the
module has no initializer section no initializer is called. -/
theorem allocate_event_order (a : Arch) (thread key mh : Nat) (w : World)
    (hreg : tlv_get_image_for_key key w = mh) (hmh : mh ≠ 0) :
    newEvents w (tlv_allocate_and_initialize_for_key a thread key w).2 =
        Event.setspecific thread key (tlv_allocate_and_initialize_for_key a thread key w).1
          :: (notifyEvents w.tlv_handlers dyld_tlv_states.dyld_tlv_state_allocated
                (tlv_allocate_and_initialize_for_key a thread key w).1
                (w.good_size (firstPass a mh (w.image mh).cmds).size)
              ++ ((allSections (w.image mh).cmds).filter isInitSection).flatMap
                  (fun sect =>
                    (initTable a w.funcs (firstPass a mh (w.image mh).cmds).slide sect).reverse.map
                      (Event.init_called thread)))
    ∧ ((∀ sect ∈ allSections (w.image mh).cmds, isInitSection sect = false) →
        newEvents w (tlv_allocate_and_initialize_for_key a thread key w).2 =
          Event.setspecific thread key (tlv_allocate_and_initialize_for_key a thread key w).1
            :: notifyEvents w.tlv_handlers dyld_tlv_states.dyld_tlv_state_allocated
                (tlv_allocate_and_initialize_for_key a thread key w).1
                (w.good_size (firstPass a mh (w.image mh).cmds).size)) := by
  have he := allocate_eq a thread key mh w hreg hmh
  obtain ⟨f1, f2, f3, f4, _⟩ := allocateAndPublish_fields a thread key mh w
  have hheap := allocateAndPublish_heap a thread key mh w
  have hms : malloc_size (freshPtr w.heap) (allocateAndPublish a thread key mh w).2
      = w.good_size (firstPass a mh (w.image mh).cmds).size := by
    simp [malloc_size, hheap]
  have hini := (firstPass_slide a mh (w.image mh).cmds).2
  have key1 : newEvents w (tlv_allocate_and_initialize_for_key a thread key w).2 =
      Event.setspecific thread key (freshPtr w.heap)
        :: (notifyEvents w.tlv_handlers dyld_tlv_states.dyld_tlv_state_allocated
              (freshPtr w.heap) (w.good_size (firstPass a mh (w.image mh).cmds).size)
            ++ initEvents a thread (firstPass a mh (w.image mh).cmds).slide w.funcs
                (allSections (w.image mh).cmds)) := by
    apply newEvents_append
    rw [he]
    simp only [f1]
    by_cases hi : (firstPass a mh (w.image mh).cmds).hasInitializers = true
    · simp only [hi, if_true]
      rw [secondPass_eq, tlv_notify_eq]
      simp [f2, f3, f4, hms]
    · have hnil : (allSections (w.image mh).cmds).filter isInitSection = [] := by
        rw [List.filter_eq_nil_iff]
        intro x hx hxi
        apply hi
        rw [hini, List.any_eq_true]
        exact ⟨x, hx, hxi⟩
      simp only [hi]
      rw [tlv_notify_eq]
      simp [f2, f3, hms, initEvents, hnil]
  have h1 : (tlv_allocate_and_initialize_for_key a thread key w).1 = freshPtr w.heap := by
    rw [he]; exact f1
  rw [h1]
  refine ⟨key1, ?_⟩
  intro hno
  have hnil : (allSections (w.image mh).cmds).filter isInitSection = [] := by
    rw [List.filter_eq_nil_iff]
    intro x hx hxi
    rw [hno x hx] at hxi
    exact Bool.noConfusion hxi
  rw [key1]
  simp [initEvents, hnil]

theorem allocate_event_order_witness :
    tlv_get_image_for_key 5 exRegistered = 0x5000
    ∧ newEvents exRegistered (tlv_allocate_and_initialize_for_key Arch.ilp32 1 5 exRegistered).2 =
        [Event.setspecific 1 5 16,
          Event.notified 7 dyld_tlv_states.dyld_tlv_state_allocated 16 24,
          Event.init_called 1 (exWorld.funcs 0x6304), Event.init_called 1 (exWorld.funcs 0x6300)] := by
  have h := (allocate_event_order Arch.ilp32 1 5 0x5000 exRegistered (by decide) (by decide)).1
  refine ⟨by decide, ?_⟩
  rw [h]
  decide

theorem patchSection_eq (a : Arch) (mh : Nat) (l : PatchLocals) (w : World) (sect : macho_section) :
    patchSection a mh (l, w) sect =
      if isPatchable sect then
        (reachStep a mh l.tlvstart (l.key, w) (l.slide, sect)).map
          (fun r => ({ l with key := r.1 }, r.2))
      else some (l, w) := by
  unfold patchSection isPatchable reachStep ensureKey
  by_cases hd : isDescriptorSection sect = true
  · by_cases hs : sect.size = 0
    · simp [hd, hs]
    · simp only [hd, hs, if_true, ne_eq, not_false_eq_true, Bool.true_and, bne_iff_ne]
      by_cases hk : l.key = 0
      · simp only [hk, if_true]
        cases hc : pthread_key_create KeyDestructor.tlv_free w with
        | none => simp
        | some r => simp [applyWrites, sectionWrites, List.foldl_map]
      · simp only [hk, if_false]
        cases l
        simp [applyWrites, sectionWrites, List.foldl_map]
  · simp [hd]

theorem patchSections_eq (a : Arch) (mh : Nat) (sects : List macho_section) (l : PatchLocals)
    (w : World) :
    sects.foldlM (patchSection a mh) (l, w) =
      (((sects.filter isPatchable).map (fun s => (l.slide, s))).foldlM
          (reachStep a mh l.tlvstart) (l.key, w)).map
        (fun r => ({ l with key := r.1 }, r.2)) := by
  induction sects generalizing l w with
  | nil => cases l; simp
  | cons s ss ih =>
    rw [List.foldlM_cons, patchSection_eq]
    by_cases hp : isPatchable s = true
    · simp only [hp, if_true, List.filter_cons, List.map_cons, List.foldlM_cons]
      cases hr : reachStep a mh l.tlvstart (l.key, w) (l.slide, s) with
      | none => simp
      | some r =>
        simp only [Option.map_some', Option.some_bind, Option.bind_eq_bind]
        rw [ih]
    · simp only [hp, List.filter_cons]
      simp only [Bool.false_eq_true, if_false, Option.some_bind, Option.bind_eq_bind]
      rw [ih]

theorem segmentLocals_setKey (a : Arch) (mh k : Nat) (l : PatchLocals)
    (seg : macho_segment_command) :
    segmentLocals a mh { l with key := k } seg = { segmentLocals a mh l seg with key := k } := by
  unfold segmentLocals
  simp only
  split_ifs <;> rfl

theorem segmentLocals_tlvstart (a : Arch) (mh : Nat) (l : PatchLocals)
    (seg : macho_segment_command) (h : l.tlvstart ≠ 0) :
    (segmentLocals a mh l seg).tlvstart = l.tlvstart := by
  unfold segmentLocals
  simp only
  split_ifs <;> simp_all

theorem localsAfter_setKey (a : Arch) (mh k : Nat) (cmds : List load_command) (l : PatchLocals) :
    localsAfter a mh { l with key := k } cmds = { localsAfter a mh l cmds with key := k } := by
  induction cmds generalizing l with
  | nil => rfl
  | cons c cs ih =>
    cases c with
    | other => simpa [localsAfter] using ih l
    | segment seg =>
      simp only [localsAfter, segmentLocals_setKey]
      exact ih _

theorem localsAfter_tlvstart (a : Arch) (mh : Nat) (cmds : List load_command) (l : PatchLocals)
    (h : l.tlvstart ≠ 0) : (localsAfter a mh l cmds).tlvstart = l.tlvstart := by
  induction cmds generalizing l with
  | nil => rfl
  | cons c cs ih =>
    cases c with
    | other => simpa [localsAfter] using ih l h
    | segment seg =>
      simp only [localsAfter]
      rw [ih _ (by rw [segmentLocals_tlvstart a mh l seg h]; exact h),
        segmentLocals_tlvstart a mh l seg h]

theorem reachedSections_setKey (a : Arch) (mh k : Nat) (cmds : List load_command)
    (l : PatchLocals) :
    reachedSections a mh { l with key := k } cmds = reachedSections a mh l cmds := by
  induction cmds generalizing l with
  | nil => rfl
  | cons c cs ih =>
    cases c with
    | other => simpa [reachedSections] using ih l
    | segment seg =>
      simp only [reachedSections, segmentLocals_setKey]
      rw [ih]

theorem patchCommand_segment (a : Arch) (mh : Nat) (l : PatchLocals) (w : World)
    (seg : macho_segment_command) :
    patchCommand a mh (l, w) (load_command.segment seg) =
      if (segmentLocals a mh l seg).tlvstart ≠ 0 then
        seg.sects.foldlM (patchSection a mh) (segmentLocals a mh l seg, w)
      else some (segmentLocals a mh l seg, w) := rfl

theorem patchCommands_eq (a : Arch) (mh : Nat) (cmds : List load_command) (l : PatchLocals)
    (w : World) :
    cmds.foldlM (patchCommand a mh) (l, w) =
      ((reachedSections a mh l cmds).foldlM
          (reachStep a mh (localsAfter a mh l cmds).tlvstart) (l.key, w)).map
        (fun r => ({ localsAfter a mh l cmds with key := r.1 }, r.2)) := by
  induction cmds generalizing l w with
  | nil => cases l; simp [reachedSections, localsAfter]
  | cons c cs ih =>
    rw [List.foldlM_cons]
    cases c with
    | other =>
      simp only [patchCommand, Option.some_bind, Option.bind_eq_bind, reachedSections, localsAfter]
      exact ih l w
    | segment seg =>
      rw [patchCommand_segment]
      simp only [reachedSections, localsAfter]
      by_cases ht : (segmentLocals a mh l seg).tlvstart = 0
      · simp only [ht, ne_eq, not_true_eq_false, if_false, Option.some_bind,
          Option.bind_eq_bind, List.nil_append]
        rw [ih]
        have hk : (segmentLocals a mh l seg).key = l.key := by
          have := segmentLocals_setKey a mh l.key l seg
          have e : ({ l with key := l.key } : PatchLocals) = l := by cases l; rfl
          rw [e] at this
          rw [this]
        rw [hk]
      · have hts : (localsAfter a mh (segmentLocals a mh l seg) cs).tlvstart
            = (segmentLocals a mh l seg).tlvstart := localsAfter_tlvstart a mh cs _ ht
        have hk : (segmentLocals a mh l seg).key = l.key := by
          have := segmentLocals_setKey a mh l.key l seg
          have e : ({ l with key := l.key } : PatchLocals) = l := by cases l; rfl
          rw [e] at this
          rw [this]
        simp only [ht, ne_eq, not_false_eq_true, if_true]
        rw [patchSections_eq, List.foldlM_append, hts, hk]
        cases hr : List.foldlM (reachStep a mh (segmentLocals a mh l seg).tlvstart) (l.key, w)
            (List.map (fun s => ((segmentLocals a mh l seg).slide, s))
              (List.filter isPatchable seg.sects)) with
        | none => simp
        | some r =>
          simp only [Option.map_some', Option.some_bind, Option.bind_eq_bind]
          rw [ih, reachedSections_setKey, localsAfter_setKey]
          simp only [hts]

theorem applyWrites_nil (a : Arch) (key ts : Nat) (w : World) : applyWrites a key ts [] w = w := rfl

theorem applyWrites_cons (a : Arch) (key ts : Nat) (wr : Nat × Bool) (ws : List (Nat × Bool))
    (w : World) :
    applyWrites a key ts (wr :: ws) w =
      applyWrites a key ts ws (patchDescriptor a key ts wr.2 w wr.1) := rfl

theorem applyWrites_append (a : Arch) (key ts : Nat) (ws1 ws2 : List (Nat × Bool)) (w : World) :
    applyWrites a key ts (ws1 ++ ws2) w = applyWrites a key ts ws2 (applyWrites a key ts ws1 w) := by
  simp [applyWrites, List.foldl_append]

theorem applyWrites_eq (a : Arch) (key ts : Nat) (ws : List (Nat × Bool)) (w : World) :
    applyWrites a key ts ws w =
      { w with
        descs := fun x =>
          (ws.filter (fun wr => wr.1 == x)).foldl (fun d wr => writeDesc a key ts wr.2 d) (w.descs x)
        trace := w.trace ++ ws.map writeEvent } := by
  induction ws generalizing w with
  | nil => simp [applyWrites]
  | cons wr ws ih =>
    rw [applyWrites_cons, ih]
    simp only [patchDescriptor, List.map_cons, List.append_assoc, List.singleton_append, writeEvent]
    congr 1
    funext x
    by_cases hx : wr.1 = x
    · subst hx
      simp [List.filter_cons, writeDesc]
    · have hx2 : ¬ x = wr.1 := fun h => hx h.symm
      simp [List.filter_cons, hx, hx2]

theorem ensureKey_of_ne_zero (mh key : Nat) (w : World) (h : key ≠ 0) :
    ensureKey mh key w = some (key, w) := by
  simp [ensureKey, h]

theorem ensureKey_zero (mh : Nat) (w : World) :
    ensureKey mh 0 w =
      if w.keysLeft = 0 then none
      else some (w.nextKey, tlv_set_key_for_image mh w.nextKey
        { w with
          pthread_keys := w.pthread_keys ++ [(w.nextKey, KeyDestructor.tlv_free)]
          nextKey := w.nextKey + 1
          keysLeft := w.keysLeft - 1 }) := by
  unfold ensureKey pthread_key_create
  by_cases h : w.keysLeft = 0
  · simp [h]
  · simp [h]

theorem ensureKey_key_ne_zero (mh key : Nat) (w : World) (r : Nat × World)
    (hk : key ≠ 0 ∨ w.nextKey ≠ 0) (h : ensureKey mh key w = some r) : r.1 ≠ 0 := by
  by_cases h0 : key = 0
  · subst h0
    rw [ensureKey_zero] at h
    by_cases hl : w.keysLeft = 0
    · simp [hl] at h
    · simp only [hl, if_false, Option.some.injEq] at h
      rw [← h]
      rcases hk with hk | hk
      · exact absurd rfl hk
      · exact hk
  · rw [ensureKey_of_ne_zero mh key w h0] at h
    simp only [Option.some.injEq] at h
    rw [← h]
    exact h0

theorem reachSteps_collapse (a : Arch) (mh ts : Nat) (rs : List (Nat × macho_section))
    (key : Nat) (w : World) (hk : key ≠ 0 ∨ w.nextKey ≠ 0) :
    rs.foldlM (reachStep a mh ts) (key, w) =
      if rs = [] then some (key, w)
      else (ensureKey mh key w).map
        (fun r1 => (r1.1,
          applyWrites a r1.1 ts (rs.flatMap (fun r => sectionWrites a r.1 r.2)) r1.2)) := by
  induction rs generalizing key w with
  | nil => simp
  | cons r rs ih =>
    rw [List.foldlM_cons]
    simp only [reachStep, List.cons_ne_nil, if_false, reduceCtorEq]
    cases he : ensureKey mh key w with
    | none => simp
    | some r1 =>
      have hne : r1.1 ≠ 0 := ensureKey_key_ne_zero mh key w r1 hk he
      simp only [Option.map_some', Option.some_bind, Option.bind_eq_bind]
      rw [ih _ _ (Or.inl hne)]
      by_cases hrs : rs = []
      · subst hrs
        simp
      · simp only [hrs, if_false, ensureKey_of_ne_zero mh _ _ hne, Option.map_some',
          List.flatMap_cons, applyWrites_append]

theorem set_key_frame (mh key : Nat) (w : World) :
    (tlv_set_key_for_image mh key w).descs = w.descs
    ∧ (tlv_set_key_for_image mh key w).trace = w.trace
    ∧ (tlv_set_key_for_image mh key w).image = w.image
    ∧ (tlv_set_key_for_image mh key w).pthread_keys = w.pthread_keys
    ∧ (tlv_set_key_for_image mh key w).nextKey = w.nextKey
    ∧ (tlv_set_key_for_image mh key w).keysLeft = w.keysLeft := by
  unfold tlv_set_key_for_image
  simp only
  split_ifs <;> simp

theorem set_key_registryState (mh key : Nat) (w w1 : World)
    (h : registryState w1 = registryState w) :
    registryState (tlv_set_key_for_image mh key w1)
      = registryState (tlv_set_key_for_image mh key w) := by
  simp only [registryState, Prod.mk.injEq] at h
  obtain ⟨h1, h2, h3⟩ := h
  unfold tlv_set_key_for_image registryState
  simp only [h1, h2, h3]
  split_ifs <;> simp [h1, h2, h3]

theorem patchLoop_eq (a : Arch) (mh : Nat) (w : World) :
    patchLoop a mh w =
      ((reachedSections a mh initialLocals (w.image mh).cmds).foldlM
          (reachStep a mh (localsAfter a mh initialLocals (w.image mh).cmds).tlvstart) (0, w)).map
        (fun r => ({ localsAfter a mh initialLocals (w.image mh).cmds with key := r.1 }, r.2)) :=
  patchCommands_eq a mh (w.image mh).cmds initialLocals w

theorem writeDesc_fold_key (a : Arch) (key ts : Nat) (ws : List (Nat × Bool)) (d0 : TLVDescriptor)
    (h : ws ≠ []) :
    (ws.foldl (fun d wr => writeDesc a key ts wr.2 d) d0).key = key
    ∧ (ws.foldl (fun d wr => writeDesc a key ts wr.2 d) d0).thunk = Thunk.tls_get_addr := by
  induction ws using List.reverseRecOn with
  | nil => exact absurd rfl h
  | append_singleton xs x _ =>
    simp [List.foldl_append, writeDesc]

theorem patchLoop_of_nextKey (a : Arch) (mh : Nat) (w : World) (hkey : w.nextKey ≠ 0) :
    patchLoop a mh w =
      if reachedSections a mh initialLocals (w.image mh).cmds = [] then
        some (localsAfter a mh initialLocals (w.image mh).cmds, w)
      else if w.keysLeft = 0 then none
      else some
        ({ localsAfter a mh initialLocals (w.image mh).cmds with key := w.nextKey },
          applyWrites a w.nextKey (localsAfter a mh initialLocals (w.image mh).cmds).tlvstart
            (moduleWrites a mh (w.image mh))
            (tlv_set_key_for_image mh w.nextKey
              { w with
                pthread_keys := w.pthread_keys ++ [(w.nextKey, KeyDestructor.tlv_free)]
                nextKey := w.nextKey + 1
                keysLeft := w.keysLeft - 1 })) := by
  rw [patchLoop_eq, reachSteps_collapse a mh _ _ 0 w (Or.inr hkey), ensureKey_zero]
  have hk0 : (localsAfter a mh initialLocals (w.image mh).cmds).key = 0 := by
    have := localsAfter_setKey a mh 0 (w.image mh).cmds initialLocals
    have e : ({ initialLocals with key := 0 } : PatchLocals) = initialLocals := rfl
    rw [e] at this
    rw [this]
  by_cases hr : reachedSections a mh initialLocals (w.image mh).cmds = []
  · simp only [hr, if_true, Option.map_some']
    congr 2
    generalize localsAfter a mh initialLocals (w.image mh).cmds = l at hk0 ⊢
    cases l
    simp_all
  · simp only [hr, if_false]
    by_cases hl : w.keysLeft = 0
    · simp [hl]
    · simp [hl, moduleWrites]

theorem patchLoop_of_no_reached (a : Arch) (mh : Nat) (w : World)
    (hr : reachedSections a mh initialLocals (w.image mh).cmds = []) :
    patchLoop a mh w = some (localsAfter a mh initialLocals (w.image mh).cmds, w) := by
  rw [patchLoop_eq, hr]
  have hk0 : (localsAfter a mh initialLocals (w.image mh).cmds).key = 0 := by
    have := localsAfter_setKey a mh 0 (w.image mh).cmds initialLocals
    have e : ({ initialLocals with key := 0 } : PatchLocals) = initialLocals := rfl
    rw [e] at this
    rw [this]
  simp only [List.foldlM_nil, Option.pure_def, Option.map_some']
  congr 2
  generalize localsAfter a mh initialLocals (w.image mh).cmds = l at hk0 ⊢
  cases l
  simp_all

theorem writeDesc_fold_offset (a : Arch) (key ts : Nat) (ws : List (Nat × Bool))
    (d0 : TLVDescriptor) :
    (ws.foldl (fun d wr => writeDesc a key ts wr.2 d) d0).offset =
      ws.foldl (fun o wr => offsetAfter a ts wr.2 o) d0.offset := by
  induction ws generalizing d0 with
  | nil => rfl
  | cons wr ws ih =>
    rw [List.foldl_cons, List.foldl_cons, ih]
    rfl

theorem ensureKey_frame (mh key : Nat) (w : World) (r : Nat × World)
    (h : ensureKey mh key w = some r) :
    r.2.descs = w.descs ∧ r.2.trace = w.trace ∧ r.2.image = w.image
    ∧ w.nextKey ≤ r.2.nextKey ∧ (key = 0 → w.nextKey < r.2.nextKey) := by
  by_cases h0 : key = 0
  · subst h0
    rw [ensureKey_zero] at h
    by_cases hl : w.keysLeft = 0
    · simp [hl] at h
    · simp only [hl, if_false, Option.some.injEq] at h
      rw [← h]
      obtain ⟨f1, f2, f3, _, f5, _⟩ := set_key_frame mh w.nextKey
        { w with
          pthread_keys := w.pthread_keys ++ [(w.nextKey, KeyDestructor.tlv_free)]
          nextKey := w.nextKey + 1
          keysLeft := w.keysLeft - 1 }
      simp only [f1, f2, f3, f5]
      simp
  · rw [ensureKey_of_ne_zero mh key w h0] at h
    simp only [Option.some.injEq] at h
    rw [← h]
    simp [h0]

/-- Facts about a run over reached sections that hold whatever slots the platform hands out. -/
theorem reachSteps_effect (a : Arch) (mh ts : Nat) (rs : List (Nat × macho_section))
    (key : Nat) (w : World) (r : Nat × World)
    (h : rs.foldlM (reachStep a mh ts) (key, w) = some r) :
    r.2.trace = w.trace ++ (rs.flatMap (fun r => sectionWrites a r.1 r.2)).map writeEvent
    ∧ r.2.image = w.image
    ∧ w.nextKey ≤ r.2.nextKey
    ∧ (key = 0 → rs ≠ [] → w.nextKey < r.2.nextKey)
    ∧ (∀ x, (r.2.descs x).offset =
        ((rs.flatMap (fun r => sectionWrites a r.1 r.2)).filter (fun wr => wr.1 == x)).foldl
          (fun o wr => offsetAfter a ts wr.2 o) (w.descs x).offset)
    ∧ (∀ x, (rs.flatMap (fun r => sectionWrites a r.1 r.2)).filter (fun wr => wr.1 == x) = [] →
        r.2.descs x = w.descs x)
    ∧ (∀ x, (rs.flatMap (fun r => sectionWrites a r.1 r.2)).filter (fun wr => wr.1 == x) ≠ [] →
        (r.2.descs x).thunk = Thunk.tls_get_addr) := by
  induction rs generalizing key w with
  | nil =>
    simp only [List.foldlM_nil, Option.pure_def, Option.some.injEq] at h
    subst h
    simp
  | cons r0 rs ih =>
    rw [List.foldlM_cons] at h
    simp only [reachStep] at h
    cases he : ensureKey mh key w with
    | none => simp [he] at h
    | some r1 =>
      simp only [he, Option.map_some', Option.some_bind, Option.bind_eq_bind] at h
      obtain ⟨e1, e2, e3, e4, e5⟩ := ensureKey_frame mh key w r1 he
      obtain ⟨i1, i2, i3, _, i5, i6, i7⟩ := ih _ _ h
      have hw := applyWrites_eq a r1.1 ts (sectionWrites a r0.1 r0.2) r1.2
      rw [hw] at i1 i2 i3 i5 i6
      simp only at i1 i2 i3 i5 i6
      refine ⟨?_, ?_, ?_, ?_, ?_, ?_, ?_⟩
      · rw [i1, e2]
        simp [List.flatMap_cons]
      · rw [i2, e3]
      · omega
      · intro hk _
        have := e5 hk
        omega
      · intro x
        rw [i5 x, writeDesc_fold_offset, e1]
        simp [List.flatMap_cons, List.foldl_append]
      · intro x hx
        simp only [List.flatMap_cons, List.filter_append, List.append_eq_nil] at hx
        rw [i6 x hx.2, hx.1, e1]
        rfl
      · intro x hx
        simp only [List.flatMap_cons, List.filter_append] at hx
        by_cases h2 : (rs.flatMap (fun r => sectionWrites a r.1 r.2)).filter
            (fun wr => wr.1 == x) = []
        · rw [i6 x h2]
          have h1 : (sectionWrites a r0.1 r0.2).filter (fun wr => wr.1 == x) ≠ [] := by
            intro hc
            apply hx
            rw [hc, h2]
            rfl
          exact (writeDesc_fold_key a r1.1 ts _ _ h1).2
        · exact i7 x h2

theorem reached_nil_of_no_template (a : Arch) (mh : Nat) (cmds : List load_command)
    (l : PatchLocals) (ht : templateSections cmds = []) (hl : l.tlvstart = 0) :
    reachedSections a mh l cmds = [] := by
  induction cmds generalizing l with
  | nil => rfl
  | cons c cs ih =>
    cases c with
    | other =>
      simp only [reachedSections]
      exact ih l (by simpa [templateSections, allSections, segmentsOf] using ht) hl
    | segment seg =>
      rw [templateSections_cons_segment, List.append_eq_nil] at ht
      have hfind : seg.sects.find? isTemplateSection = none := by
        rw [List.find?_eq_none]
        intro x hx
        have := List.filter_eq_nil_iff.mp ht.1 x hx
        simpa using this
      have hft : ∀ s, findTlvStart a seg.sects s = 0 := by
        intro s
        simp [findTlvStart, hfind]
      have hseg : (segmentLocals a mh l seg).tlvstart = 0 := by
        unfold segmentLocals
        simp only
        split_ifs <;> simp [hft, hl]
      simp only [reachedSections, hseg, ne_eq, not_true_eq_false, if_false, List.nil_append]
      exact ih _ ht.2 hseg

/-- C10: on a module with no thread-local template section (no section of type
regular or zero-fill) the patcher returns the process state unchanged, whatever
descriptor sections the module has: no slot is created, the registry and every
descriptor are as before.  The same holds for the module-load callback. -/
theorem patcher_noop_without_template (a : Arch) (mh vmaddr_slide : Nat) (w : World)
    (h : templateSections (w.image mh).cmds = []) :
    tlv_initialize_descriptors a mh w = some w
    ∧ init_tlv_on_add_image a mh vmaddr_slide w = some w := by
  have hr := reached_nil_of_no_template a mh (w.image mh).cmds initialLocals h rfl
  have hp := patchLoop_of_no_reached a mh w hr
  constructor
  · simp [tlv_initialize_descriptors, hp]
  · simp [init_tlv_on_add_image, tlv_initialize_descriptors, hp]

theorem patcher_noop_without_template_witness :
    templateSections (cxNoTemplateWorld.image 0x5000).cmds = []
    ∧ (allSections (cxNoTemplateWorld.image 0x5000).cmds).any isDescriptorSection = true
    ∧ tlv_initialize_descriptors Arch.ilp32 0x5000 cxNoTemplateWorld = some cxNoTemplateWorld :=
  ⟨by decide, by decide,
    (patcher_noop_without_template Arch.ilp32 0x5000 0x4000 cxNoTemplateWorld (by decide)).1⟩

theorem patchLoop_effect (a : Arch) (mh : Nat) (w w1 : World) (l1 : PatchLocals)
    (hrun : patchLoop a mh w = some (l1, w1)) :
    l1.tlvstart = patcherTlvStart a mh (w.image mh)
    ∧ newEvents w w1 = (moduleWrites a mh (w.image mh)).map writeEvent
    ∧ w1.image = w.image
    ∧ (reachedSections a mh initialLocals (w.image mh).cmds ≠ [] → w1.nextKey ≠ 0)
    ∧ (∀ x, (w1.descs x).offset =
        ((moduleWrites a mh (w.image mh)).filter (fun wr => wr.1 == x)).foldl
          (fun o wr => offsetAfter a (patcherTlvStart a mh (w.image mh)) wr.2 o) (w.descs x).offset)
    ∧ (∀ x, (moduleWrites a mh (w.image mh)).filter (fun wr => wr.1 == x) = [] →
        w1.descs x = w.descs x)
    ∧ (∀ x, (moduleWrites a mh (w.image mh)).filter (fun wr => wr.1 == x) ≠ [] →
        (w1.descs x).thunk = Thunk.tls_get_addr) := by
  rw [patchLoop_eq] at hrun
  cases hf : (reachedSections a mh initialLocals (w.image mh).cmds).foldlM
      (reachStep a mh (localsAfter a mh initialLocals (w.image mh).cmds).tlvstart) (0, w) with
  | none => simp [hf] at hrun
  | some r =>
    simp only [hf, Option.map_some', Option.some.injEq, Prod.mk.injEq] at hrun
    obtain ⟨hl, hw⟩ := hrun
    obtain ⟨e1, e2, _, e4, e5, e6, e7⟩ := reachSteps_effect a mh _ _ 0 w r hf
    subst hw
    refine ⟨by rw [← hl]; rfl, newEvents_append _ _ _ e1, e2, ?_, e5, e6, e7⟩
    intro hne
    have := e4 rfl hne
    omega

theorem filter_writeEvents (ws : List (Nat × Bool)) (d : Nat) :
    (ws.map writeEvent).filter (isWriteTo d) = (ws.filter (fun wr => wr.1 == d)).map writeEvent := by
  induction ws with
  | nil => rfl
  | cons wr ws ih =>
    by_cases h : wr.1 = d
    · simp [List.filter_cons, writeEvent, isWriteTo, h, ih]
    · simp [List.filter_cons, writeEvent, isWriteTo, h, ih]

theorem writes_of_single_event (ws : List (Nat × Bool)) (d : Nat) (b : Bool)
    (h : ws.map writeEvent = [Event.patched d b]) : ws = [(d, b)] := by
  match ws, h with
  | [wr], h =>
    simp only [List.map_cons, List.map_nil, writeEvent, List.cons.injEq, Event.patched.injEq,
      and_true] at h
    obtain ⟨h1, h2⟩ := h
    cases wr
    simp_all

theorem mem_writes_of_event (ws : List (Nat × Bool)) (d : Nat) (b : Bool)
    (h : Event.patched d b ∈ ws.map writeEvent) :
    ws.filter (fun wr => wr.1 == d) ≠ [] := by
  rw [List.mem_map] at h
  obtain ⟨wr, hwr, he⟩ := h
  simp only [writeEvent, Event.patched.injEq] at he
  intro hc
  have := List.filter_eq_nil_iff.mp hc wr hwr
  simp [he.1] at this

theorem take_succ_set (buf : List TLVImageInfo) (n : Nat) (e : TLVImageInfo)
    (h : n < buf.length) : (buf.set n e).take (n + 1) = buf.take n ++ [e] := by
  induction buf generalizing n with
  | nil => simp at h
  | cons x xs ih =>
    cases n with
    | zero => simp
    | succ m =>
      simp only [List.length_cons, Nat.add_lt_add_iff_right] at h
      simp [List.set_cons_succ, List.take_succ_cons, ih m h]

theorem set_key_appends (mh key : Nat) (w : World) (h : registryOk w) :
    registryEntries (tlv_set_key_for_image mh key w) = registryEntries w ++ [⟨key, mh⟩] := by
  unfold registryOk at h
  unfold registryEntries tlv_set_key_for_image
  cases hb : w.tlv_live_images with
  | none =>
    rw [hb] at h
    obtain ⟨h1, h2⟩ := h
    simp [h1, h2, hb, List.replicate_succ]
  | some buf =>
    rw [hb] at h
    obtain ⟨h1, h2, h3, h4⟩ := h
    by_cases hu : w.tlv_live_image_used_count = w.tlv_live_image_alloc_count
    · have e1 : (2 * w.tlv_live_image_alloc_count) % 2 ^ 32 = 2 * w.tlv_live_image_alloc_count :=
        Nat.mod_eq_of_lt (by omega)
      have e2 : (w.tlv_live_image_alloc_count + 1) % 2 ^ 32 = w.tlv_live_image_alloc_count + 1 :=
        Nat.mod_eq_of_lt (by omega)
      have e3 : (buf.take w.tlv_live_image_alloc_count
          ++ List.replicate (2 * w.tlv_live_image_alloc_count - w.tlv_live_image_alloc_count)
            garbageEntry).take (2 * w.tlv_live_image_alloc_count)
          = buf ++ List.replicate w.tlv_live_image_alloc_count garbageEntry := by
        have : 2 * w.tlv_live_image_alloc_count - w.tlv_live_image_alloc_count
            = w.tlv_live_image_alloc_count := by omega
        rw [this, ← h1, List.take_length]
        apply List.take_of_length_le
        simp
        omega
      simp only [hu, hb, if_true, e1, e2, e3, Option.map_some']
      rw [take_succ_set _ _ _ (by simp; omega)]
      congr 1
      rw [← h1, List.take_append_of_le_length (le_refl _), List.take_length]
    · have hlt : w.tlv_live_image_used_count < buf.length := by omega
      have e2 : (w.tlv_live_image_used_count + 1) % 2 ^ 32 = w.tlv_live_image_used_count + 1 :=
        Nat.mod_eq_of_lt (by omega)
      simp only [hu, hb, if_false, e2, Option.map_some']
      exact take_succ_set _ _ _ hlt

theorem registryEntries_of_state (w w1 : World) (h : registryState w1 = registryState w) :
    registryEntries w1 = registryEntries w := by
  simp only [registryState, Prod.mk.injEq] at h
  obtain ⟨h1, _, h3⟩ := h
  simp [registryEntries, h1, h3]

/-- One run of the patcher when the platform hands out a non-zero slot. -/
theorem patcher_run_slot (a : Arch) (mh : Nat) (w w1 : World)
    (hkey : w.nextKey ≠ 0) (hrun : tlv_initialize_descriptors a mh w = some w1) :
    (w1.pthread_keys = w.pthread_keys
      ∨ w1.pthread_keys = w.pthread_keys ++ [(w.nextKey, KeyDestructor.tlv_free)])
    ∧ (registryState w1 = registryState w
      ∨ registryState w1 = registryState (tlv_set_key_for_image mh w.nextKey w))
    ∧ (reachedSections a mh initialLocals (w.image mh).cmds = [] → w1 = w)
    ∧ (reachedSections a mh initialLocals (w.image mh).cmds ≠ [] →
        w1.pthread_keys = w.pthread_keys ++ [(w.nextKey, KeyDestructor.tlv_free)]
        ∧ registryState w1 = registryState (tlv_set_key_for_image mh w.nextKey w)
        ∧ (registryOk w → registryEntries w1 = registryEntries w ++ [⟨w.nextKey, mh⟩])
        ∧ ∃ wk, pthread_key_create KeyDestructor.tlv_free w = some (w.nextKey, wk)
          ∧ w1 = applyWrites a w.nextKey (patcherTlvStart a mh (w.image mh))
              (moduleWrites a mh (w.image mh)) (tlv_set_key_for_image mh w.nextKey wk))
    ∧ (∀ d b, Event.patched d b ∈ newEvents w w1 → (w1.descs d).key = w.nextKey) := by
  unfold tlv_initialize_descriptors at hrun
  rw [patchLoop_of_nextKey a mh w hkey] at hrun
  by_cases hr : reachedSections a mh initialLocals (w.image mh).cmds = []
  · simp only [hr, if_true, Option.map_some', Option.some.injEq] at hrun
    subst hrun
    refine ⟨Or.inl rfl, Or.inl rfl, fun _ => rfl, fun h => absurd hr h, ?_⟩
    intro d b hd
    simp [newEvents] at hd
  · by_cases hl : w.keysLeft = 0
    · simp [hr, hl] at hrun
    · simp only [hr, hl, if_false, Option.map_some', Option.some.injEq] at hrun
      have hkc : pthread_key_create KeyDestructor.tlv_free w = some (w.nextKey,
          { w with
            pthread_keys := w.pthread_keys ++ [(w.nextKey, KeyDestructor.tlv_free)]
            nextKey := w.nextKey + 1
            keysLeft := w.keysLeft - 1 }) := by
        simp [pthread_key_create, hl]
      rw [applyWrites_eq] at hrun
      obtain ⟨f1, f2, _, f4, _, _⟩ := set_key_frame mh w.nextKey
        { w with
          pthread_keys := w.pthread_keys ++ [(w.nextKey, KeyDestructor.tlv_free)]
          nextKey := w.nextKey + 1
          keysLeft := w.keysLeft - 1 }
      have hk : w1.pthread_keys = w.pthread_keys ++ [(w.nextKey, KeyDestructor.tlv_free)] := by
        rw [← hrun]
        simp only [f4]
      have hreg : registryState w1 = registryState (tlv_set_key_for_image mh w.nextKey w) := by
        rw [← hrun]
        exact set_key_registryState mh w.nextKey w _ rfl
      have hent : registryOk w → registryEntries w1 = registryEntries w ++ [⟨w.nextKey, mh⟩] :=
        fun hok => (registryEntries_of_state _ _ hreg).trans (set_key_appends mh w.nextKey w hok)
      refine ⟨Or.inr hk, Or.inr hreg, fun h => absurd h hr,
        fun _ => ⟨hk, hreg, hent, _, hkc, ?_⟩, ?_⟩
      · rw [applyWrites_eq]
        exact hrun.symm
      · intro d b hd
        have htr : newEvents w w1 = (moduleWrites a mh (w.image mh)).map writeEvent := by
          apply newEvents_append
          rw [← hrun]
          simp only [f2]
        rw [htr] at hd
        have hne := mem_writes_of_event _ d b hd
        rw [← hrun]
        exact (writeDesc_fold_key a w.nextKey _ _ _ hne).1

/-- C9: when the platform's next slot is non-zero, one run of the patcher that
returns creates at most one slot and calls the registration function at most
once, with that slot and the module.  It creates and registers the slot exactly
when it reaches a descriptor section of non-zero size, and then does so before
any descriptor write: the final state is the state after `pthread_key_create`
and `tlv_set_key_for_image` with all descriptor writes of the run applied to
it, and on a consistent registry the used entries are the former ones followed
by the entry (slot, module).  Every descriptor written in the run carries that
slot, whatever the number of sections and segments. -/
theorem patcher_creates_one_slot (a : Arch) (mh : Nat) (w w1 : World)
    (hkey : w.nextKey ≠ 0) (hrun : tlv_initialize_descriptors a mh w = some w1) :
    (w1.pthread_keys = w.pthread_keys
      ∨ w1.pthread_keys = w.pthread_keys ++ [(w.nextKey, KeyDestructor.tlv_free)])
    ∧ (registryState w1 = registryState w
      ∨ registryState w1 = registryState (tlv_set_key_for_image mh w.nextKey w))
    ∧ (reachedSections a mh initialLocals (w.image mh).cmds = [] → w1 = w)
    ∧ (reachedSections a mh initialLocals (w.image mh).cmds ≠ [] →
        w1.pthread_keys = w.pthread_keys ++ [(w.nextKey, KeyDestructor.tlv_free)]
        ∧ registryState w1 = registryState (tlv_set_key_for_image mh w.nextKey w)
        ∧ (registryOk w → registryEntries w1 = registryEntries w ++ [⟨w.nextKey, mh⟩])
        ∧ ∃ wk, pthread_key_create KeyDestructor.tlv_free w = some (w.nextKey, wk)
          ∧ w1 = applyWrites a w.nextKey (patcherTlvStart a mh (w.image mh))
              (moduleWrites a mh (w.image mh)) (tlv_set_key_for_image mh w.nextKey wk))
    ∧ (∀ d b, Event.patched d b ∈ newEvents w w1 → (w1.descs d).key = w.nextKey) :=
  patcher_run_slot a mh w w1 hkey hrun

theorem patcher_creates_one_slot_witness :
    exWorld.nextKey ≠ 0
    ∧ exPatched.2.pthread_keys = [(5, KeyDestructor.tlv_free)]
    ∧ registryEntries exPatched.2 = [⟨5, 0x5000⟩]
    ∧ (exPatched.2.descs 0x6100).key = 5
    ∧ (exPatched.2.descs 0x610c).key = 5
    ∧ (exPatched.2.descs 0x6200).key = 5 := by
  have h := patcher_creates_one_slot Arch.ilp32 0x5000 exWorld exPatched.2 (by decide) rfl
  exact ⟨by decide, (h.2.2.2.1 (by decide)).1.trans (by decide),
    ((h.2.2.2.1 (by decide)).2.2.1 (show registryOk exWorld from ⟨rfl, rfl⟩)).trans (by decide),
    h.2.2.2.2 0x6100 false (by decide), h.2.2.2.2 0x610c false (by decide),
    h.2.2.2.2 0x6200 true (by decide)⟩

theorem run_of_initialize (a : Arch) (mh : Nat) (w w1 : World)
    (h : tlv_initialize_descriptors a mh w = some w1) :
    ∃ l1, patchLoop a mh w = some (l1, w1) := by
  unfold tlv_initialize_descriptors at h
  cases hp : patchLoop a mh w with
  | none => simp [hp] at h
  | some r =>
    simp only [hp, Option.map_some', Option.some.injEq] at h
    exact ⟨r.1, by rw [← h]⟩

/-- C8 (amended): a second run of the patcher on the same module is a no-op
only when the first run reached no descriptor section.  Otherwise the second
run creates a second slot, registers it for the module (on a consistent
registry: appends a second entry), and writes the same descriptors again: each of them then carries the second slot, and a descriptor
written once from a custom section has its offset rebased a second time.  Only
the resolver pointer of every descriptor stays as the first run left it. -/
theorem patcher_second_call (a : Arch) (mh : Nat) (w w1 w2 : World)
    (h1 : tlv_initialize_descriptors a mh w = some w1)
    (h2 : tlv_initialize_descriptors a mh w1 = some w2) :
    (reachedSections a mh initialLocals (w.image mh).cmds = [] → w1 = w ∧ w2 = w)
    ∧ (reachedSections a mh initialLocals (w.image mh).cmds ≠ [] →
        w2.pthread_keys = w1.pthread_keys ++ [(w1.nextKey, KeyDestructor.tlv_free)]
        ∧ registryState w2 = registryState (tlv_set_key_for_image mh w1.nextKey w1)
        ∧ (registryOk w1 → registryEntries w2 = registryEntries w1 ++ [⟨w1.nextKey, mh⟩])
        ∧ ∀ d b, Event.patched d b ∈ newEvents w w1 → (w2.descs d).key = w1.nextKey)
    ∧ newEvents w1 w2 = newEvents w w1
    ∧ (∀ d, (w2.descs d).thunk = (w1.descs d).thunk)
    ∧ (∀ d, (newEvents w w1).filter (isWriteTo d) = [Event.patched d false] →
        (w2.descs d).offset =
          ((w1.descs d).offset
            + (a.wordMod - patcherTlvStart a mh (w.image mh) % a.wordMod)) % a.wordMod) := by
  obtain ⟨l1, r1⟩ := run_of_initialize a mh w w1 h1
  obtain ⟨l2, r2⟩ := run_of_initialize a mh w1 w2 h2
  obtain ⟨_, a2, a3, a4, _, _, a7⟩ := patchLoop_effect a mh w w1 l1 r1
  obtain ⟨_, b2, _, _, b5, b6, b7⟩ := patchLoop_effect a mh w1 w2 l2 r2
  rw [a3] at b2 b5 b6 b7
  have hev : newEvents w1 w2 = newEvents w w1 := by rw [a2, b2]
  refine ⟨?_, ?_, hev, ?_, ?_⟩
  · intro hr
    have e1 := patchLoop_of_no_reached a mh w hr
    rw [r1] at e1
    simp only [Option.some.injEq, Prod.mk.injEq] at e1
    have hr1 : reachedSections a mh initialLocals (w1.image mh).cmds = [] := by rw [a3]; exact hr
    have e2 := patchLoop_of_no_reached a mh w1 hr1
    rw [r2] at e2
    simp only [Option.some.injEq, Prod.mk.injEq] at e2
    exact ⟨e1.2, e2.2.trans e1.2⟩
  · intro hr
    have hr1 : reachedSections a mh initialLocals (w1.image mh).cmds ≠ [] := by rw [a3]; exact hr
    obtain ⟨_, _, _, c4, c5⟩ := patcher_run_slot a mh w1 w2 (a4 hr) h2
    obtain ⟨c41, c42, c43, _⟩ := c4 hr1
    refine ⟨c41, c42, c43, ?_⟩
    intro d b hd
    rw [← hev] at hd
    exact c5 d b hd
  · intro d
    by_cases hd : (moduleWrites a mh (w.image mh)).filter (fun wr => wr.1 == d) = []
    · rw [b6 d hd]
    · rw [b7 d hd, a7 d hd]
  · intro d hd
    rw [a2, filter_writeEvents] at hd
    rw [b5 d, writes_of_single_event _ d false hd]
    simp [offsetAfter]

theorem patcher_second_call_witness :
    tlv_initialize_descriptors Arch.ilp32 0x5000 exWorld = some exPatched.2
    ∧ tlv_initialize_descriptors Arch.ilp32 0x5000 exPatched.2 = some exPatchedTwice
    ∧ exPatchedTwice.pthread_keys = [(5, KeyDestructor.tlv_free), (6, KeyDestructor.tlv_free)]
    ∧ (exPatchedTwice.descs 0x6100).key = 6
    ∧ (exPatchedTwice.descs 0x6100).thunk = Thunk.tls_get_addr := by
  have h := patcher_second_call Arch.ilp32 0x5000 exWorld exPatched.2 exPatchedTwice rfl rfl
  exact ⟨rfl, rfl, (h.2.1 (by decide)).1.trans (by decide),
    (h.2.1 (by decide)).2.2.2 0x6100 false (by decide),
    (h.2.2.2.1 0x6100).trans (by decide)⟩

/-- C8 as stated fails on the example module: the first call leaves one slot
(5), one registry entry and the descriptor at `0x6100` with slot 5 and offset
`0x100`; the second call on that state returns with a second slot (6), a
second registry entry for the same module, and the descriptor at `0x6100` with
slot 6 and offset `0x100 - 0x6000` modulo `2 ^ 32`. -/
theorem patcher_second_call_counterexample :
    tlv_initialize_descriptors Arch.ilp32 0x5000 exWorld = some exPatched.2
    ∧ exPatched.2.pthread_keys = [(5, KeyDestructor.tlv_free)]
    ∧ registryEntries exPatched.2 = [⟨5, 0x5000⟩]
    ∧ exPatched.2.descs 0x6100 = ⟨Thunk.tls_get_addr, 5, 0x100⟩
    ∧ tlv_initialize_descriptors Arch.ilp32 0x5000 exPatched.2 = some exPatchedTwice
    ∧ exPatchedTwice.pthread_keys = [(5, KeyDestructor.tlv_free), (6, KeyDestructor.tlv_free)]
    ∧ registryEntries exPatchedTwice = [⟨5, 0x5000⟩, ⟨6, 0x5000⟩]
    ∧ exPatchedTwice.descs 0x6100 = ⟨Thunk.tls_get_addr, 6, 0xFFFFA100⟩
    ∧ exPatchedTwice.pthread_keys ≠ exPatched.2.pthread_keys
    ∧ registryEntries exPatchedTwice ≠ registryEntries exPatched.2
    ∧ (exPatchedTwice.descs 0x6100).key ≠ (exPatched.2.descs 0x6100).key
    ∧ (exPatchedTwice.descs 0x6100).offset ≠ (exPatched.2.descs 0x6100).offset :=
  ⟨rfl, by decide, by decide, by decide, rfl, by decide, by decide, by decide, by decide,
    by decide, by decide, by decide⟩

/-- C6: evaluation of the patcher on the module `cxSplitHeader`, which has a
template section in its third segment and matching descriptor sections in its
second (`__iostlv`) and third (`__thread_vars`) segments.  The patcher returns
having created slot 5 and patched the descriptor at `0x7100` of the third
segment, but the descriptor at `0x6100` of the second segment is exactly as it
was: resolver pointer and slot are not set. -/
theorem patcher_skips_earlier_segment :
    templateSections (cxSplitWorld.image 0x5000).cmds = [⟨"__thread_data", 0x3000, 16, 0x11⟩]
    ∧ (allSections (cxSplitWorld.image 0x5000).cmds).filter isDescriptorSection
        = [⟨"__iostlv", 0x2100, 12, 0⟩, ⟨"__thread_vars", 0x3100, 12, 0x13⟩]
    ∧ (firstPass Arch.ilp32 0x5000 (cxSplitWorld.image 0x5000).cmds).slide = 0x4000
    ∧ (tlv_initialize_descriptors Arch.ilp32 0x5000 cxSplitWorld).map
        (fun w1 => (w1.pthread_keys, w1.descs 0x7100, w1.descs 0x6100, cxSplitWorld.descs 0x6100))
      = some ([(5, KeyDestructor.tlv_free)], ⟨Thunk.tls_get_addr, 5, 0x7100⟩,
          ⟨Thunk.tlv_bootstrap, 0, 0x6100⟩, ⟨Thunk.tlv_bootstrap, 0, 0x6100⟩) := by
  decide

theorem lookup_eq (key : Nat) (w : World) :
    tlv_get_image_for_key key w =
      match (registryEntries w).find? (fun e => e.key == key) with
      | some e => e.mh
      | none => 0 := by
  unfold tlv_get_image_for_key registryEntries
  cases w.tlv_live_images with
  | none => rfl
  | some buf => rfl

theorem set_key_appends_of_room (mh key : Nat) (w : World) (h : registryFits w) :
    registryEntries (tlv_set_key_for_image mh key w) = registryEntries w ++ [⟨key, mh⟩]
    ∧ (tlv_set_key_for_image mh key w).tlv_live_image_used_count
        = w.tlv_live_image_used_count + 1
    ∧ (tlv_set_key_for_image mh key w).tlv_live_image_alloc_count
        = (if w.tlv_live_image_used_count = w.tlv_live_image_alloc_count then
            (if w.tlv_live_image_alloc_count = 0 then 8 else 2 * w.tlv_live_image_alloc_count)
          else w.tlv_live_image_alloc_count)
    ∧ ∃ buf, (tlv_set_key_for_image mh key w).tlv_live_images = some buf
        ∧ buf.length = (tlv_set_key_for_image mh key w).tlv_live_image_alloc_count := by
  unfold registryFits at h
  unfold registryEntries tlv_set_key_for_image
  cases hb : w.tlv_live_images with
  | none =>
    rw [hb] at h
    obtain ⟨h1, h2⟩ := h
    simp [h1, h2, hb, List.replicate_succ]
  | some buf =>
    rw [hb] at h
    obtain ⟨h1, h2, h3, h4, h5⟩ := h
    by_cases hu : w.tlv_live_image_used_count = w.tlv_live_image_alloc_count
    · have e1 : (2 * w.tlv_live_image_alloc_count) % 2 ^ 32 = 2 * w.tlv_live_image_alloc_count :=
        Nat.mod_eq_of_lt (by omega)
      have e2 : (w.tlv_live_image_alloc_count + 1) % 2 ^ 32 = w.tlv_live_image_alloc_count + 1 :=
        Nat.mod_eq_of_lt (by omega)
      have e3 : (buf.take w.tlv_live_image_alloc_count
          ++ List.replicate (2 * w.tlv_live_image_alloc_count - w.tlv_live_image_alloc_count)
            garbageEntry).take (2 * w.tlv_live_image_alloc_count)
          = buf ++ List.replicate w.tlv_live_image_alloc_count garbageEntry := by
        have : 2 * w.tlv_live_image_alloc_count - w.tlv_live_image_alloc_count
            = w.tlv_live_image_alloc_count := by omega
        rw [this, ← h1, List.take_length]
        apply List.take_of_length_le
        simp
        omega
      have h0 : w.tlv_live_image_alloc_count ≠ 0 := by omega
      simp only [hu, hb, if_true, e1, e2, e3, Option.map_some', h0, if_false]
      refine ⟨?_, trivial, trivial, _, rfl, ?_⟩
      · rw [take_succ_set _ _ _ (by simp; omega)]
        congr 1
        rw [← h1, List.take_append_of_le_length (le_refl _), List.take_length]
      · simp
        omega
    · have hlt : w.tlv_live_image_used_count < buf.length := by omega
      have e2 : (w.tlv_live_image_used_count + 1) % 2 ^ 32 = w.tlv_live_image_used_count + 1 :=
        Nat.mod_eq_of_lt (by omega)
      simp only [hu, hb, if_false, e2, Option.map_some']
      refine ⟨take_succ_set _ _ _ hlt, trivial, trivial, _, rfl, ?_⟩
      simp [h1]

theorem registerAll_append (xs : List (Nat × Nat)) (x : Nat × Nat) (w : World) :
    registerAll (xs ++ [x]) w = tlv_set_key_for_image x.1 x.2 (registerAll xs w) := by
  simp [registerAll, List.foldl_append]

theorem pow_two_le_of_lt (j : Nat) (h : 8 * 2 ^ j < 2 ^ 32) : 8 * 2 ^ j ≤ 2 ^ 31 := by
  have e : 8 * 2 ^ j = 2 ^ (j + 3) := by rw [pow_add]; ring
  rw [e] at h ⊢
  have hj : j + 3 < 32 := (Nat.pow_lt_pow_iff_right (by norm_num)).mp h
  exact Nat.pow_le_pow_right (by norm_num) (by omega)

theorem alloc_unchanged_of_not_full (m k : Nat) (w : World)
    (h : w.tlv_live_image_used_count ≠ w.tlv_live_image_alloc_count) :
    (tlv_set_key_for_image m k w).tlv_live_image_alloc_count = w.tlv_live_image_alloc_count := by
  unfold tlv_set_key_for_image
  simp [h]

theorem registerAll_invariant (regs : List (Nat × Nat)) (w0 : World)
    (h0 : registryState w0 = (none, 0, 0)) (hn : regs.length ≤ 2 ^ 31) :
    (registerAll regs w0).tlv_live_image_used_count = regs.length
    ∧ registryEntries (registerAll regs w0) = regs.map (fun r => ⟨r.2, r.1⟩)
    ∧ (regs = [] → registryState (registerAll regs w0) = (none, 0, 0))
    ∧ (regs ≠ [] →
        regs.length ≤ (registerAll regs w0).tlv_live_image_alloc_count
        ∧ (∃ j, (registerAll regs w0).tlv_live_image_alloc_count = 8 * 2 ^ j
            ∧ (j = 0 ∨ (registerAll regs w0).tlv_live_image_alloc_count < 2 * regs.length))
        ∧ ∃ buf, (registerAll regs w0).tlv_live_images = some buf
            ∧ buf.length = (registerAll regs w0).tlv_live_image_alloc_count) := by
  induction regs using List.reverseRecOn with
  | nil =>
    simp only [registryState, Prod.mk.injEq] at h0
    obtain ⟨h1, h2, h3⟩ := h0
    refine ⟨h3, ?_, fun _ => ?_, fun h => absurd rfl h⟩
    · simp [registerAll, registryEntries, h1]
    · simp [registerAll, registryState, h1, h2, h3]
  | append_singleton xs x ih =>
    have hlen : xs.length < 2 ^ 31 := by
      simp only [List.length_append, List.length_singleton] at hn
      omega
    obtain ⟨i1, i2, i3, i4⟩ := ih (by omega)
    have hroom : registryFits (registerAll xs w0) := by
      unfold registryFits
      by_cases hx : xs = []
      · have := i3 hx
        simp only [registryState, Prod.mk.injEq] at this
        obtain ⟨h1, h2, h3⟩ := this
        rw [h1]
        exact ⟨h2, h3⟩
      · obtain ⟨j1, ⟨j, j2, j3⟩, buf, j4, j5⟩ := i4 hx
        rw [j4]
        refine ⟨j5, by omega, ?_, ?_, by omega⟩
        · rw [j2]; positivity
        · rcases j3 with j3 | j3
          · rw [j2, j3]; norm_num
          · rw [j2]
            apply pow_two_le_of_lt
            rw [← j2]
            omega
    obtain ⟨a1, a2, a3, a4⟩ := set_key_appends_of_room x.1 x.2 _ hroom
    rw [registerAll_append]
    refine ⟨?_, ?_, fun h => absurd h (by simp), fun _ => ⟨?_, ?_, a4⟩⟩
    · rw [a2, i1]; simp
    · rw [a1, i2]; simp
    · rw [a3, i1]
      by_cases hx : xs = []
      · have := i3 hx
        simp only [registryState, Prod.mk.injEq] at this
        obtain ⟨_, h2, _⟩ := this
        subst hx
        simp [h2]
      · obtain ⟨j1, _, _⟩ := i4 hx
        simp only [List.length_append, List.length_singleton]
        split_ifs <;> omega
    · rw [a3, i1]
      by_cases hx : xs = []
      · have := i3 hx
        simp only [registryState, Prod.mk.injEq] at this
        obtain ⟨_, h2, _⟩ := this
        subst hx
        exact ⟨0, by simp [h2], Or.inl rfl⟩
      · obtain ⟨j1, ⟨j, j2, j3⟩, _⟩ := i4 hx
        have hpos : 0 < 8 * 2 ^ j := by positivity
        simp only [List.length_append, List.length_singleton]
        by_cases hfull : xs.length = (registerAll xs w0).tlv_live_image_alloc_count
        · have hne : (registerAll xs w0).tlv_live_image_alloc_count ≠ 0 := by omega
          simp only [hfull, if_true, hne, if_false]
          refine ⟨j + 1, by rw [j2, pow_succ]; ring, Or.inr (by omega)⟩
        · simp only [hfull, if_false]
          refine ⟨j, j2, ?_⟩
          rcases j3 with j3 | j3
          · exact Or.inl j3
          · exact Or.inr (by omega)

theorem registryLimit_le (a : Arch) : registryLimit a ≤ 2 ^ 31 := by
  cases a <;> simp [registryLimit]

/-- C12: starting from the empty registry, after every sequence of
`n ≤ registryLimit a` register calls the used-count is `n`, the used entries
are exactly the registered (slot, module) pairs in call order, the used-count
is at most the allocated capacity, the capacity is 0 when no call was made and
otherwise 8 doubled as often as needed (`8 * 2 ^ j`, with less than `2 * n`
unless it is still 8), and the capacity changes only at a register call that
finds the registry full. -/
theorem registry_invariant (a : Arch) (regs : List (Nat × Nat)) (w0 : World)
    (h0 : registryState w0 = (none, 0, 0)) (hn : regs.length ≤ registryLimit a) :
    (registerAll regs w0).tlv_live_image_used_count = regs.length
    ∧ registryEntries (registerAll regs w0) = regs.map (fun r => ⟨r.2, r.1⟩)
    ∧ (registerAll regs w0).tlv_live_image_used_count
        ≤ (registerAll regs w0).tlv_live_image_alloc_count
    ∧ (regs = [] → (registerAll regs w0).tlv_live_image_alloc_count = 0)
    ∧ (regs ≠ [] → ∃ j, (registerAll regs w0).tlv_live_image_alloc_count = 8 * 2 ^ j
        ∧ (j = 0 ∨ (registerAll regs w0).tlv_live_image_alloc_count < 2 * regs.length))
    ∧ (∀ pre r post, regs = pre ++ r :: post →
        (registerAll (pre ++ [r]) w0).tlv_live_image_alloc_count
          ≠ (registerAll pre w0).tlv_live_image_alloc_count →
        (registerAll pre w0).tlv_live_image_used_count
          = (registerAll pre w0).tlv_live_image_alloc_count) := by
  obtain ⟨i1, i2, i3, i4⟩ := registerAll_invariant regs w0 h0
    (le_trans hn (registryLimit_le a))
  refine ⟨i1, i2, ?_, ?_, fun h => (i4 h).2.1, ?_⟩
  · by_cases hx : regs = []
    · have := i3 hx
      simp only [registryState, Prod.mk.injEq] at this
      rw [this.2.1, this.2.2]
    · rw [i1]; exact (i4 hx).1
  · intro hx
    have := i3 hx
    simp only [registryState, Prod.mk.injEq] at this
    exact this.2.1
  · intro pre r post _ hne
    by_contra hc
    apply hne
    rw [registerAll_append]
    exact alloc_unchanged_of_not_full r.1 r.2 _ hc

theorem registry_invariant_witness :
    (registerAll [(0x5000, 5), (0x9000, 6), (0xa000, 7)] exWorld).tlv_live_image_used_count = 3
    ∧ registryEntries (registerAll [(0x5000, 5), (0x9000, 6), (0xa000, 7)] exWorld)
        = [⟨5, 0x5000⟩, ⟨6, 0x9000⟩, ⟨7, 0xa000⟩]
    ∧ (registerAll [(0x5000, 5), (0x9000, 6), (0xa000, 7)] exWorld).tlv_live_image_alloc_count
        = 8 := by
  have h := registry_invariant Arch.lp64 [(0x5000, 5), (0x9000, 6), (0xa000, 7)] exWorld rfl
    (by simp [registryLimit])
  exact ⟨h.1, h.2.1, by decide⟩

theorem registerHandlers_handlers (regs : List (dyld_tlv_states × Nat)) (w : World) :
    registerHandlers regs w =
      { w with
        tlv_handlers := (regs.reverse.map (fun r => (⟨r.2, r.1⟩ : TLVHandler))) ++ w.tlv_handlers } := by
  induction regs generalizing w with
  | nil => rfl
  | cons r rs ih =>
    simp only [registerHandlers, List.foldl_cons] at ih ⊢
    rw [ih]
    simp [iosdyld_register_tlv_state_change_handler]

theorem notifyEvents_append (hs1 hs2 : List TLVHandler) (state : dyld_tlv_states)
    (buffer size : Nat) :
    notifyEvents (hs1 ++ hs2) state buffer size
      = notifyEvents hs1 state buffer size ++ notifyEvents hs2 state buffer size := by
  simp [notifyEvents]

/-- C15: for every handler list, kind `state` and buffer, `tlv_notify` adds to
the trace exactly one invocation for each registered handler whose kind is
`state` and whose callback is non-null, in list order, with kind `state`, the
buffer address and its `malloc_size`, and changes nothing else; no handler of
the other kind is invoked.  Handlers registered by successive calls of
`iosdyld_register_tlv_state_change_handler` are prepended: the list becomes
the new nodes, last registered first, followed by the earlier list unchanged,
and a notification invokes the matching new handlers most recently registered
first, then the earlier ones as before. -/
theorem notify_invokes_matching_handlers (state : dyld_tlv_states) (buffer : Nat) (w : World) :
    newEvents w (tlv_notify state buffer w) =
        (w.tlv_handlers.filter (fun h => h.state = state ∧ h.handler ≠ 0)).map
          (fun h => Event.notified h.handler state buffer (malloc_size buffer w))
    ∧ tlv_notify state buffer w =
        { w with trace := w.trace ++ newEvents w (tlv_notify state buffer w) }
    ∧ (∀ regs : List (dyld_tlv_states × Nat),
        (registerHandlers regs w).tlv_handlers
            = regs.reverse.map (fun r => (⟨r.2, r.1⟩ : TLVHandler)) ++ w.tlv_handlers
        ∧ registerHandlers regs w =
            { w with tlv_handlers := (registerHandlers regs w).tlv_handlers }
        ∧ newEvents (registerHandlers regs w) (tlv_notify state buffer (registerHandlers regs w)) =
            ((regs.reverse.filter (fun r => r.1 = state ∧ r.2 ≠ 0)).map
                (fun r => Event.notified r.2 state buffer (malloc_size buffer w)))
              ++ newEvents w (tlv_notify state buffer w)) := by
  have hn : ∀ w1 : World, newEvents w1 (tlv_notify state buffer w1) =
      notifyEvents w1.tlv_handlers state buffer (malloc_size buffer w1) := by
    intro w1
    apply newEvents_append
    rw [tlv_notify_eq]
  refine ⟨hn w, ?_, ?_⟩
  · rw [hn w]
    exact tlv_notify_eq state buffer w
  · intro regs
    have hr := registerHandlers_handlers regs w
    refine ⟨by rw [hr], by rw [hr], ?_⟩
    rw [hn, hn w, hr]
    simp only [malloc_size]
    rw [notifyEvents_append]
    congr 1
    simp only [notifyEvents, List.filter_map, List.map_map]
    rfl

theorem enumerate_fold (handler : Nat) (ps : List Nat) (w : World) :
    ps.foldl (fun w p =>
      if p ≠ 0 then
        { w with
          trace := w.trace ++
            [Event.notified handler dyld_tlv_states.dyld_tlv_state_allocated p (malloc_size p w)] }
      else w) w =
    { w with
      trace := w.trace ++ ps.filterMap (fun p =>
        if p ≠ 0 then
          some (Event.notified handler dyld_tlv_states.dyld_tlv_state_allocated p (malloc_size p w))
        else none) } := by
  induction ps generalizing w with
  | nil => simp
  | cons p ps ih =>
    rw [List.foldl_cons, ih]
    by_cases hp : p = 0
    · simp [hp]
    · simp [hp, malloc_size]

/-- C18 (amended): enumeration run by a thread invokes the callback exactly
once for each used registry entry for which the calling thread's slot value is
non-null, in registry order, with an `allocated` event carrying that buffer's
address and `malloc_size`; there is no invocation for an entry whose value is
null, and nothing else changes.  Buffers held by other threads are not
reported. -/
theorem enumerate_reports_calling_thread (thread handler : Nat) (w : World) :
    newEvents w (iosdyld_enumerate_tlv_storage thread handler w) =
        (registryEntries w).filterMap (fun e =>
          if w.tsd thread e.key ≠ 0 then
            some (Event.notified handler dyld_tlv_states.dyld_tlv_state_allocated
              (w.tsd thread e.key) (malloc_size (w.tsd thread e.key) w))
          else none)
    ∧ iosdyld_enumerate_tlv_storage thread handler w =
        { w with trace := w.trace ++ newEvents w (iosdyld_enumerate_tlv_storage thread handler w) } := by
  have h : iosdyld_enumerate_tlv_storage thread handler w =
      { w with trace := w.trace ++ enumerateEvents thread handler w } := by
    unfold iosdyld_enumerate_tlv_storage enumerateEvents registryEntries
    rw [enumerate_fold]
    cases w.tlv_live_images with
    | none => simp
    | some buf =>
      simp only [pthread_getspecific, List.filterMap_map]
      congr 2
  have hev : newEvents w (iosdyld_enumerate_tlv_storage thread handler w)
      = enumerateEvents thread handler w := by
    apply newEvents_append
    rw [h]
  refine ⟨hev, ?_⟩
  rw [hev]
  exact h

/-- Thread 2 holds a live buffer for the registered slot 5: an enumeration run
by thread 1 invokes the callback for no buffer; only an enumeration run by
thread 2 reports it. -/
theorem enumerate_counterexample :
    registryEntries cxTwoThreads = [⟨5, 0x5000⟩]
    ∧ pthread_getspecific 2 5 cxTwoThreads = 0x40
    ∧ malloc_size 0x40 cxTwoThreads = 24
    ∧ newEvents cxTwoThreads (iosdyld_enumerate_tlv_storage 1 7 cxTwoThreads) = []
    ∧ newEvents cxTwoThreads (iosdyld_enumerate_tlv_storage 2 7 cxTwoThreads)
        = [Event.notified 7 dyld_tlv_states.dyld_tlv_state_allocated 0x40 24] := by
  decide

theorem range_map_getD (es : List TLVTerminatorListEntry) :
    (List.range es.length).map (fun i => es.getD i garbageTermEntry) = es := by
  apply List.ext_getElem
  · simp
  · intro i h1 h2
    simp [List.getD_eq_getElem?_getD, List.getElem?_eq_getElem h2]

theorem capacity_of_doubled (a : Arch) (k : Nat) (h : k + 1 ≤ maxAppends a) :
    entriesCapacity a (offsetofEntries a (2 ^ k)) = 2 ^ k ∧ 2 ^ k < 2 ^ 32 := by
  cases a with
  | ilp32 =>
    have hk : k ≤ 28 := by simp only [maxAppends] at h; omega
    have hp : 2 ^ k ≤ 2 ^ 28 := Nat.pow_le_pow_right (by norm_num) hk
    have hlt : 8 + 2 ^ k * (2 * 4) < 2 ^ (8 * 4) := by
      norm_num at hp ⊢
      omega
    refine ⟨?_, by norm_num at hp ⊢; omega⟩
    simp only [entriesCapacity, offsetofEntries, Arch.ptrBytes, Arch.wordMod,
      Nat.mod_eq_of_lt hlt]
    omega
  | lp64 =>
    have hk : k ≤ 31 := by simp only [maxAppends] at h; omega
    have hp : 2 ^ k ≤ 2 ^ 31 := Nat.pow_le_pow_right (by norm_num) hk
    have hlt : 8 + 2 ^ k * (2 * 8) < 2 ^ (8 * 8) := by
      norm_num at hp ⊢
      omega
    refine ⟨?_, by norm_num at hp ⊢; omega⟩
    simp only [entriesCapacity, offsetofEntries, Arch.ptrBytes, Arch.wordMod,
      Nat.mod_eq_of_lt hlt]
    omega

theorem capacity_of_one (a : Arch) : entriesCapacity a (offsetofEntries a 1) = 1 := by
  have := (capacity_of_doubled a 0 (by cases a <;> simp [maxAppends])).1
  simpa using this

theorem atexit_first_eq (a : Arch) (thread func objAddr : Nat) (w : World)
    (h0 : w.tsd thread w.tlv_terminators_key = 0) :
    _tlv_atexit a thread func objAddr w =
      some (pthread_setspecific thread w.tlv_terminators_key (malloc (offsetofEntries a 1) w).1
        { (malloc (offsetofEntries a 1) w).2 with
          chains := fun x =>
            if x = (malloc (offsetofEntries a 1) w).1 then
              some ⟨1, 1, 1, [⟨func, objAddr⟩]⟩
            else (malloc (offsetofEntries a 1) w).2.chains x }) := by
  unfold _tlv_atexit
  simp only [pthread_getspecific, h0, if_true, capacity_of_one, Nat.lt_one_iff]

theorem atexit_first (a : Arch) (thread func objAddr : Nat) (w : World)
    (h0 : w.tsd thread w.tlv_terminators_key = 0) :
    ∃ w1, _tlv_atexit a thread func objAddr w = some w1
      ∧ w1.tlv_terminators_key = w.tlv_terminators_key
      ∧ termCalls w1.trace = termCalls w.trace
      ∧ ChainAfter thread 0 [⟨func, objAddr⟩] w1 := by
  refine ⟨_, atexit_first_eq a thread func objAddr w h0, ?_, ?_, ?_⟩
  · simp [pthread_setspecific, malloc]
  · simp [pthread_setspecific, malloc, termCalls]
  · simp [ChainAfter, chainOf, pthread_setspecific, malloc, freshPtr]

theorem writeEntry_at_length (es : List TLVTerminatorListEntry) (e : TLVTerminatorListEntry) :
    writeEntry es es.length e = es ++ [e] := by
  simp [writeEntry]

theorem atexit_next (a : Arch) (thread func objAddr k : Nat) (es : List TLVTerminatorListEntry)
    (w : World) (hc : ChainAfter thread k es w) (hk : k + 2 ≤ maxAppends a) :
    ∃ w1, _tlv_atexit a thread func objAddr w = some w1
      ∧ w1.tlv_terminators_key = w.tlv_terminators_key
      ∧ termCalls w1.trace = termCalls w.trace
      ∧ ChainAfter thread (k + 1) (es ++ [⟨func, objAddr⟩]) w1 := by
  obtain ⟨hp, ⟨b, hb, hbp⟩, hch, hlen⟩ := hc
  obtain ⟨hcap, hlt⟩ := capacity_of_doubled a (k + 1) hk
  have hk32 : k + 1 < 32 := by cases a <;> simp only [maxAppends] at hk <;> omega
  have hdouble : (2 ^ k * 2) % 2 ^ 32 = 2 ^ (k + 1) := by
    rw [← pow_succ]
    exact Nat.mod_eq_of_lt hlt
  have hfresh : freshPtr w.heap ≠ w.tsd thread w.tlv_terminators_key := by
    have := freshPtr_gt w.heap b hb
    omega
  have hfresh2 : w.tsd thread w.tlv_terminators_key ≠ freshPtr w.heap := fun h => hfresh h.symm
  have h1 : k + 1 ≤ 2 ^ k := Nat.lt_two_pow k
  have h2 : k + 1 < 2 ^ (k + 1) := by
    have := Nat.lt_two_pow (k + 1)
    omega
  have h3 : (k + 1 + 1) % 2 ^ 32 = k + 1 + 1 := Nat.mod_eq_of_lt (by omega)
  have hent : (List.range (k + 1)).map (fun i => es.getD i garbageTermEntry) = es := by
    rw [← hlen]; exact range_map_getD es
  unfold chainOf at hch
  unfold _tlv_atexit
  simp only [pthread_getspecific, hp, if_false, hch, if_true, hdouble, hcap, h1, h2.le,
    and_self, hent, h2]
  refine ⟨_, rfl, ?_, ?_, ?_⟩
  · simp [pthread_setspecific, malloc, free]
  · simp [pthread_setspecific, malloc, free, termCalls]
  · refine ⟨?_, ?_, ?_, ?_⟩
    · simp [pthread_setspecific, malloc, free, freshPtr]
    · refine ⟨⟨freshPtr w.heap, w.good_size (offsetofEntries a (2 ^ (k + 1))),
        List.replicate (offsetofEntries a (2 ^ (k + 1))) 0⟩, ?_, ?_⟩
      · simp [pthread_setspecific, malloc, free, hfresh]
      · simp [pthread_setspecific, malloc, free]
    · simp [chainOf, pthread_setspecific, malloc, free, ← hlen, writeEntry_at_length]
      omega
    · simp [hlen]

theorem atexitAll_append (a : Arch) (thread : Nat) (xs : List TLVTerminatorListEntry)
    (x : TLVTerminatorListEntry) (w : World) :
    atexitAll a thread (xs ++ [x]) w =
      (atexitAll a thread xs w).bind (fun w1 => _tlv_atexit a thread x.termFunc x.objAddr w1) := by
  simp only [atexitAll, List.foldlM_append, List.foldlM_cons, List.foldlM_nil]
  cases List.foldlM (fun w e => _tlv_atexit a thread e.termFunc e.objAddr w) w xs with
  | none => rfl
  | some w1 =>
    simp only [Option.bind_eq_bind, Option.some_bind]
    cases _tlv_atexit a thread x.termFunc x.objAddr w1 <;> rfl

/-- Within `maxAppends` the appends of a thread that starts without a chain are
all defined and leave a chain of capacity `2 ^ (n - 1)` holding the entries in
order. -/
theorem atexitAll_chain (a : Arch) (thread : Nat) (es : List TLVTerminatorListEntry) (w0 : World)
    (h0 : w0.tsd thread w0.tlv_terminators_key = 0) (hne : es ≠ [])
    (hn : es.length ≤ maxAppends a) :
    ∃ w1, atexitAll a thread es w0 = some w1
      ∧ w1.tlv_terminators_key = w0.tlv_terminators_key
      ∧ termCalls w1.trace = termCalls w0.trace
      ∧ ChainAfter thread (es.length - 1) es w1 := by
  induction es using List.reverseRecOn with
  | nil => exact absurd rfl hne
  | append_singleton xs x ih =>
    rw [atexitAll_append]
    by_cases hx : xs = []
    · subst hx
      obtain ⟨w1, e1, e2, e3, e4⟩ := atexit_first a thread x.termFunc x.objAddr w0 h0
      exact ⟨w1, by simpa [atexitAll] using e1, e2, e3, by simpa using e4⟩
    · simp only [List.length_append, List.length_singleton] at hn
      obtain ⟨w1, e1, e2, e3, e4⟩ := ih hx (by omega)
      have hpos : 0 < xs.length := List.length_pos.mpr hx
      obtain ⟨w2, f1, f2, f3, f4⟩ :=
        atexit_next a thread x.termFunc x.objAddr (xs.length - 1) xs w1 e4 (by omega)
      refine ⟨w2, by rw [e1]; exact f1, by rw [f2, e2], by rw [f3, e3], ?_⟩
      have : (xs ++ [x]).length - 1 = xs.length - 1 + 1 := by
        simp only [List.length_append, List.length_singleton]
        omega
      rw [this]
      exact f4

/-- One append beyond `maxAppends`: the doubled capacity wraps (as a
`uint32_t` on LP64, the byte size as a `size_t` on ILP32), the new block has
room for no entry, and the copy of the old entries runs past it. -/
theorem atexit_overflow (a : Arch) (thread func objAddr k : Nat)
    (es : List TLVTerminatorListEntry) (w : World) (hc : ChainAfter thread k es w)
    (hk : k + 1 = maxAppends a) :
    _tlv_atexit a thread func objAddr w = none := by
  obtain ⟨hp, _, hch, _⟩ := hc
  have hcap : entriesCapacity a (offsetofEntries a ((2 ^ k * 2) % 2 ^ 32)) = 0 := by
    cases a with
    | ilp32 =>
      have : k = 28 := by simp only [maxAppends] at hk; omega
      subst this
      decide
    | lp64 =>
      have : k = 31 := by simp only [maxAppends] at hk; omega
      subst this
      decide
  unfold chainOf at hch
  unfold _tlv_atexit
  simp only [pthread_getspecific, hp, if_false, hch, if_true, hcap]
  simp

theorem atexitAll_overflow (a : Arch) (thread : Nat) (es : List TLVTerminatorListEntry)
    (w0 : World) (h0 : w0.tsd thread w0.tlv_terminators_key = 0)
    (hn : es.length = maxAppends a + 1) :
    atexitAll a thread es w0 = none := by
  induction es using List.reverseRecOn with
  | nil => simp at hn
  | append_singleton xs x _ =>
    simp only [List.length_append, List.length_singleton] at hn
    have hm : 0 < maxAppends a := by cases a <;> simp [maxAppends]
    have hx : xs ≠ [] := by
      intro h
      rw [h] at hn
      simp at hn
      omega
    obtain ⟨w1, e1, _, _, e4⟩ := atexitAll_chain a thread xs w0 h0 hx (by omega)
    rw [atexitAll_append, e1]
    exact atexit_overflow a thread x.termFunc x.objAddr (xs.length - 1) xs w1 e4 (by omega)

theorem finalize_fold (g : Nat → TLVTerminatorListEntry) (cap : Nat) (is : List Nat) (w : World)
    (h : ∀ i ∈ is, i < cap) :
    is.foldlM (fun w i =>
        if i < cap then
          if (g i).termFunc ≠ 0 then some (callTermFunc (g i) w) else some w
        else none) w =
      some { w with trace := w.trace ++ termEvents ((is.map g).reverse) } := by
  induction is generalizing w with
  | nil => simp [termEvents]
  | cons i is ih =>
    have hi : i < cap := h i (List.mem_cons_self _ _)
    have his : ∀ j ∈ is, j < cap := fun j hj => h j (List.mem_cons_of_mem _ hj)
    rw [List.foldlM_cons]
    by_cases ht : (g i).termFunc = 0
    · simp only [hi, if_true, ht, ne_eq, not_true_eq_false, if_false, Option.some_bind,
        Option.bind_eq_bind]
      rw [ih _ his]
      simp [termEvents, List.filter_cons, ht]
    · simp only [hi, if_true, ht, ne_eq, not_false_eq_true, Option.some_bind,
        Option.bind_eq_bind]
      rw [ih _ his]
      simp [termEvents, List.filter_cons, ht, callTermFunc]

theorem finalize_chain (thread k : Nat) (es : List TLVTerminatorListEntry) (w : World)
    (hc : ChainAfter thread k es w) :
    tlv_finalize (w.tsd thread w.tlv_terminators_key) w =
      some (free (w.tsd thread w.tlv_terminators_key)
        { w with trace := w.trace ++ termEvents es }) := by
  obtain ⟨_, _, hch, hlen⟩ := hc
  unfold chainOf at hch
  unfold tlv_finalize
  simp only [hch]
  rw [finalize_fold (fun i => es.getD i garbageTermEntry) (2 ^ k)]
  · simp only [Option.map_some']
    have : ((List.range (k + 1)).reverse.map (fun i => es.getD i garbageTermEntry)).reverse = es := by
      rw [List.map_reverse, List.reverse_reverse, ← hlen]
      exact range_map_getD es
    rw [this]
  · intro i hi
    simp only [List.mem_reverse, List.mem_range] at hi
    have := @Nat.lt_two_pow k
    omega

theorem termCalls_append (s t : List Event) : termCalls (s ++ t) = termCalls s ++ termCalls t := by
  simp [termCalls]

theorem termCalls_termEvents (es : List TLVTerminatorListEntry) :
    termCalls (termEvents es) =
      (es.reverse.filter (fun e => e.termFunc ≠ 0)).map (fun e => (e.termFunc, e.objAddr)) := by
  simp only [termCalls, termEvents, List.filterMap_map]
  rw [← List.filterMap_eq_map]
  rfl

/-- C13: a thread without a chain appends the entries `es` in order and then
exits.  Up to `maxAppends` entries the appends and the exit are defined and the
finalizer calls added to the trace are exactly those of the entries with a
non-null finalizer, each once with its own object address, last appended
first; the chain's block is freed after them.  With one entry more the last
append is undefined: the capacity doubles on every append, so the doubled
capacity has wrapped to a block without room for the entries copied into it. -/
theorem finalizers_run_in_reverse (a : Arch) (thread : Nat) (es : List TLVTerminatorListEntry)
    (w0 : World) (h0 : w0.tsd thread w0.tlv_terminators_key = 0) (hne : es ≠ []) :
    (es.length ≤ maxAppends a →
      ∃ w1 w2, atexitAll a thread es w0 = some w1
        ∧ tlv_finalize (w1.tsd thread w1.tlv_terminators_key) w1 = some w2
        ∧ termCalls w2.trace = termCalls w0.trace ++
            (es.reverse.filter (fun e => e.termFunc ≠ 0)).map (fun e => (e.termFunc, e.objAddr))
        ∧ w2.trace = w1.trace ++ termEvents es
            ++ [Event.freed (w1.tsd thread w1.tlv_terminators_key)])
    ∧ (es.length = maxAppends a + 1 → atexitAll a thread es w0 = none) := by
  refine ⟨fun hn => ?_, atexitAll_overflow a thread es w0 h0⟩
  obtain ⟨w1, e1, _, e3, e4⟩ := atexitAll_chain a thread es w0 h0 hne hn
  refine ⟨w1, _, e1, finalize_chain thread _ es w1 e4, ?_, ?_⟩
  · simp only [free, termCalls_append, e3, termCalls_termEvents]
    simp [termCalls]
  · simp [free]

theorem finalizers_run_in_reverse_witness :
    atexitAll Arch.lp64 1 exChain33 exWorld = none
    ∧ (∃ w1 w2, atexitAll Arch.lp64 1 exChainABC exWorld = some w1
        ∧ tlv_finalize (w1.tsd 1 w1.tlv_terminators_key) w1 = some w2
        ∧ termCalls w2.trace = termCalls exWorld.trace ++
            (exChainABC.reverse.filter (fun e => e.termFunc ≠ 0)).map
              (fun e => (e.termFunc, e.objAddr))
        ∧ w2.trace = w1.trace ++ termEvents exChainABC
            ++ [Event.freed (w1.tsd 1 w1.tlv_terminators_key)])
    ∧ (exChainABC.reverse.filter (fun e => e.termFunc ≠ 0)).map
        (fun e => (e.termFunc, e.objAddr)) = [(0xC0, 3), (0xB0, 2), (0xA0, 1)] :=
  ⟨(finalizers_run_in_reverse Arch.lp64 1 exChain33 exWorld (by decide) (by decide)).2
      (by decide),
    (finalizers_run_in_reverse Arch.lp64 1 exChainABC exWorld (by decide) (by decide)).1
      (by decide), by decide⟩

/-- C14: the first append of a thread creates a chain of capacity 1 holding
that entry.  Every later append (up to `maxAppends`) doubles the capacity,
whether or not the chain is full: after three or more appends the chain is not
full, and the next append still doubles it. -/
theorem chain_growth (a : Arch) (thread func objAddr : Nat) (es : List TLVTerminatorListEntry)
    (w0 : World) (h0 : w0.tsd thread w0.tlv_terminators_key = 0) :
    (∃ w1, _tlv_atexit a thread func objAddr w0 = some w1
        ∧ chainOf thread w1 = some ⟨1, 1, 1, [⟨func, objAddr⟩]⟩)
    ∧ (es ≠ [] → es.length + 1 ≤ maxAppends a →
        ∃ w1 w2 l1 l2, atexitAll a thread es w0 = some w1
          ∧ chainOf thread w1 = some l1
          ∧ _tlv_atexit a thread func objAddr w1 = some w2
          ∧ chainOf thread w2 = some l2
          ∧ l2.allocCount = 2 * l1.allocCount
          ∧ l2.capacity = 2 * l1.capacity
          ∧ (3 ≤ es.length → l1.useCount < l1.allocCount)) := by
  constructor
  · obtain ⟨w1, e1, _, _, e4⟩ := atexit_first a thread func objAddr w0 h0
    exact ⟨w1, e1, e4.2.2.1⟩
  · intro hne hn
    obtain ⟨w1, e1, _, _, e4⟩ := atexitAll_chain a thread es w0 h0 hne (by omega)
    have hpos : 0 < es.length := List.length_pos.mpr hne
    obtain ⟨w2, f1, _, _, f4⟩ :=
      atexit_next a thread func objAddr (es.length - 1) es w1 e4 (by omega)
    refine ⟨w1, w2, _, _, e1, e4.2.2.1, f1, f4.2.2.1, ?_, ?_, ?_⟩
    · simp only [pow_succ]; omega
    · simp only [pow_succ]; omega
    · intro h3
      simp only
      obtain ⟨m, hm⟩ : ∃ m, es.length = m + 3 := ⟨es.length - 3, by omega⟩
      rw [hm]
      have : m + 3 - 1 = m + 2 := by omega
      rw [this]
      have := @Nat.lt_two_pow (m + 2)
      have h2 : 2 ^ (m + 2) = 2 ^ m * 4 := by rw [pow_add]; norm_num
      have h1 : m < 2 ^ m := Nat.lt_two_pow m
      omega

theorem chain_growth_witness :
    (∃ w1, _tlv_atexit Arch.lp64 1 0xD0 4 exWorld = some w1
        ∧ chainOf 1 w1 = some ⟨1, 1, 1, [⟨0xD0, 4⟩]⟩)
    ∧ (∃ w1 w2 l1 l2, atexitAll Arch.lp64 1 exChainABC exWorld = some w1
          ∧ chainOf 1 w1 = some l1
          ∧ _tlv_atexit Arch.lp64 1 0xD0 4 w1 = some w2
          ∧ chainOf 1 w2 = some l2
          ∧ l2.allocCount = 2 * l1.allocCount
          ∧ l2.capacity = 2 * l1.capacity
          ∧ (3 ≤ exChainABC.length → l1.useCount < l1.allocCount))
    ∧ 3 ≤ exChainABC.length :=
  ⟨(chain_growth Arch.lp64 1 0xD0 4 exChainABC exWorld (by decide)).1,
    (chain_growth Arch.lp64 1 0xD0 4 exChainABC exWorld (by decide)).2 (by decide) (by decide),
    by decide⟩

/-- C20: for a thread that starts without a chain, after the n-th append with
`1 ≤ n ≤ maxAppends` the chain has `useCount = n ≤ allocCount = 2 ^ (n - 1)`,
the block has room for `allocCount` entries, and the entries are the appended
ones in order.  The next append computes a capacity whose block has room for no
entry (the doubling wraps), and the run is undefined after `maxAppends + 1`
appends. -/
theorem chain_bounds (a : Arch) (thread : Nat) (es : List TLVTerminatorListEntry)
    (w0 : World) (h0 : w0.tsd thread w0.tlv_terminators_key = 0) (hne : es ≠ []) :
    (es.length ≤ maxAppends a →
      ∃ w1 l, atexitAll a thread es w0 = some w1
        ∧ chainOf thread w1 = some l
        ∧ l.useCount = es.length
        ∧ l.allocCount = 2 ^ (es.length - 1)
        ∧ l.useCount ≤ l.allocCount
        ∧ l.capacity = l.allocCount
        ∧ l.entries = es)
    ∧ entriesCapacity a (offsetofEntries a ((2 ^ (maxAppends a - 1) * 2) % 2 ^ 32)) = 0
    ∧ (es.length = maxAppends a + 1 → atexitAll a thread es w0 = none) := by
  refine ⟨fun hn => ?_, by cases a <;> decide, atexitAll_overflow a thread es w0 h0⟩
  obtain ⟨w1, e1, _, _, e4⟩ := atexitAll_chain a thread es w0 h0 hne hn
  have hpos : 0 < es.length := List.length_pos.mpr hne
  refine ⟨w1, _, e1, e4.2.2.1, ?_, rfl, ?_, rfl, rfl⟩
  · simp only; omega
  · have := @Nat.lt_two_pow (es.length - 1)
    simp only
    omega

theorem chain_bounds_witness :
    (∃ w1 l, atexitAll Arch.lp64 1 exChainABC exWorld = some w1
        ∧ chainOf 1 w1 = some l
        ∧ l.useCount = exChainABC.length
        ∧ l.allocCount = 2 ^ (exChainABC.length - 1)
        ∧ l.useCount ≤ l.allocCount
        ∧ l.capacity = l.allocCount
        ∧ l.entries = exChainABC)
    ∧ atexitAll Arch.lp64 1 exChain33 exWorld = none :=
  ⟨(chain_bounds Arch.lp64 1 exChainABC exWorld (by decide) (by decide)).1 (by decide),
    (chain_bounds Arch.lp64 1 exChain33 exWorld (by decide) (by decide)).2.2 (by decide)⟩

theorem Frame_refl (buf : Nat) (w : World) : Frame buf w w :=
  ⟨[], by simp, fun _ _ => rfl, by simp, ⟨[], by simp⟩, ⟨[], by simp⟩, rfl⟩

theorem Frame_trans (buf : Nat) (w w1 w2 : World) (h1 : Frame buf w w1) (h2 : Frame buf w1 w2) :
    Frame buf w w2 := by
  obtain ⟨t1, a1, a2, a3, ⟨m1, a4, a5, a6⟩, ⟨hs1, a7⟩, a8⟩ := h1
  obtain ⟨t2, b1, b2, b3, ⟨m2, b4, b5, b6⟩, ⟨hs2, b7⟩, b8⟩ := h2
  refine ⟨t1 ++ t2, by rw [b1, a1, List.append_assoc], ?_, ?_, ⟨m1 ++ m2, ?_, ?_, ?_⟩,
    ⟨hs2 ++ hs1, by rw [b7, a7, List.append_assoc]⟩, b8.trans a8⟩
  · intro hs hf
    simp only [List.mem_append, not_or] at hf
    have e1 := a2 hs hf.1
    rw [b2 (by rw [e1]; exact hs) hf.2, e1]
  · intro h s hm
    simp only [List.mem_append] at hm ⊢
    rcases hm with hm | hm
    · exact Or.inl (a3 h s hm)
    · exact Or.inr (b3 h s hm)
  · rw [b4, a4, List.append_assoc]
  · intro k hk
    simp only [List.mem_append] at hk
    rcases hk with hk | hk
    · exact a5 k hk
    · exact b5 k hk
  · simp only [List.length_append]
    omega

/-- An operation that only adds events, none of them a `deallocated` notification for `buf`. -/
theorem Frame_of_events (buf : Nat) (w w1 : World) (t : List Event)
    (ht : w1.trace = w.trace ++ t) (hheap : w1.heap = w.heap)
    (hk : w1.pthread_keys = w.pthread_keys) (hl : w1.keysLeft = w.keysLeft)
    (hh : w1.tlv_handlers = w.tlv_handlers)
    (htk : w1.tlv_terminators_key = w.tlv_terminators_key)
    (hd : ∀ h s, Event.notified h dyld_tlv_states.dyld_tlv_state_deallocated buf s ∉ t) :
    Frame buf w w1 :=
  ⟨t, ht, fun _ _ => by simp [blockAt, hheap], fun h s hm => absurd hm (hd h s),
    ⟨[], by simp [hk], by simp, by simp [hl]⟩, ⟨[], by simp [hh]⟩, htk⟩

theorem blockAt_cons_fresh (buf : Nat) (heap : List HeapBlock) (b : HeapBlock)
    (hb : b.ptr = freshPtr heap) (hs : (heap.find? (fun x => x.ptr == buf)).isSome) :
    (b :: heap).find? (fun x => x.ptr == buf) = heap.find? (fun x => x.ptr == buf) := by
  rw [List.find?_isSome] at hs
  obtain ⟨x, hx, hxp⟩ := hs
  have := freshPtr_gt heap x hx
  have hne : ¬ b.ptr = buf := by
    simp only [beq_iff_eq] at hxp
    omega
  simp [List.find?_cons, hne]

theorem find_filter_ne (buf p : Nat) (heap : List HeapBlock) (h : p ≠ buf) :
    (heap.filter (fun b => b.ptr != p)).find? (fun x => x.ptr == buf)
      = heap.find? (fun x => x.ptr == buf) := by
  induction heap with
  | nil => rfl
  | cons b bs ih =>
    by_cases hb : b.ptr = p
    · have h1 : ¬ ((b.ptr != p) = true) := by simp [hb]
      have h2 : (b.ptr == buf) = false := by
        rw [beq_eq_false_iff_ne, hb]
        exact h
      rw [List.filter_cons, if_neg h1]
      simp only [List.find?_cons, h2]
      exact ih
    · have h1 : (b.ptr != p) = true := by simp [hb]
      rw [List.filter_cons, if_pos h1]
      cases hb2 : (b.ptr == buf)
      · simp only [List.find?_cons, hb2]
        exact ih
      · simp only [List.find?_cons, hb2]

theorem Frame_free (buf p : Nat) (w : World) : Frame buf w (free p w) := by
  refine ⟨[Event.freed p], rfl, ?_, ?_, ⟨[], by simp [free], by simp, by simp [free]⟩,
    ⟨[], by simp [free]⟩, rfl⟩
  · intro _ hf
    have hne : p ≠ buf := by
      intro h
      apply hf
      simp [h]
    exact find_filter_ne buf p w.heap hne
  · intro h s hm
    simp at hm

theorem mem_notifyEvents (hs : List TLVHandler) (state : dyld_tlv_states) (p size : Nat)
    (e : Event) (he : e ∈ notifyEvents hs state p size) :
    ∃ h, e = Event.notified h state p size := by
  simp only [notifyEvents, List.mem_map, List.mem_filter] at he
  obtain ⟨h, _, rfl⟩ := he
  exact ⟨h.handler, rfl⟩

theorem tlv_free_eq (p : Nat) (w : World) :
    tlv_free p w =
      { w with
        heap := w.heap.filter (fun b => b.ptr != p)
        chains := fun x => if x = p then none else w.chains x
        trace := w.trace ++ (notifyEvents w.tlv_handlers dyld_tlv_states.dyld_tlv_state_deallocated p
          (malloc_size p w) ++ [Event.freed p]) } := by
  unfold tlv_free
  rw [tlv_notify_eq]
  simp [free]

theorem Frame_tlv_free (buf p : Nat) (w : World) : Frame buf w (tlv_free p w) := by
  rw [tlv_free_eq]
  refine ⟨_, rfl, ?_, ?_, ⟨[], by simp, by simp, by simp⟩, ⟨[], by simp⟩, rfl⟩
  · intro _ hf
    have hne : p ≠ buf := by
      intro h
      apply hf
      simp [h]
    exact find_filter_ne buf p w.heap hne
  · intro h s hm
    simp only [List.mem_append, List.mem_singleton] at hm ⊢
    rcases hm with hm | hm
    · obtain ⟨h1, e1⟩ := mem_notifyEvents _ _ _ _ _ hm
      simp only [Event.notified.injEq] at e1
      right
      rw [e1.2.2.1]
    · exact absurd hm (by simp)

theorem finalize_fold_events (g : Nat → TLVTerminatorListEntry) (cap : Nat) (is : List Nat)
    (w w1 : World)
    (h : is.foldlM (fun w i =>
        if i < cap then
          if (g i).termFunc ≠ 0 then some (callTermFunc (g i) w) else some w
        else none) w = some w1) :
    ∃ tes, w1 = { w with trace := w.trace ++ tes } ∧ ∀ e ∈ tes, ∃ f o, e = Event.term_called f o := by
  induction is generalizing w with
  | nil =>
    simp only [List.foldlM_nil, Option.pure_def, Option.some.injEq] at h
    exact ⟨[], by simp [← h], by simp⟩
  | cons i is ih =>
    rw [List.foldlM_cons] at h
    by_cases hi : i < cap
    · by_cases ht : (g i).termFunc = 0
      · simp only [hi, if_true, ht, ne_eq, not_true_eq_false, if_false, Option.some_bind,
          Option.bind_eq_bind] at h
        exact ih w h
      · simp only [hi, if_true, ht, ne_eq, not_false_eq_true, Option.some_bind,
          Option.bind_eq_bind] at h
        obtain ⟨tes, e1, e2⟩ := ih _ h
        refine ⟨Event.term_called (g i).termFunc (g i).objAddr :: tes, ?_, ?_⟩
        · rw [e1]
          simp [callTermFunc]
        · intro e he
          simp only [List.mem_cons] at he
          rcases he with he | he
          · exact ⟨_, _, he⟩
          · exact e2 e he
    · simp [hi] at h

theorem tlv_finalize_eq (p : Nat) (w w1 : World) (h : tlv_finalize p w = some w1) :
    ∃ tes, w1 = free p { w with trace := w.trace ++ tes }
      ∧ ∀ e ∈ tes, ∃ f o, e = Event.term_called f o := by
  unfold tlv_finalize at h
  cases hc : w.chains p with
  | none => simp [hc] at h
  | some l =>
    simp only [hc, Option.map_eq_some'] at h
    obtain ⟨w2, h2, h3⟩ := h
    obtain ⟨tes, e1, e2⟩ := finalize_fold_events _ _ _ _ _ h2
    exact ⟨tes, by rw [← h3, e1], e2⟩

theorem Frame_tlv_finalize (buf p : Nat) (w w1 : World) (h : tlv_finalize p w = some w1) :
    Frame buf w w1 := by
  obtain ⟨tes, e1, e2⟩ := tlv_finalize_eq p w w1 h
  rw [e1]
  apply Frame_trans buf w { w with trace := w.trace ++ tes }
  · refine Frame_of_events buf w { w with trace := w.trace ++ tes } tes rfl rfl rfl rfl rfl rfl ?_
    intro h s hm
    obtain ⟨f, o, e⟩ := e2 _ hm
    exact Event.noConfusion e
  · exact Frame_free buf p _

theorem Frame_runDestructor (buf : Nat) (D : KeyDestructor) (v : Nat) (w w1 : World)
    (h : runDestructor D v w = some w1) : Frame buf w w1 := by
  cases D with
  | tlv_free =>
    simp only [runDestructor, Option.some.injEq] at h
    rw [← h]
    exact Frame_tlv_free buf v w
  | tlv_finalize => exact Frame_tlv_finalize buf v w w1 h

theorem Frame_tsdCleanupKeys (buf thread : Nat) (keys : List (Nat × KeyDestructor)) (w w1 : World)
    (h : tsdCleanupKeys thread keys w = some w1) : Frame buf w w1 := by
  induction keys generalizing w with
  | nil =>
    simp only [tsdCleanupKeys, List.foldlM_nil, Option.pure_def, Option.some.injEq] at h
    rw [← h]
    exact Frame_refl buf w
  | cons kd ks ih =>
    simp only [tsdCleanupKeys, List.foldlM_cons] at h ih
    by_cases hv : w.tsd thread kd.1 = 0
    · simp only [hv, if_true, Option.some_bind, Option.bind_eq_bind] at h
      exact ih w h
    · simp only [hv, if_false] at h
      cases hd : runDestructor kd.2 (w.tsd thread kd.1)
          { w with tsd := fun t k => if t = thread ∧ k = kd.1 then 0 else w.tsd t k } with
      | none => simp [hd] at h
      | some w2 =>
        simp only [hd, Option.some_bind, Option.bind_eq_bind] at h
        apply Frame_trans buf w w2 w1 _ (ih w2 h)
        apply Frame_trans buf w _ w2 _ (Frame_runDestructor buf _ _ _ _ hd)
        exact Frame_of_events buf w
          { w with tsd := fun t k => if t = thread ∧ k = kd.1 then 0 else w.tsd t k } []
          (by simp) rfl rfl rfl rfl rfl (by simp)

/-- An operation that allocates one block and adds events, none of them a free
or a `deallocated` notification. -/
theorem Frame_of_alloc (buf : Nat) (w w1 : World) (t : List Event) (b : HeapBlock)
    (ht : w1.trace = w.trace ++ t) (hheap : w1.heap = b :: w.heap) (hb : b.ptr = freshPtr w.heap)
    (hk : w1.pthread_keys = w.pthread_keys) (hl : w1.keysLeft = w.keysLeft)
    (hh : w1.tlv_handlers = w.tlv_handlers)
    (htk : w1.tlv_terminators_key = w.tlv_terminators_key)
    (hd : ∀ h s, Event.notified h dyld_tlv_states.dyld_tlv_state_deallocated buf s ∉ t) :
    Frame buf w w1 :=
  ⟨t, ht, fun hs _ => by
      simp only [blockAt, hheap]
      exact blockAt_cons_fresh buf w.heap b hb hs,
    fun h s hm => absurd hm (hd h s),
    ⟨[], by simp [hk], by simp, by simp [hl]⟩, ⟨[], by simp [hh]⟩, htk⟩

theorem Frame_tlv_atexit (a : Arch) (buf thread func objAddr : Nat) (w w1 : World)
    (h : _tlv_atexit a thread func objAddr w = some w1) : Frame buf w w1 := by
  unfold _tlv_atexit at h
  by_cases h0 : pthread_getspecific thread w.tlv_terminators_key w = 0
  · simp only [h0, if_true] at h
    by_cases hc : 0 < entriesCapacity a (offsetofEntries a 1)
    · simp only [hc, if_true, Option.some.injEq] at h
      rw [← h]
      exact Frame_of_alloc buf w _ [Event.setspecific thread w.tlv_terminators_key (freshPtr w.heap)]
        ⟨freshPtr w.heap, w.good_size (offsetofEntries a 1), List.replicate (offsetofEntries a 1) 0⟩
        (by simp [pthread_setspecific, malloc]) (by simp [pthread_setspecific, malloc]) rfl
        (by simp [pthread_setspecific, malloc]) (by simp [pthread_setspecific, malloc])
        (by simp [pthread_setspecific, malloc]) (by simp [pthread_setspecific, malloc])
        (by simp)
    · simp [hc] at h
  · simp only [h0, if_false] at h
    cases hl : w.chains (pthread_getspecific thread w.tlv_terminators_key w) with
    | none => simp [hl] at h
    | some l =>
      simp only [hl, if_true] at h
      by_cases hc : l.useCount ≤ l.capacity ∧
          l.useCount ≤ entriesCapacity a (offsetofEntries a ((l.allocCount * 2) % 2 ^ 32))
      · simp only [hc, and_self, if_true] at h
        by_cases hu : l.useCount <
            entriesCapacity a (offsetofEntries a ((l.allocCount * 2) % 2 ^ 32))
        · simp only [hu, if_true, Option.some.injEq] at h
          rw [← h]
          apply Frame_trans buf w
            (pthread_setspecific thread w.tlv_terminators_key
              (malloc (offsetofEntries a ((l.allocCount * 2) % 2 ^ 32)) w).1
              { (malloc (offsetofEntries a ((l.allocCount * 2) % 2 ^ 32)) w).2 with
                chains := fun x =>
                  if x = (malloc (offsetofEntries a ((l.allocCount * 2) % 2 ^ 32)) w).1 then
                    some
                      { allocCount := (l.allocCount * 2) % 2 ^ 32
                        useCount := l.useCount
                        capacity := entriesCapacity a
                          (offsetofEntries a ((l.allocCount * 2) % 2 ^ 32))
                        entries :=
                          (List.range l.useCount).map (fun i => l.entries.getD i garbageTermEntry) }
                  else (malloc (offsetofEntries a ((l.allocCount * 2) % 2 ^ 32)) w).2.chains x })
          · exact Frame_of_alloc buf w _
              [Event.setspecific thread w.tlv_terminators_key (freshPtr w.heap)]
              ⟨freshPtr w.heap, w.good_size (offsetofEntries a ((l.allocCount * 2) % 2 ^ 32)),
                List.replicate (offsetofEntries a ((l.allocCount * 2) % 2 ^ 32)) 0⟩
              (by simp [pthread_setspecific, malloc]) (by simp [pthread_setspecific, malloc]) rfl
              (by simp [pthread_setspecific, malloc]) (by simp [pthread_setspecific, malloc])
              (by simp [pthread_setspecific, malloc]) (by simp [pthread_setspecific, malloc])
              (by simp)
          · apply Frame_trans buf _ _ _
              (Frame_free buf (pthread_getspecific thread w.tlv_terminators_key w) _)
            exact Frame_of_events buf _ _ [] (by simp) rfl rfl rfl rfl rfl (by simp)
        · rw [if_neg hu] at h
          exact Option.noConfusion h
      · rw [if_neg hc] at h
        exact Option.noConfusion h

theorem not_mem_notify_allocated (hs : List TLVHandler) (p size h buf s : Nat) :
    Event.notified h dyld_tlv_states.dyld_tlv_state_deallocated buf s ∉
      notifyEvents hs dyld_tlv_states.dyld_tlv_state_allocated p size := by
  intro hm
  obtain ⟨_, e⟩ := mem_notifyEvents _ _ _ _ _ hm
  simp at e

theorem not_mem_initEvents (a : Arch) (thread slide : Nat) (funcs : Nat → Nat)
    (sects : List macho_section) (h : Nat) (st : dyld_tlv_states) (buf s : Nat) :
    Event.notified h st buf s ∉ initEvents a thread slide funcs sects := by
  simp [initEvents]

theorem Frame_allocate (a : Arch) (buf thread key : Nat) (w : World) :
    Frame buf w (tlv_allocate_and_initialize_for_key a thread key w).2 := by
  by_cases hmh : tlv_get_image_for_key key w = 0
  · unfold tlv_allocate_and_initialize_for_key
    simp only [hmh, if_true]
    exact Frame_refl buf w
  · rw [allocate_eq a thread key _ w rfl hmh]
    obtain ⟨f1, f2, f3, f4, _⟩ := allocateAndPublish_fields a thread key (tlv_get_image_for_key key w) w
    have hheap := allocateAndPublish_heap a thread key (tlv_get_image_for_key key w) w
    have hkeys : (allocateAndPublish a thread key (tlv_get_image_for_key key w) w).2.pthread_keys
        = w.pthread_keys := by
      simp [allocateAndPublish, malloc, memcpy, pthread_setspecific]
    have hleft : (allocateAndPublish a thread key (tlv_get_image_for_key key w) w).2.keysLeft
        = w.keysLeft := by
      simp [allocateAndPublish, malloc, memcpy, pthread_setspecific]
    have htk : (allocateAndPublish a thread key (tlv_get_image_for_key key w) w).2.tlv_terminators_key
        = w.tlv_terminators_key := by
      simp [allocateAndPublish, malloc, memcpy, pthread_setspecific]
    simp only
    rw [tlv_notify_eq, secondPass_eq]
    split_ifs
    · refine Frame_of_alloc buf w _ _ _ (by simp only [f2, List.append_assoc]; rfl) hheap rfl
        hkeys hleft f3 htk ?_
      intro h s hm
      simp [not_mem_notify_allocated, not_mem_initEvents] at hm
    · refine Frame_of_alloc buf w _ _ _ (by simp only [f2, List.append_assoc]; rfl) hheap rfl
        hkeys hleft f3 htk ?_
      intro h s hm
      simp [not_mem_notify_allocated] at hm

theorem Frame_tls_get_addr (a : Arch) (buf thread : Nat) (tlvd : TLVDescriptor) (w : World) :
    Frame buf w (__tls_get_addr a thread tlvd w).2 := by
  unfold __tls_get_addr
  simp only
  split_ifs
  · exact Frame_allocate a buf thread tlvd.key w
  · exact Frame_refl buf w

theorem Frame_register_handler (buf : Nat) (state : dyld_tlv_states) (handler : Nat) (w : World) :
    Frame buf w (iosdyld_register_tlv_state_change_handler state handler w) :=
  ⟨[], by simp [iosdyld_register_tlv_state_change_handler], fun _ _ => rfl, by simp,
    ⟨[], by simp [iosdyld_register_tlv_state_change_handler], by simp,
      by simp [iosdyld_register_tlv_state_change_handler]⟩,
    ⟨[⟨handler, state⟩], by simp [iosdyld_register_tlv_state_change_handler]⟩, rfl⟩

theorem Frame_enumerate (buf thread handler : Nat) (w : World) :
    Frame buf w (iosdyld_enumerate_tlv_storage thread handler w) := by
  unfold iosdyld_enumerate_tlv_storage
  simp only
  rw [enumerate_fold]
  refine Frame_of_events buf w _ _ rfl rfl rfl rfl rfl rfl ?_
  intro h s hm
  simp only [List.mem_filterMap] at hm
  obtain ⟨p, _, hp⟩ := hm
  split_ifs at hp
  simp at hp

theorem set_key_frame_heap (mh key : Nat) (w : World) :
    (tlv_set_key_for_image mh key w).heap = w.heap
    ∧ (tlv_set_key_for_image mh key w).tlv_handlers = w.tlv_handlers
    ∧ (tlv_set_key_for_image mh key w).tlv_terminators_key = w.tlv_terminators_key := by
  unfold tlv_set_key_for_image
  simp only
  split_ifs <;> simp

theorem Frame_ensureKey (buf mh key : Nat) (w : World) (r : Nat × World)
    (h : ensureKey mh key w = some r) : Frame buf w r.2 := by
  by_cases h0 : key = 0
  · subst h0
    rw [ensureKey_zero] at h
    by_cases hl : w.keysLeft = 0
    · simp [hl] at h
    · simp only [hl, if_false, Option.some.injEq] at h
      rw [← h]
      obtain ⟨_, f2, _, f4, _, f6⟩ := set_key_frame mh w.nextKey
        { w with
          pthread_keys := w.pthread_keys ++ [(w.nextKey, KeyDestructor.tlv_free)]
          nextKey := w.nextKey + 1
          keysLeft := w.keysLeft - 1 }
      obtain ⟨g1, g2, g3⟩ := set_key_frame_heap mh w.nextKey
        { w with
          pthread_keys := w.pthread_keys ++ [(w.nextKey, KeyDestructor.tlv_free)]
          nextKey := w.nextKey + 1
          keysLeft := w.keysLeft - 1 }
      refine ⟨[], by simp [f2], fun _ _ => by simp [blockAt, g1], by simp,
        ⟨[(w.nextKey, KeyDestructor.tlv_free)], by simp [f4], by simp, ?_⟩, ⟨[], by simp [g2]⟩,
        by simp [g3]⟩
      simp only [f6, List.length_singleton]
      omega
  · rw [ensureKey_of_ne_zero mh key w h0] at h
    simp only [Option.some.injEq] at h
    rw [← h]
    exact Frame_refl buf w

theorem Frame_applyWrites (a : Arch) (buf key ts : Nat) (ws : List (Nat × Bool)) (w : World) :
    Frame buf w (applyWrites a key ts ws w) := by
  rw [applyWrites_eq]
  refine Frame_of_events buf w _ (ws.map writeEvent) rfl rfl rfl rfl rfl rfl ?_
  intro h s hm
  simp [writeEvent] at hm

theorem Frame_reachSteps (a : Arch) (buf mh ts : Nat) (rs : List (Nat × macho_section))
    (key : Nat) (w : World) (r : Nat × World)
    (h : rs.foldlM (reachStep a mh ts) (key, w) = some r) : Frame buf w r.2 := by
  induction rs generalizing key w with
  | nil =>
    simp only [List.foldlM_nil, Option.pure_def, Option.some.injEq] at h
    rw [← h]
    exact Frame_refl buf w
  | cons r0 rs ih =>
    rw [List.foldlM_cons] at h
    simp only [reachStep] at h
    cases he : ensureKey mh key w with
    | none => simp [he] at h
    | some r1 =>
      simp only [he, Option.map_some', Option.some_bind, Option.bind_eq_bind] at h
      exact Frame_trans buf w r1.2 r.2 (Frame_ensureKey buf mh key w r1 he)
        (Frame_trans buf r1.2 _ r.2 (Frame_applyWrites a buf r1.1 ts _ r1.2) (ih _ _ h))

theorem Frame_patchLoop (a : Arch) (buf mh : Nat) (w : World) (st : PatchLocals × World)
    (h : patchLoop a mh w = some st) : Frame buf w st.2 := by
  rw [patchLoop_eq] at h
  simp only [Option.map_eq_some'] at h
  obtain ⟨r, h1, h2⟩ := h
  rw [← h2]
  exact Frame_reachSteps a buf mh _ _ 0 w r h1

theorem Frame_add_image (a : Arch) (buf mh slide : Nat) (w w1 : World)
    (h : init_tlv_on_add_image a mh slide w = some w1) : Frame buf w w1 := by
  simp only [init_tlv_on_add_image, tlv_initialize_descriptors, Option.map_eq_some'] at h
  obtain ⟨st, h1, h2⟩ := h
  rw [← h2]
  exact Frame_patchLoop a buf mh w st h1

theorem Frame_step (a : Arch) (buf : Nat) (op : Op) (w w1 : World) (h : step a w op = some w1) :
    Frame buf w w1 := by
  cases op with
  | add_image mh =>
    simp only [step] at h
    have hl : Frame buf w { w with loaded := w.loaded ++ [mh] } :=
      Frame_of_events buf w { w with loaded := w.loaded ++ [mh] } [] (by simp) rfl rfl rfl rfl
        rfl (by simp)
    split_ifs at h
    · exact Frame_trans buf w _ w1 hl (Frame_add_image a buf mh 0 _ w1 h)
    · simp only [Option.some.injEq] at h
      rw [← h]
      exact hl
  | tls_get_addr thread d =>
    simp only [step, Option.some.injEq] at h
    rw [← h]
    exact Frame_tls_get_addr a buf thread (w.descs d) w
  | tlv_atexit thread func objAddr => exact Frame_tlv_atexit a buf thread func objAddr w w1 h
  | register_handler state handler =>
    simp only [step, Option.some.injEq] at h
    rw [← h]
    exact Frame_register_handler buf state handler w
  | enumerate thread handler =>
    simp only [step, Option.some.injEq] at h
    rw [← h]
    exact Frame_enumerate buf thread handler w
  | thread_exit thread => exact Frame_tsdCleanupKeys buf thread w.pthread_keys w w1 h

theorem Frame_run (a : Arch) (buf : Nat) (ops : List Op) (w w1 : World)
    (h : run a w ops = some w1) : Frame buf w w1 := by
  induction ops generalizing w with
  | nil =>
    simp only [run, List.foldlM_nil, Option.pure_def, Option.some.injEq] at h
    rw [← h]
    exact Frame_refl buf w
  | cons op ops ih =>
    simp only [run, List.foldlM_cons] at h ih
    cases hs : step a w op with
    | none => simp [hs] at h
    | some w2 =>
      simp only [hs, Option.some_bind, Option.bind_eq_bind] at h
      exact Frame_trans buf w w2 w1 (Frame_step a buf op w w2 hs) (ih w2 h)

theorem allocate_trace (a : Arch) (thread key mh : Nat) (w : World)
    (hreg : tlv_get_image_for_key key w = mh) (hmh : mh ≠ 0) :
    (tlv_allocate_and_initialize_for_key a thread key w).1 = freshPtr w.heap
    ∧ (tlv_allocate_and_initialize_for_key a thread key w).2.trace =
        w.trace ++ Event.setspecific thread key (freshPtr w.heap)
          :: (notifyEvents w.tlv_handlers dyld_tlv_states.dyld_tlv_state_allocated
                (freshPtr w.heap) (w.good_size (firstPass a mh (w.image mh).cmds).size)
              ++ initEvents a thread (firstPass a mh (w.image mh).cmds).slide w.funcs
                  (allSections (w.image mh).cmds))
    ∧ malloc_size (freshPtr w.heap) (tlv_allocate_and_initialize_for_key a thread key w).2
        = w.good_size (firstPass a mh (w.image mh).cmds).size
    ∧ (blockAt (freshPtr w.heap) (tlv_allocate_and_initialize_for_key a thread key w).2).isSome
    ∧ (tlv_allocate_and_initialize_for_key a thread key w).2.tlv_handlers = w.tlv_handlers := by
  have he := allocate_eq a thread key mh w hreg hmh
  obtain ⟨f1, f2, f3, f4, _⟩ := allocateAndPublish_fields a thread key mh w
  have hheap := allocateAndPublish_heap a thread key mh w
  have hms : malloc_size (freshPtr w.heap) (allocateAndPublish a thread key mh w).2
      = w.good_size (firstPass a mh (w.image mh).cmds).size := by
    simp [malloc_size, hheap]
  have hini := (firstPass_slide a mh (w.image mh).cmds).2
  rw [he]
  simp only [f1]
  by_cases hi : (firstPass a mh (w.image mh).cmds).hasInitializers = true
  · simp only [hi, if_true]
    rw [secondPass_eq, tlv_notify_eq]
    refine ⟨trivial, by simp [f2, f3, f4, hms], by simp [malloc_size, hheap],
      by simp [blockAt, hheap], by simp [f3]⟩
  · have hnil : (allSections (w.image mh).cmds).filter isInitSection = [] := by
      rw [List.filter_eq_nil_iff]
      intro x hx hxi
      apply hi
      rw [hini, List.any_eq_true]
      exact ⟨x, hx, hxi⟩
    simp only [hi]
    rw [tlv_notify_eq]
    refine ⟨trivial, by simp [f2, f3, hms, initEvents, hnil], by simp [malloc_size, hheap],
      by simp [blockAt, hheap], by simp [f3]⟩

theorem mem_notifyEvents_of_mem (hs : List TLVHandler) (state : dyld_tlv_states) (p size h : Nat)
    (hm : (⟨h, state⟩ : TLVHandler) ∈ hs) (h0 : h ≠ 0) :
    Event.notified h state p size ∈ notifyEvents hs state p size := by
  simp only [notifyEvents, List.mem_map, List.mem_filter]
  exact ⟨⟨h, state⟩, ⟨hm, by simp [h0]⟩, rfl⟩

theorem malloc_size_of_blockAt (p : Nat) (w w1 : World) (h : blockAt p w1 = blockAt p w) :
    malloc_size p w1 = malloc_size p w := by
  unfold blockAt at h
  unfold malloc_size
  rw [h]

/-- C16: a thread's first access to the data of a module registered for the
slot `key` allocates the buffer `buf`; later, after any operations and after
the destructors the platform ran earlier in the same exit, `tlv_free` runs on
`buf`, which has not been freed since.  Then the trace is: the former trace,
the publication of `buf`, the `allocated` notifications of the handlers
registered at the access, with `buf` and its size, the initializer calls, the
events in between (no `deallocated` notification for `buf` among them), the
`deallocated` notifications of the handlers registered at the exit, with `buf`
and the same size, and last the free of `buf`.  Handlers registered at the
access are still registered at the exit.  So for every registered `allocated`
handler and every registered `deallocated` handler the allocated notification
for `buf` precedes the deallocated one, which precedes the free, and both
carry the same address and size. -/
theorem notification_order (a : Arch) (thread key mh buf : Nat) (w w1 w2 w3 : World)
    (ops : List Op) (exiting : Nat) (earlier : List (Nat × KeyDestructor))
    (tsd1 : Nat → Nat → Nat)
    (hreg : tlv_get_image_for_key key w = mh) (hmh : mh ≠ 0)
    (halloc : tlv_allocate_and_initialize_for_key a thread key w = (buf, w1))
    (hrun : run a w1 ops = some w2)
    (hpre : tsdCleanupKeys exiting earlier w2 = some w3)
    (hlive : Event.freed buf ∉ newEvents w1 w3) :
    (tlv_free buf { w3 with tsd := tsd1 }).trace =
        w.trace
          ++ Event.setspecific thread key buf
            :: (notifyEvents w.tlv_handlers dyld_tlv_states.dyld_tlv_state_allocated buf
                  (w.good_size (firstPass a mh (w.image mh).cmds).size)
                ++ initEvents a thread (firstPass a mh (w.image mh).cmds).slide w.funcs
                    (allSections (w.image mh).cmds))
          ++ newEvents w1 w3
          ++ notifyEvents w3.tlv_handlers dyld_tlv_states.dyld_tlv_state_deallocated buf
              (w.good_size (firstPass a mh (w.image mh).cmds).size)
          ++ [Event.freed buf]
    ∧ (∀ h s, Event.notified h dyld_tlv_states.dyld_tlv_state_deallocated buf s ∉ newEvents w1 w3)
    ∧ (∃ hs, w3.tlv_handlers = hs ++ w.tlv_handlers)
    ∧ (∀ h1 h2, (⟨h1, dyld_tlv_states.dyld_tlv_state_allocated⟩ : TLVHandler) ∈ w.tlv_handlers →
        h1 ≠ 0 →
        (⟨h2, dyld_tlv_states.dyld_tlv_state_deallocated⟩ : TLVHandler) ∈ w3.tlv_handlers →
        h2 ≠ 0 →
        ∃ t1 t2 t3, (tlv_free buf { w3 with tsd := tsd1 }).trace =
          t1 ++ Event.notified h1 dyld_tlv_states.dyld_tlv_state_allocated buf
                  (w.good_size (firstPass a mh (w.image mh).cmds).size)
            :: (t2 ++ Event.notified h2 dyld_tlv_states.dyld_tlv_state_deallocated buf
                  (w.good_size (firstPass a mh (w.image mh).cmds).size)
              :: (t3 ++ [Event.freed buf]))) := by
  obtain ⟨e1, e2, e3, e4, e5⟩ := allocate_trace a thread key mh w hreg hmh
  rw [halloc] at e1 e2 e3 e4 e5
  simp only at e1 e2 e3 e4 e5
  rw [← e1] at e2 e3 e4
  have hf : Frame buf w1 w3 :=
    Frame_trans buf w1 w2 w3 (Frame_run a buf ops w1 w2 hrun)
      (Frame_tsdCleanupKeys buf exiting earlier w2 w3 hpre)
  obtain ⟨t, g1, g2, g3, _, ⟨hs, g5⟩, _⟩ := hf
  have hnew : newEvents w1 w3 = t := newEvents_append w1 w3 t g1
  rw [hnew] at hlive ⊢
  have hblock := g2 e4 hlive
  have hsize : malloc_size buf { w3 with tsd := tsd1 }
      = w.good_size (firstPass a mh (w.image mh).cmds).size := by
    rw [← e3]
    exact malloc_size_of_blockAt buf w1 _ hblock
  have htrace : (tlv_free buf { w3 with tsd := tsd1 }).trace =
      w.trace
        ++ Event.setspecific thread key buf
          :: (notifyEvents w.tlv_handlers dyld_tlv_states.dyld_tlv_state_allocated buf
                (w.good_size (firstPass a mh (w.image mh).cmds).size)
              ++ initEvents a thread (firstPass a mh (w.image mh).cmds).slide w.funcs
                  (allSections (w.image mh).cmds))
        ++ t
        ++ notifyEvents w3.tlv_handlers dyld_tlv_states.dyld_tlv_state_deallocated buf
            (w.good_size (firstPass a mh (w.image mh).cmds).size)
        ++ [Event.freed buf] := by
    rw [tlv_free_eq, hsize]
    simp only [g1, e2, List.append_assoc]
  refine ⟨htrace, fun h s hm => hlive (g3 h s hm), ⟨hs, by rw [g5, e5]⟩, ?_⟩
  intro h1 h2 m1 n1 m2 n2
  obtain ⟨p1, q1, r1⟩ := List.append_of_mem
    (mem_notifyEvents_of_mem _ _ buf (w.good_size (firstPass a mh (w.image mh).cmds).size) h1 m1 n1)
  obtain ⟨p2, q2, r2⟩ := List.append_of_mem
    (mem_notifyEvents_of_mem _ _ buf (w.good_size (firstPass a mh (w.image mh).cmds).size) h2 m2 n2)
  refine ⟨w.trace ++ Event.setspecific thread key buf :: p1,
    q1 ++ initEvents a thread (firstPass a mh (w.image mh).cmds).slide w.funcs
      (allSections (w.image mh).cmds) ++ t ++ p2, q2, ?_⟩
  rw [htrace, r1, r2]
  simp only [List.append_assoc, List.cons_append]

theorem notification_order_witness :
    tlv_get_image_for_key 6 exInitialized = 0x5000
    ∧ exAllocated.1 = 16
    ∧ Event.freed 16 ∉ newEvents exAllocated.2 exChainFinalized
    ∧ (tlv_free 16 { exChainFinalized with tsd := fun _ _ => 0 }).trace =
        [Event.patched 0x6100 false, Event.patched 0x610c false, Event.patched 0x6200 true,
          Event.setspecific 1 6 16,
          Event.notified 7 dyld_tlv_states.dyld_tlv_state_allocated 16 24,
          Event.init_called 1 25349, Event.init_called 1 25345,
          Event.setspecific 1 5 56, Event.term_called 0xA0 1, Event.freed 56,
          Event.notified 8 dyld_tlv_states.dyld_tlv_state_deallocated 16 24,
          Event.freed 16]
    ∧ (pthread_tsd_cleanup 1 exBeforeExit).map (fun w => w.trace)
        = some (tlv_free 16 { exChainFinalized with tsd := fun _ _ => 0 }).trace := by
  have h := notification_order Arch.ilp32 1 6 0x5000 16 exInitialized exAllocated.2 exBeforeExit
    exChainFinalized [Op.tlv_atexit 1 0xA0 1] 1 [(5, KeyDestructor.tlv_finalize)] (fun _ _ => 0)
    (by decide) (by decide) rfl rfl rfl (by decide)
  exact ⟨by decide, by decide, by decide, h.1.trans (by decide), by decide⟩

theorem runDestructor_events (D : KeyDestructor) (v : Nat) (vals : List Nat) (w w1 : World)
    (hv : v ∈ vals) (h : runDestructor D v w = some w1) :
    ∃ t, w1.trace = w.trace ++ t ∧ (∀ e ∈ t, isExitEvent D vals e = true) ∧ w1.tsd = w.tsd := by
  cases D with
  | tlv_free =>
    simp only [runDestructor, Option.some.injEq] at h
    rw [← h, tlv_free_eq]
    refine ⟨_, rfl, ?_, rfl⟩
    intro e he
    simp only [List.mem_append, List.mem_singleton] at he
    rcases he with he | he
    · obtain ⟨h1, e1⟩ := mem_notifyEvents _ _ _ _ _ he
      rw [e1]
      simp [isExitEvent, isStorageExitEvent, hv]
    · rw [he]
      simp [isExitEvent, isStorageExitEvent, hv]
  | tlv_finalize =>
    obtain ⟨tes, e1, e2⟩ := tlv_finalize_eq v w w1 h
    rw [e1]
    refine ⟨tes ++ [Event.freed v], by simp [free], ?_, rfl⟩
    intro e he
    simp only [List.mem_append, List.mem_singleton] at he
    rcases he with he | he
    · obtain ⟨f, o, e3⟩ := e2 e he
      rw [e3]
      rfl
    · rw [he]
      simp [isExitEvent, isChainExitEvent, hv]

theorem cleanup_events (thread : Nat) (D : KeyDestructor) (ks : List (Nat × KeyDestructor))
    (vals : List Nat) (w w1 : World) (hks : ∀ k ∈ ks, k.2 = D)
    (hv : ∀ k ∈ ks, w.tsd thread k.1 = 0 ∨ w.tsd thread k.1 ∈ vals)
    (h : tsdCleanupKeys thread ks w = some w1) :
    ∃ t, w1.trace = w.trace ++ t ∧ (∀ e ∈ t, isExitEvent D vals e = true)
      ∧ (∀ k, w1.tsd thread k = w.tsd thread k ∨ w1.tsd thread k = 0) := by
  induction ks generalizing w with
  | nil =>
    simp only [tsdCleanupKeys, List.foldlM_nil, Option.pure_def, Option.some.injEq] at h
    rw [← h]
    exact ⟨[], by simp, by simp, fun k => Or.inl rfl⟩
  | cons kd ks ih =>
    simp only [tsdCleanupKeys, List.foldlM_cons] at h ih
    have hks2 : ∀ k ∈ ks, k.2 = D := fun k hk => hks k (List.mem_cons_of_mem _ hk)
    by_cases hz : w.tsd thread kd.1 = 0
    · simp only [hz, if_true, Option.some_bind, Option.bind_eq_bind] at h
      exact ih w hks2 (fun k hk => hv k (List.mem_cons_of_mem _ hk)) h
    · simp only [hz, if_false] at h
      have hD : kd.2 = D := hks kd (List.mem_cons_self _ _)
      have hmem : w.tsd thread kd.1 ∈ vals := by
        rcases hv kd (List.mem_cons_self _ _) with h1 | h1
        · exact absurd h1 hz
        · exact h1
      cases hd : runDestructor kd.2 (w.tsd thread kd.1)
          { w with tsd := fun t k => if t = thread ∧ k = kd.1 then 0 else w.tsd t k } with
      | none => simp [hd] at h
      | some w2 =>
        simp only [hd, Option.some_bind, Option.bind_eq_bind] at h
        rw [hD] at hd
        obtain ⟨t1, a1, a2, a3⟩ := runDestructor_events D _ vals _ w2 hmem hd
        have hv2 : ∀ k ∈ ks, w2.tsd thread k.1 = 0 ∨ w2.tsd thread k.1 ∈ vals := by
          intro k hk
          rw [a3]
          simp only [true_and]
          split_ifs
          · exact Or.inl rfl
          · exact hv k (List.mem_cons_of_mem _ hk)
        obtain ⟨t2, b1, b2, b3⟩ := ih w2 hks2 hv2 h
        refine ⟨t1 ++ t2, by rw [b1, a1]; simp, ?_, ?_⟩
        · intro e he
          simp only [List.mem_append] at he
          rcases he with he | he
          · exact a2 e he
          · exact b2 e he
        · intro k
          rcases b3 k with h1 | h1
          · rw [h1, a3]
            simp only [true_and]
            split_ifs
            · exact Or.inr rfl
            · exact Or.inl rfl
          · exact Or.inr h1

theorem Frame_loaded (a : Arch) (buf : Nat) (loaded : List Nat) (w w1 : World)
    (h : loaded.foldlM (fun w mh => init_tlv_on_add_image a mh 0 w) w = some w1) :
    Frame buf w w1 := by
  induction loaded generalizing w with
  | nil =>
    simp only [List.foldlM_nil, Option.pure_def, Option.some.injEq] at h
    rw [← h]
    exact Frame_refl buf w
  | cons mh ms ih =>
    rw [List.foldlM_cons] at h
    cases hs : init_tlv_on_add_image a mh 0 w with
    | none => simp [hs] at h
    | some w2 =>
      simp only [hs, Option.some_bind, Option.bind_eq_bind] at h
      exact Frame_trans buf w w2 w1 (Frame_add_image a buf mh 0 w w2 hs) (ih w2 h)

theorem Frame_register_add_image (a : Arch) (buf : Nat) (w w1 : World)
    (h : dyld_register_func_for_add_image a w = some w1) : Frame buf w w1 := by
  unfold dyld_register_func_for_add_image at h
  exact Frame_trans buf w _ w1
    (Frame_of_events buf w { w with add_image_registered := true } [] (by simp) rfl rfl rfl rfl
      rfl (by simp))
    (Frame_loaded a buf w.loaded _ w1 h)

/-- The keys after initialization and any operations: the former keys, the
chain's key when the platform had a key left, then module keys. -/
theorem keys_after_init (a : Arch) (w0 w1 w2 : World) (ops : List Op)
    (hinit : tlv_initializer a w0 = some w1) (hrun : run a w1 ops = some w2) :
    ∃ mods, (∀ k ∈ mods, k.2 = KeyDestructor.tlv_free)
      ∧ (0 < w0.keysLeft →
          w2.pthread_keys = w0.pthread_keys ++ (w0.nextKey, KeyDestructor.tlv_finalize) :: mods
          ∧ w1.tlv_terminators_key = w0.nextKey
          ∧ w2.tlv_terminators_key = w0.nextKey)
      ∧ (w0.keysLeft = 0 → w2.pthread_keys = w0.pthread_keys ∧ mods = []) := by
  obtain ⟨_, _, _, _, ⟨m2, b1, b2, b3⟩, _, b4⟩ := Frame_run a 0 ops w1 w2 hrun
  unfold tlv_initializer at hinit
  by_cases hl : w0.keysLeft = 0
  · simp only [pthread_key_create, hl, if_true] at hinit
    obtain ⟨_, _, _, _, ⟨m1, a1, a2, a3⟩, _, a4⟩ := Frame_register_add_image a 0 w0 w1 hinit
    have hm1 : m1 = [] := List.eq_nil_of_length_eq_zero (by omega)
    have hm2 : m2 = [] := List.eq_nil_of_length_eq_zero (by omega)
    refine ⟨[], by simp, fun h => absurd hl (by omega), fun _ => ⟨?_, rfl⟩⟩
    rw [b1, a1, hm1, hm2]
    simp
  · simp only [pthread_key_create, hl, if_false] at hinit
    obtain ⟨_, _, _, _, ⟨m1, a1, a2, a3⟩, _, a4⟩ := Frame_register_add_image a 0 _ w1 hinit
    simp only at a1 a3 a4
    refine ⟨m1 ++ m2, ?_, fun _ => ⟨?_, a4, b4.trans a4⟩, fun h => absurd h hl⟩
    · intro k hk
      simp only [List.mem_append] at hk
      rcases hk with hk | hk
      · exact a2 k hk
      · exact b2 k hk
    · rw [b1, a1]
      simp

theorem mem_exitValues (thread : Nat) (D : KeyDestructor) (w : World) (k : Nat × KeyDestructor)
    (hk : k ∈ w.pthread_keys) (hD : k.2 = D) :
    w.tsd thread k.1 = 0 ∨ w.tsd thread k.1 ∈ exitValues thread D w := by
  by_cases hz : w.tsd thread k.1 = 0
  · exact Or.inl hz
  · right
    simp only [exitValues, List.mem_filter, List.mem_map, decide_eq_true_eq]
    exact ⟨⟨k, ⟨hk, hD⟩, rfl⟩, hz⟩

theorem tsdCleanupKeys_append (thread : Nat) (ks1 ks2 : List (Nat × KeyDestructor)) (w : World) :
    tsdCleanupKeys thread (ks1 ++ ks2) w
      = (tsdCleanupKeys thread ks1 w).bind (tsdCleanupKeys thread ks2) := by
  simp only [tsdCleanupKeys, List.foldlM_append]
  rfl

/-- A thread exit with the chain keys before the storage keys: the events split
into those of the chain's destructor and, after them, those of the storage
destructor. -/
theorem exit_split (thread : Nat) (fins frees : List (Nat × KeyDestructor)) (w2 w3 : World)
    (hkeys : w2.pthread_keys = fins ++ frees)
    (hf : ∀ k ∈ fins, k.2 = KeyDestructor.tlv_finalize)
    (hr : ∀ k ∈ frees, k.2 = KeyDestructor.tlv_free)
    (hexit : pthread_tsd_cleanup thread w2 = some w3) :
    ∃ t1 t2, newEvents w2 w3 = t1 ++ t2
      ∧ (∀ e ∈ t1, isChainExitEvent (exitValues thread KeyDestructor.tlv_finalize w2) e = true)
      ∧ (∀ e ∈ t2, isStorageExitEvent (exitValues thread KeyDestructor.tlv_free w2) e = true) := by
  unfold pthread_tsd_cleanup at hexit
  rw [hkeys, tsdCleanupKeys_append] at hexit
  cases h1 : tsdCleanupKeys thread fins w2 with
  | none => simp [h1] at hexit
  | some wm =>
    simp only [h1, Option.some_bind] at hexit
    obtain ⟨t1, a1, a2, a3⟩ := cleanup_events thread KeyDestructor.tlv_finalize fins
      (exitValues thread KeyDestructor.tlv_finalize w2) w2 wm hf
      (fun k hk => mem_exitValues thread _ w2 k (by rw [hkeys]; simp [hk]) (hf k hk)) h1
    have hv : ∀ k ∈ frees, wm.tsd thread k.1 = 0
        ∨ wm.tsd thread k.1 ∈ exitValues thread KeyDestructor.tlv_free w2 := by
      intro k hk
      rcases a3 k.1 with h | h
      · rw [h]
        exact mem_exitValues thread _ w2 k (by rw [hkeys]; simp [hk]) (hr k hk)
      · exact Or.inl h
    obtain ⟨t2, b1, b2, _⟩ := cleanup_events thread KeyDestructor.tlv_free frees
      (exitValues thread KeyDestructor.tlv_free w2) wm w3 hr hv hexit
    refine ⟨t1, t2, ?_, a2, b2⟩
    apply newEvents_append
    rw [b1, a1, List.append_assoc]

theorem mem_prefix_of_split (A mods pre post : List (Nat × KeyDestructor))
    (c k : Nat × KeyDestructor) (h : pre ++ k :: post = A ++ c :: mods)
    (hA : ∀ x ∈ A, x.2 = KeyDestructor.tlv_finalize) (hc : c.2 = KeyDestructor.tlv_finalize)
    (hk : k.2 = KeyDestructor.tlv_free) : c ∈ pre := by
  have h2 : pre ++ k :: post = (A ++ [c]) ++ mods := by rw [h]; simp
  rw [List.append_eq_append_iff] at h2
  rcases h2 with ⟨a1, e1, e2⟩ | ⟨c1, e1, _⟩
  · cases a1 with
    | nil =>
      simp only [List.append_nil] at e1
      rw [← e1]
      simp
    | cons x xs =>
      simp only [List.cons_append, List.cons.injEq] at e2
      have hx : x ∈ A ++ [c] := by rw [e1]; simp
      rw [← e2.1] at hx
      simp only [List.mem_append, List.mem_singleton] at hx
      rcases hx with hx | hx
      · rw [hA k hx] at hk
        exact KeyDestructor.noConfusion hk
      · rw [hx, hc] at hk
        exact KeyDestructor.noConfusion hk
  · rw [e1]
    simp

/-- C17: initialization creates the chain's key first and registers the
module-load callback from the state that has it.  So in every execution that
starts with initialization in a state without module keys, whatever operations
follow, every module key (a key with the storage destructor) comes after the
chain's key in creation order; when the platform had a key left the keys are
the former ones, the chain's key, then module keys only.  At a thread exit,
where the platform runs the destructors in key creation order, the events
split in two parts: first finalizer calls and frees of the thread's chain
values only, then `deallocated` notifications and frees of the thread's module
buffers only.  Every finalizer call precedes every deallocation notification
and every free of a module buffer. -/
theorem chain_slot_created_first (a : Arch) (w0 w1 w2 w3 : World) (ops : List Op) (thread : Nat)
    (h0 : ∀ k ∈ w0.pthread_keys, k.2 = KeyDestructor.tlv_finalize)
    (hinit : tlv_initializer a w0 = some w1)
    (hrun : run a w1 ops = some w2)
    (hexit : pthread_tsd_cleanup thread w2 = some w3) :
    (0 < w0.keysLeft →
        (∃ wk, pthread_key_create KeyDestructor.tlv_finalize w0 = some (w0.nextKey, wk)
          ∧ tlv_initializer a w0
              = dyld_register_func_for_add_image a { wk with tlv_terminators_key := w0.nextKey })
        ∧ w2.tlv_terminators_key = w0.nextKey
        ∧ ∃ mods, w2.pthread_keys
              = w0.pthread_keys ++ (w0.nextKey, KeyDestructor.tlv_finalize) :: mods
            ∧ ∀ k ∈ mods, k.2 = KeyDestructor.tlv_free)
    ∧ (∀ pre k post, w2.pthread_keys = pre ++ k :: post → k.2 = KeyDestructor.tlv_free →
        (w2.tlv_terminators_key, KeyDestructor.tlv_finalize) ∈ pre)
    ∧ ∃ t1 t2, newEvents w2 w3 = t1 ++ t2
        ∧ (∀ e ∈ t1, isChainExitEvent (exitValues thread KeyDestructor.tlv_finalize w2) e = true)
        ∧ (∀ e ∈ t2, isStorageExitEvent (exitValues thread KeyDestructor.tlv_free w2) e = true) := by
  obtain ⟨mods, m1, m2, m3⟩ := keys_after_init a w0 w1 w2 ops hinit hrun
  refine ⟨?_, ?_, ?_⟩
  · intro hl
    obtain ⟨k1, _, k3⟩ := m2 hl
    refine ⟨?_, k3, mods, k1, m1⟩
    have hne : ¬ w0.keysLeft = 0 := by omega
    refine ⟨{ w0 with
        pthread_keys := w0.pthread_keys ++ [(w0.nextKey, KeyDestructor.tlv_finalize)]
        nextKey := w0.nextKey + 1
        keysLeft := w0.keysLeft - 1 }, by simp only [pthread_key_create, hne, if_false], ?_⟩
    simp only [tlv_initializer, pthread_key_create, hne, if_false]
  · intro pre k post hsplit hk
    by_cases hl : w0.keysLeft = 0
    · obtain ⟨k1, _⟩ := m3 hl
      have hmem : k ∈ w0.pthread_keys := by
        rw [← k1, hsplit]
        simp
      rw [h0 k hmem] at hk
      exact KeyDestructor.noConfusion hk
    · obtain ⟨k1, _, k3⟩ := m2 (by omega)
      rw [k3]
      rw [k1] at hsplit
      exact mem_prefix_of_split _ _ _ _ _ _ hsplit.symm h0 rfl hk
  · by_cases hl : w0.keysLeft = 0
    · obtain ⟨k1, _⟩ := m3 hl
      exact exit_split thread w0.pthread_keys [] w2 w3 (by rw [k1]; simp) h0 (by simp) hexit
    · obtain ⟨k1, _, _⟩ := m2 (by omega)
      refine exit_split thread (w0.pthread_keys ++ [(w0.nextKey, KeyDestructor.tlv_finalize)])
        mods w2 w3 (by rw [k1]; simp) ?_ m1 hexit
      intro k hk
      simp only [List.mem_append, List.mem_singleton] at hk
      rcases hk with hk | hk
      · exact h0 k hk
      · rw [hk]

theorem chain_slot_created_first_witness :
    exRan.pthread_keys = [(5, KeyDestructor.tlv_finalize), (6, KeyDestructor.tlv_free)]
    ∧ exRan.tlv_terminators_key = 5
    ∧ newEvents exRan exExited =
        [Event.term_called 0xC0 3, Event.term_called 0xB0 2, Event.term_called 0xA0 1,
          Event.freed 128,
          Event.notified 8 dyld_tlv_states.dyld_tlv_state_deallocated 16 24, Event.freed 16]
    ∧ exitValues 1 KeyDestructor.tlv_finalize exRan = [128]
    ∧ exitValues 1 KeyDestructor.tlv_free exRan = [16]
    ∧ ∃ t1 t2, newEvents exRan exExited = t1 ++ t2
        ∧ (∀ e ∈ t1, isChainExitEvent (exitValues 1 KeyDestructor.tlv_finalize exRan) e = true)
        ∧ (∀ e ∈ t2, isStorageExitEvent (exitValues 1 KeyDestructor.tlv_free exRan) e = true) := by
  have h := chain_slot_created_first Arch.ilp32 exLoaded exInitialized exRan exExited exOps 1
    (by decide) rfl rfl rfl
  exact ⟨by decide, by decide, by decide, by decide, by decide, h.2.2⟩

theorem scanSections_start (a : Arch) (sects : List macho_section) (st : ScanState) :
    (st.start ≠ 0 → (sects.foldl (scanSection a) st).start = st.start)
    ∧ (st.start = 0 → sects.find? isTemplateSection = none →
        (sects.foldl (scanSection a) st).start = 0)
    ∧ (st.start = 0 → ∀ t, sects.find? isTemplateSection = some t →
        (t.addr + st.slide) % a.wordMod ≠ 0 →
        (sects.foldl (scanSection a) st).start = (t.addr + st.slide) % a.wordMod) := by
  induction sects generalizing st with
  | nil => simp
  | cons s ss ih =>
    have hr := scanSection_range a st s
    have hs := (scanSection_slide a st s).1
    obtain ⟨i1, i2, i3⟩ := ih (scanSection a st s)
    rw [List.foldl_cons]
    by_cases ht : isTemplateSection s = true
    · simp only [ht, if_true, templateStep] at hr
      refine ⟨?_, ?_, ?_⟩
      · intro h0
        simp only [h0, if_false, Prod.mk.injEq] at hr
        rw [i1 (by rw [hr.1]; exact h0), hr.1]
      · intro _ hf
        simp [List.find?_cons, ht] at hf
      · intro h0 t hf hA
        simp only [List.find?_cons, ht, Option.some.injEq] at hf
        subst hf
        simp only [h0, if_true, Prod.mk.injEq] at hr
        rw [i1 (by rw [hr.1]; exact hA), hr.1]
    · simp only [ht, Bool.false_eq_true, if_false, Prod.mk.injEq] at hr
      have hf : ∀ r, (s :: ss).find? isTemplateSection = r ↔ ss.find? isTemplateSection = r := by
        intro r
        simp [List.find?_cons, ht]
      refine ⟨?_, ?_, ?_⟩
      · intro h0
        rw [i1 (by rw [hr.1]; exact h0), hr.1]
      · intro h0 hn
        exact i2 (by rw [hr.1]; exact h0) ((hf _).mp hn)
      · intro h0 t hn hA
        rw [← hs]
        exact i3 (by rw [hr.1]; exact h0) t ((hf _).mp hn) (by rw [hs]; exact hA)

theorem scanCommands_start_const (a : Arch) (mh : Nat) (cmds : List load_command) (st : ScanState)
    (h : st.start ≠ 0) : (cmds.foldl (scanCommand a mh) st).start = st.start := by
  induction cmds generalizing st with
  | nil => rfl
  | cons c cs ih =>
    rw [List.foldl_cons]
    cases c with
    | other => exact ih st h
    | segment seg =>
      have h1 : (scanCommand a mh st (load_command.segment seg)).start = st.start := by
        simp only [scanCommand]
        rw [(scanSections_start a seg.sects _).1]
        · split_ifs <;> rfl
        · split_ifs <;> exact h
      rw [ih _ (by rw [h1]; exact h), h1]

/-- The two scans run in step: same slide, and the same template start as long
as the first template section found is not at the null address. -/
theorem scans_in_step (a : Arch) (mh : Nat) (cmds : List load_command) (st : ScanState)
    (l : PatchLocals) (hs : st.slide = l.slide) (hc : st.slideComputed = l.slideComputed)
    (h0 : st.start = 0) (hl : l.tlvstart = 0)
    (hlead : leadingTemplate a mh st.slideComputed st.slide cmds ≠ some 0) :
    (cmds.foldl (scanCommand a mh) st).start = (localsAfter a mh l cmds).tlvstart
    ∧ (cmds.foldl (scanCommand a mh) st).start
        = (leadingTemplate a mh st.slideComputed st.slide cmds).getD 0 := by
  induction cmds generalizing st l with
  | nil => simp [localsAfter, leadingTemplate, h0, hl]
  | cons c cs ih =>
    rw [List.foldl_cons]
    cases c with
    | other =>
      simp only [leadingTemplate] at hlead ⊢
      exact ih st l hs hc h0 hl hlead
    | segment seg =>
      simp only [localsAfter]
      have hst1 : ∀ st1 : ScanState,
          st1 = (if (!st.slideComputed && seg.filesize != 0) = true then
            ({ st with slide := computeSlide a mh seg, slideComputed := true } : ScanState)
            else st) →
          st1.start = 0
          ∧ st1.slide = (if (!st.slideComputed && seg.filesize != 0) = true then
              computeSlide a mh seg else st.slide)
          ∧ st1.slideComputed = (st.slideComputed || seg.filesize != 0) := by
        intro st1 e
        rw [e]
        split_ifs with hq
        · simp only [Bool.and_eq_true] at hq
          simp [h0, hq.2]
        · refine ⟨h0, rfl, ?_⟩
          cases hsc : st.slideComputed
          · simp [hsc] at hq
            simp [hq]
          · simp
      obtain ⟨a1, a2, a3⟩ := hst1 _ rfl
      have hscan : scanCommand a mh st (load_command.segment seg) =
          seg.sects.foldl (scanSection a)
            (if (!st.slideComputed && seg.filesize != 0) = true then
              ({ st with slide := computeSlide a mh seg, slideComputed := true } : ScanState)
              else st) := rfl
      obtain ⟨b1, b2, b3⟩ := scanSections_start a seg.sects
        (if (!st.slideComputed && seg.filesize != 0) = true then
          ({ st with slide := computeSlide a mh seg, slideComputed := true } : ScanState)
          else st)
      obtain ⟨c1, c2, _⟩ := scanSections_slide a seg.sects
        (if (!st.slideComputed && seg.filesize != 0) = true then
          ({ st with slide := computeSlide a mh seg, slideComputed := true } : ScanState)
          else st)
      have hl1 : ∀ l1 : PatchLocals,
          l1 = (if (!l.slideComputed && seg.filesize != 0) = true then
            ({ l with slide := computeSlide a mh seg, slideComputed := true } : PatchLocals)
            else l) →
          l1.tlvstart = 0
          ∧ l1.slide = (if (!st.slideComputed && seg.filesize != 0) = true then
              computeSlide a mh seg else st.slide)
          ∧ l1.slideComputed = (st.slideComputed || seg.filesize != 0) := by
        intro l1 e
        rw [e, hc, hs]
        split_ifs with hq
        · simp only [Bool.and_eq_true] at hq
          simp [hl, hq.2]
        · refine ⟨hl, rfl, ?_⟩
          cases hsc : l.slideComputed
          · simp [hsc] at hq
            simp [hq]
          · simp
      obtain ⟨d1, d2, d3⟩ := hl1 _ rfl
      cases hfind : seg.sects.find? isTemplateSection with
      | none =>
        simp only [leadingTemplate, hfind] at hlead ⊢
        have e1 := b2 a1 hfind
        have hseg : segmentLocals a mh l seg =
            { (if (!l.slideComputed && seg.filesize != 0) = true then
                ({ l with slide := computeSlide a mh seg, slideComputed := true } : PatchLocals)
                else l) with tlvstart := 0 } := by
          simp only [segmentLocals, d1, if_true, findTlvStart, hfind]
        rw [hseg, hscan]
        have := ih (seg.sects.foldl (scanSection a)
            (if (!st.slideComputed && seg.filesize != 0) = true then
              ({ st with slide := computeSlide a mh seg, slideComputed := true } : ScanState)
              else st))
          { (if (!l.slideComputed && seg.filesize != 0) = true then
              ({ l with slide := computeSlide a mh seg, slideComputed := true } : PatchLocals)
              else l) with tlvstart := 0 }
          (by rw [c1, a2]; exact d2.symm) (by rw [c2, a3]; exact d3.symm) e1 rfl
          (by rw [c1, c2, a2, a3]; exact hlead)
        rw [c1, c2, a2, a3] at this
        exact this
      | some t =>
        simp only [leadingTemplate, hfind, Option.getD_some] at hlead ⊢
        have hA : (t.addr + (if (!st.slideComputed && seg.filesize != 0) = true then
            computeSlide a mh seg else st.slide)) % a.wordMod ≠ 0 := by
          intro h
          apply hlead
          rw [h]
        have e1 := b3 a1 t hfind (by rw [a2]; exact hA)
        rw [a2] at e1
        have hseg : (segmentLocals a mh l seg).tlvstart =
            (t.addr + (if (!st.slideComputed && seg.filesize != 0) = true then
              computeSlide a mh seg else st.slide)) % a.wordMod := by
          simp only [segmentLocals, d1, if_true, findTlvStart, hfind, d2]
        rw [hscan, scanCommands_start_const a mh cs _ (by rw [e1]; exact hA), e1,
          localsAfter_tlvstart a mh cs _ (by rw [hseg]; exact hA), hseg]
        exact ⟨rfl, rfl⟩

theorem rebase_of_le (W v s : Nat) (h1 : s ≤ v) (h2 : v < W) :
    (v + (W - s % W)) % W = v - s := by
  have hs : s % W = s := Nat.mod_eq_of_lt (by omega)
  rw [hs]
  have e : v + (W - s) = (v - s) + W := by omega
  rw [e, Nat.add_mod_right]
  exact Nat.mod_eq_of_lt (by omega)

/-- C21: when the first template section in scan order is not at the
null address after sliding (or the module has no template section), the
template start the patcher ends with equals the template start of the lazy
allocator's first pass.  Then, for every run of the patcher that returns, the
value of `tlvstart` is the allocator's `start`, and a descriptor written
exactly once from a custom section has its stored offset rebased by the
allocator's `start`; when the stored offset is an address inside the template
`[start, start + size)`, the patched offset is that address minus `start`, it
is below the buffer size, and the byte at that offset of the buffer the
allocator makes for the module (in any state with the same module metadata) is
the byte loaded from that address. -/
theorem template_start_agrees (a : Arch) (mh : Nat) (w : World)
    (hlead : leadingTemplate a mh false 0 (w.image mh).cmds ≠ some 0) :
    patcherTlvStart a mh (w.image mh) = (firstPass a mh (w.image mh).cmds).start
    ∧ (firstPass a mh (w.image mh).cmds).start
        = (leadingTemplate a mh false 0 (w.image mh).cmds).getD 0
    ∧ ∀ l1 w1, patchLoop a mh w = some (l1, w1) →
        l1.tlvstart = (firstPass a mh (w.image mh).cmds).start
        ∧ ∀ d, (newEvents w w1).filter (isWriteTo d) = [Event.patched d false] →
            (w1.descs d).offset
              = ((w.descs d).offset
                  + (a.wordMod - (firstPass a mh (w.image mh).cmds).start % a.wordMod))
                % a.wordMod
            ∧ ((firstPass a mh (w.image mh).cmds).start ≤ (w.descs d).offset →
                (w.descs d).offset
                  < (firstPass a mh (w.image mh).cmds).start
                    + (firstPass a mh (w.image mh).cmds).size →
                (w.descs d).offset < a.wordMod →
                (w1.descs d).offset
                    = (w.descs d).offset - (firstPass a mh (w.image mh).cmds).start
                ∧ (w1.descs d).offset < (firstPass a mh (w.image mh).cmds).size
                ∧ ∀ thread key w2, w2.image mh = w.image mh →
                    ∃ b, (allocateAndPublish a thread key mh w2).2.heap.head? = some b
                      ∧ b.ptr = (allocateAndPublish a thread key mh w2).1
                      ∧ b.data.length = (firstPass a mh (w.image mh).cmds).size
                      ∧ b.data.get? (w1.descs d).offset = some (w2.bytes (w.descs d).offset)) := by
  obtain ⟨s1, s2⟩ := scans_in_step a mh (w.image mh).cmds ⟨0, 0, 0, false, false⟩ initialLocals
    rfl rfl rfl rfl hlead
  have hagree : patcherTlvStart a mh (w.image mh) = (firstPass a mh (w.image mh).cmds).start :=
    s1.symm
  refine ⟨hagree, s2, ?_⟩
  intro l1 w1 hrun
  obtain ⟨h1, h2, _, _, h5, _, _⟩ := patchLoop_effect a mh w w1 l1 hrun
  refine ⟨h1.trans hagree, ?_⟩
  intro d hd
  rw [h2, filter_writeEvents] at hd
  have hoff : (w1.descs d).offset
      = ((w.descs d).offset
          + (a.wordMod - (firstPass a mh (w.image mh).cmds).start % a.wordMod)) % a.wordMod := by
    rw [h5 d, writes_of_single_event _ d false hd, hagree]
    simp [offsetAfter]
  refine ⟨hoff, ?_⟩
  intro hle hlt hW
  have hsub := rebase_of_le a.wordMod _ _ hle hW
  rw [hsub] at hoff
  refine ⟨hoff, by rw [hoff]; omega, ?_⟩
  intro thread key w2 himg
  have hheap := allocateAndPublish_heap a thread key mh w2
  obtain ⟨f1, _⟩ := allocateAndPublish_fields a thread key mh w2
  rw [himg] at hheap
  refine ⟨_, by rw [hheap]; rfl, f1.symm, by simp, ?_⟩
  have hidx : (w.descs d).offset - (firstPass a mh (w.image mh).cmds).start
      < (firstPass a mh (w.image mh).cmds).size := by omega
  rw [hoff]
  simp only [List.get?_eq_getElem?, List.getElem?_map, List.getElem?_range hidx, Option.map_some']
  congr 2
  omega

theorem template_start_agrees_witness :
    leadingTemplate Arch.ilp32 0x5000 false 0 (exVarWorld.image 0x5000).cmds = some 0x6000
    ∧ patcherTlvStart Arch.ilp32 0x5000 (exVarWorld.image 0x5000) = 0x6000
    ∧ (firstPass Arch.ilp32 0x5000 (exVarWorld.image 0x5000).cmds).start = 0x6000
    ∧ (firstPass Arch.ilp32 0x5000 (exVarWorld.image 0x5000).cmds).size = 24
    ∧ exVarPatched.1.tlvstart = 0x6000
    ∧ (exVarWorld.descs 0x6100).offset = 0x6004
    ∧ (exVarPatched.2.descs 0x6100).offset = 4
    ∧ ∃ b, (allocateAndPublish Arch.ilp32 1 5 0x5000 exVarPatched.2).2.heap.head? = some b
        ∧ b.ptr = (allocateAndPublish Arch.ilp32 1 5 0x5000 exVarPatched.2).1
        ∧ b.data.length = 24
        ∧ b.data.get? (exVarPatched.2.descs 0x6100).offset = some (exVarPatched.2.bytes 0x6004) := by
  have h := template_start_agrees Arch.ilp32 0x5000 exVarWorld (by decide)
  have hrun := h.2.2 exVarPatched.1 exVarPatched.2 rfl
  have hd := (hrun.2 0x6100 (by decide)).2 (by decide) (by decide) (by decide)
  exact ⟨by decide, h.1.trans (by decide), by decide, by decide, hrun.1.trans (by decide),
    by decide, hd.1.trans (by decide), hd.2.2 1 5 exVarPatched.2 rfl⟩

theorem filter_of_nodup (ws : List (Nat × Bool)) (d : Nat) (b : Bool)
    (hn : (ws.map Prod.fst).Nodup) (hm : (d, b) ∈ ws) :
    ws.filter (fun wr => wr.1 == d) = [(d, b)] := by
  induction ws with
  | nil => simp at hm
  | cons x xs ih =>
    simp only [List.map_cons, List.nodup_cons, List.mem_map, not_exists, not_and] at hn
    obtain ⟨hx, hxs⟩ := hn
    simp only [List.mem_cons] at hm
    rcases hm with hm | hm
    · subst hm
      have hnil : xs.filter (fun wr => wr.1 == d) = [] := by
        rw [List.filter_eq_nil_iff]
        intro y hy hyd
        simp only [beq_iff_eq] at hyd
        exact hx y hy hyd
      simp [List.filter_cons, hnil]
    · have hne : ¬ x.1 = d := fun h => hx (d, b) hm h.symm
      simp only [List.filter_cons, beq_iff_eq, hne, if_false]
      exact ih hxs hm

/-- C7: the descriptor writes of one run of the patcher are those of the
reached descriptor sections, in order, each flagged with the kind of its
section.  For a descriptor written exactly once in the run: if the write comes
from a custom section (type other than thread-local-variables) its offset after
the run is its offset before the run minus the final value of `tlvstart`,
modulo the word size; if the write comes from a section of type
thread-local-variables its offset is unchanged.  On a module whose descriptor
sections do not overlap (no descriptor address is written twice) this holds of
every descriptor the patcher patches. -/
theorem patched_offset (a : Arch) (mh : Nat) (w w1 : World) (l1 : PatchLocals)
    (hrun : patchLoop a mh w = some (l1, w1)) :
    newEvents w w1 = (moduleWrites a mh (w.image mh)).map writeEvent
    ∧ (∀ d,
      ((newEvents w w1).filter (isWriteTo d) = [Event.patched d false] →
        (w1.descs d).offset
          = ((w.descs d).offset + (a.wordMod - l1.tlvstart % a.wordMod)) % a.wordMod)
      ∧ ((newEvents w w1).filter (isWriteTo d) = [Event.patched d true] →
        (w1.descs d).offset = (w.descs d).offset))
    ∧ (((moduleWrites a mh (w.image mh)).map Prod.fst).Nodup →
        ∀ d isTLVSection, (d, isTLVSection) ∈ moduleWrites a mh (w.image mh) →
          (isTLVSection = false →
            (w1.descs d).offset
              = ((w.descs d).offset + (a.wordMod - l1.tlvstart % a.wordMod)) % a.wordMod)
          ∧ (isTLVSection = true → (w1.descs d).offset = (w.descs d).offset)) := by
  obtain ⟨h1, h2, _, _, h5, _, _⟩ := patchLoop_effect a mh w w1 l1 hrun
  refine ⟨h2, fun d => ⟨?_, ?_⟩, ?_⟩
  · intro hd
    rw [h2, filter_writeEvents] at hd
    rw [h5 d, writes_of_single_event _ d false hd, h1]
    simp [offsetAfter]
  · intro hd
    rw [h2, filter_writeEvents] at hd
    rw [h5 d, writes_of_single_event _ d true hd]
    simp [offsetAfter]
  · intro hn d b hm
    have hf := filter_of_nodup _ d b hn hm
    refine ⟨?_, ?_⟩
    · intro hb
      subst hb
      rw [h5 d, hf, h1]
      simp [offsetAfter]
    · intro hb
      subst hb
      rw [h5 d, hf]
      simp [offsetAfter]

theorem patched_offset_witness :
    patchLoop Arch.ilp32 0x5000 exWorld = some (exPatched.1, exPatched.2)
    ∧ exPatched.1.tlvstart = 0x6000
    ∧ moduleWrites Arch.ilp32 0x5000 (exWorld.image 0x5000)
        = [(0x6100, false), (0x610c, false), (0x6200, true)]
    ∧ (exWorld.descs 0x6100).offset = 0x6100
    ∧ (exPatched.2.descs 0x6100).offset = 0x100
    ∧ (exPatched.2.descs 0x6200).offset = (exWorld.descs 0x6200).offset
    ∧ (exPatched.2.descs 0x610c).offset = 0x10c :=
  ⟨rfl, by decide, by decide, by decide,
    (((patched_offset Arch.ilp32 0x5000 exWorld exPatched.2 exPatched.1 rfl).2.1 0x6100).1
      (by decide)).trans (by decide),
    ((patched_offset Arch.ilp32 0x5000 exWorld exPatched.2 exPatched.1 rfl).2.1 0x6200).2
      (by decide),
    (((patched_offset Arch.ilp32 0x5000 exWorld exPatched.2 exPatched.1 rfl).2.2 (by decide)
      0x610c false (by decide)).1 rfl).trans (by decide)⟩

theorem pow_two_le_limit (a : Arch) (j n : Nat) (hn : n < registryLimit a)
    (h : j = 0 ∨ 8 * 2 ^ j < 2 * n) : 8 * 2 ^ j ≤ registryLimit a := by
  rcases h with h | h
  · subst h
    cases a <;> simp [registryLimit]
  · have e : 8 * 2 ^ j = 2 ^ (j + 3) := by rw [pow_add]; ring
    rw [e] at h ⊢
    cases a with
    | ilp32 =>
      simp only [registryLimit] at hn ⊢
      have h2 : 2 ^ (j + 3) < 2 ^ 29 := by
        have : (2 : Nat) ^ 29 = 2 * 2 ^ 28 := by norm_num
        omega
      have hj : j + 3 < 29 := (Nat.pow_lt_pow_iff_right (by norm_num)).mp h2
      exact Nat.pow_le_pow_right (by norm_num) (by omega)
    | lp64 =>
      simp only [registryLimit] at hn ⊢
      have h2 : 2 ^ (j + 3) < 2 ^ 32 := by
        have : (2 : Nat) ^ 32 = 2 * 2 ^ 31 := by norm_num
        omega
      have hj : j + 3 < 32 := (Nat.pow_lt_pow_iff_right (by norm_num)).mp h2
      exact Nat.pow_le_pow_right (by norm_num) (by omega)

/-- Every registry reached from the empty one by fewer than `registryLimit a`
register calls has room for one more entry. -/
theorem registryRoom_of_registerAll (a : Arch) (regs : List (Nat × Nat)) (w0 : World)
    (h0 : registryState w0 = (none, 0, 0)) (hn : regs.length < registryLimit a) :
    registryRoom a (registerAll regs w0) := by
  have hl := registryLimit_le a
  obtain ⟨i1, _, i3, i4⟩ := registerAll_invariant regs w0 h0 (by omega)
  by_cases hx : regs = []
  · have hs := i3 hx
    simp only [registryState, Prod.mk.injEq] at hs
    obtain ⟨s1, s2, s3⟩ := hs
    refine ⟨?_, by rw [s2]; omega, by rw [s3]; omega⟩
    unfold registryFits
    rw [s1]
    exact ⟨s2, s3⟩
  · obtain ⟨j1, ⟨j, j2, j3⟩, buf, j4, j5⟩ := i4 hx
    have hpos : 0 < regs.length := List.length_pos.mpr hx
    have hlim : (registerAll regs w0).tlv_live_image_alloc_count ≤ registryLimit a := by
      rw [j2]
      apply pow_two_le_limit a j regs.length hn
      rcases j3 with j3 | j3
      · exact Or.inl j3
      · right
        rw [← j2]
        exact j3
    refine ⟨?_, hlim, by rw [i1]; exact hn⟩
    unfold registryFits
    rw [j4]
    refine ⟨j5, by rw [i1]; exact j1, by omega, by omega, by rw [i1]; omega⟩

/-- C11: for every registry state with room for one more entry on the target
(consistent, at most `registryLimit a` entries allocated, fewer in use), module
`m` and slot `k`: after `tlv_set_key_for_image m k` the lookup of `k` returns
`m` when no earlier entry has slot `k`; the lookup of every other slot returns
what it returned before; the lookup of a slot no entry ever had returns null,
before and after the call.  Every registry reached from the empty one by fewer
than `registryLimit a` register calls is such a state. -/
theorem registry_lookup_after_register (a : Arch) (m k : Nat) (w : World)
    (h : registryRoom a w) :
    ((∀ e ∈ registryEntries w, e.key ≠ k) →
        tlv_get_image_for_key k (tlv_set_key_for_image m k w) = m)
    ∧ (∀ k1, k1 ≠ k →
        tlv_get_image_for_key k1 (tlv_set_key_for_image m k w) = tlv_get_image_for_key k1 w)
    ∧ (∀ k1, (∀ e ∈ registryEntries w, e.key ≠ k1) → tlv_get_image_for_key k1 w = 0)
    ∧ (∀ k1, k1 ≠ k → (∀ e ∈ registryEntries w, e.key ≠ k1) →
        tlv_get_image_for_key k1 (tlv_set_key_for_image m k w) = 0)
    ∧ (∀ (regs : List (Nat × Nat)) (w0 : World), registryState w0 = (none, 0, 0) →
        regs.length < registryLimit a → registryRoom a (registerAll regs w0)) := by
  have happ := (set_key_appends_of_room m k w h.1).1
  have hother : ∀ k1, k1 ≠ k →
      tlv_get_image_for_key k1 (tlv_set_key_for_image m k w) = tlv_get_image_for_key k1 w := by
    intro k1 hk
    rw [lookup_eq, lookup_eq, happ, List.find?_append]
    cases hf : (registryEntries w).find? (fun e => e.key == k1) with
    | some e => simp
    | none =>
      have : ¬ k = k1 := fun h => hk h.symm
      simp [List.find?_cons, this]
  refine ⟨?_, hother, fun k1 h1 => lookup_of_no_entry k1 w h1, ?_,
    fun regs w0 h0 hn => registryRoom_of_registerAll a regs w0 h0 hn⟩
  · intro hno
    rw [lookup_eq, happ, List.find?_append]
    have : (registryEntries w).find? (fun e => e.key == k) = none := by
      rw [List.find?_eq_none]
      intro e he
      simpa using hno e he
    simp [this, List.find?_cons]
  · intro k1 hk h1
    rw [hother k1 hk]
    exact lookup_of_no_entry k1 w h1

theorem registry_lookup_after_register_witness :
    registryRoom Arch.ilp32 exRegistered
    ∧ tlv_get_image_for_key 6 (tlv_set_key_for_image 0x9000 6 exRegistered) = 0x9000
    ∧ tlv_get_image_for_key 5 (tlv_set_key_for_image 0x9000 6 exRegistered) = 0x5000
    ∧ tlv_get_image_for_key 7 (tlv_set_key_for_image 0x9000 6 exRegistered) = 0 := by
  have hroom : registryRoom Arch.ilp32 exRegistered := by
    refine ⟨?_, by decide, by decide⟩
    show (_ ∧ _ ∧ _ ∧ _ ∧ _)
    decide
  have h := registry_lookup_after_register Arch.ilp32 0x9000 6 exRegistered hroom
  exact ⟨hroom, h.1 (by decide), (h.2.1 5 (by decide)).trans (by decide),
    h.2.2.2.1 7 (by decide) (by decide)⟩

end TLV
